import Mathlib

/-!
# Buffer pool and heap-file scan: a shallow embedding

The definitions below follow `part3/buf.C` (class `BufMgr`) and
`Stage4/heapfile.C` (classes `HeapFile`, `HeapFileScan`).  Calls that leave the
two files (the file store, the hash table of `buf.h`, the slotted page of
`page.h`) are either parameters (`FileOps`) or small models written from the
design document; each such model says so in its doc comment.

Conventions.
* A function whose C++ original may fail to return normally (a loop that is not
  known to finish, a dereference of a null `File*`, a read past the end of a
  buffer) returns an `Option`; `none` stands for "no normal return".
* A C++ reference out-parameter is returned as an `Option`: `some v` when the
  callee assigned `v`, `none` when it left the caller's variable untouched.
* Frame numbers of a pool of `N` frames have type `Fin N`.
-/

set_option autoImplicit false

/-! ## Status codes and basic types -/

/-- Status codes of `error.h`: those the two source files and the design
mention, and two codes (`NORECORDS`, `INVALIDSLOTNO`) for the failures of the
slotted page whose code the design leaves open. -/
inductive Status where
  | OK
  | FILEEXISTS
  | FILENOTFOUND
  | NOMORERECS
  | NOSPACE
  | INVALIDRECLEN
  | BADSCANPARM
  | HASHNOTFOUND
  | HASHTBLERROR
  | BUFFEREXCEEDED
  | PAGENOTPINNED
  | PAGEPINNED
  | BADBUFFER
  | UNIXERR
  | FILEEOF
  | NORECORDS
  | INVALIDSLOTNO
  deriving DecidableEq, Repr

/-- Identity of a `File` object; two handles are equal iff they are the same
object (pointer equality in the source). -/
abbrev File := Nat

/-- One byte. -/
abbrev Byte := Fin 256

/-- Record identifier `(pageNo, slotNo)`. -/
structure RID where
  pageNo : Int
  slotNo : Int
  deriving DecidableEq, Repr

/-- The sentinel `NULLRID`. -/
def NULLRID : RID := ⟨-1, -1⟩

/-- A record as the heap file sees it: a byte buffer and the signed `length`
field of `struct Record`. -/
structure Record where
  data : List Byte
  length : Int
  deriving DecidableEq, Repr

/-- Modelled from the spec: the `Page` class of `page.h` is absent.  A frame's
bytes are read through two views.  The header view (`FileHdrPage`, reached by
the cast in `heapfile.C`) has the fields `fileName`, `firstPage`, `lastPage`,
`pageCnt`, `recCnt`; the slotted view has the page's own number, the
next-page link (`-1` if none) and a slot directory in which a deleted record
leaves an empty slot. -/
structure Page where
  fileName : List Byte
  firstPage : Int
  lastPage : Int
  pageCnt : Int
  recCnt : Int
  curPage : Int
  nextPage : Int
  slots : List (Option Record)
  deriving DecidableEq, Repr

/-- The all-zero page produced by `memset(bufPool, 0, ...)`. -/
def Page.zero : Page := ⟨[], 0, 0, 0, 0, 0, 0, []⟩

/-! ## Buffer descriptors -/

/-- Modelled from the spec: `BufDesc` is declared in `buf.h`, which is absent.
Fields as in section 3 of the design (`pin_count` is a non-negative integer;
`file` is a possibly null `File*`). -/
structure BufDesc where
  file : Option File
  pageNo : Int
  frameNo : Nat
  pinCnt : Nat
  dirty : Bool
  valid : Bool
  refbit : Bool
  deriving DecidableEq, Repr

/-- Modelled from the spec: `BufDesc::Clear` of `buf.h` ("clear the
descriptor": the frame becomes invalid with all bits cleared, no file, page
number `-1`). -/
def BufDesc.Clear (d : BufDesc) : BufDesc :=
  { d with file := none, pageNo := -1, pinCnt := 0, dirty := false, valid := false,
           refbit := false }

/-- Modelled from the spec: `BufDesc::Set` of `buf.h` ("initialize the
descriptor with `pin_count = 1`, `ref_bit = true`, `dirty = false`,
`valid = true`"). -/
def BufDesc.Set (d : BufDesc) (file : File) (pageNo : Int) : BufDesc :=
  { d with file := some file, pageNo := pageNo, pinCnt := 1, dirty := false, valid := true,
           refbit := true }

/-! ## The page index (`BufHashTbl`) -/

/-- One entry `(file, pageNo) ↦ frameNo` of the page index.  The `File*` of an
entry is never null: `insert` is reached only after a call through that same
pointer (`file->readPage`, `file->allocatePage`). -/
structure HashEntry (N : Nat) where
  file : File
  pageNo : Int
  frameNo : Fin N
  deriving DecidableEq, Repr

/-- Whether an entry carries the key `(file, pageNo)`. -/
def HashEntry.hasKey {N : Nat} (e : HashEntry N) (file : Option File) (pageNo : Int) : Bool :=
  decide (some e.file = file ∧ e.pageNo = pageNo)

/-- Modelled from the spec: `BufHashTbl::lookup` of the absent hash table.
`some frameNo` is status `OK`, `none` is `HASHNOTFOUND`. -/
def BufHashTbl.lookup {N : Nat} (ht : List (HashEntry N)) (file : Option File) (pageNo : Int) :
    Option (Fin N) :=
  (ht.find? (fun e => e.hasKey file pageNo)).map (fun e => e.frameNo)

/-- Modelled from the spec: `BufHashTbl::insert`; a duplicate key fails with
`HASHTBLERROR` and leaves the table alone. -/
def BufHashTbl.insert {N : Nat} (ht : List (HashEntry N)) (file : File) (pageNo : Int)
    (frameNo : Fin N) : Status × List (HashEntry N) :=
  if ht.any (fun e => e.hasKey (some file) pageNo) then (Status.HASHTBLERROR, ht)
  else (Status.OK, ⟨file, pageNo, frameNo⟩ :: ht)

/-- Modelled from the spec: `BufHashTbl::remove`; a missing key fails with
`HASHNOTFOUND`. -/
def BufHashTbl.remove {N : Nat} (ht : List (HashEntry N)) (file : Option File) (pageNo : Int) :
    Status × List (HashEntry N) :=
  if ht.any (fun e => e.hasKey file pageNo) then
    (Status.OK, ht.eraseP (fun e => e.hasKey file pageNo))
  else (Status.HASHNOTFOUND, ht)

/-! ## The file store -/

/-- The calls the buffer manager makes on a `File` (class `File` of the I/O
layer is external).  `σ` is the state of the store.  `readPage` receives the
old contents of the destination buffer and returns its new contents. -/
structure FileOps (σ : Type) where
  readPage : σ → File → Int → Page → Status × Page × σ
  writePage : σ → File → Int → Page → Status × σ
  allocatePage : σ → File → Status × Int × σ
  disposePage : σ → File → Int → Status × σ
  getFirstPage : σ → File → Status × Int

/-- The calls `heapfile.C` makes on the global `db` object (external).  A
successful `openFile` yields the `File*`. -/
structure DbOps (σ : Type) where
  openFile : σ → String → Status × Option File × σ
  closeFile : σ → File → Status × σ
  createFile : σ → String → Status × σ
  destroyFile : σ → String → Status × σ

/-- A call made on the file store, recorded in order of issue. -/
inductive StoreCall (N : Nat) where
  | read (file : File) (pageNo : Int) (frame : Fin N)
  | write (file : File) (pageNo : Int) (contents : Page)
  | allocate (file : File)
  | dispose (file : File) (pageNo : Int)
  deriving DecidableEq, Repr

/-! ## The buffer manager -/

/-- State of a `BufMgr` with `numBufs = N`, together with the state of the
file store behind it and the log of calls made on the store. -/
structure BufMgr (σ : Type) (N : Nat) where
  bufTable : Fin N → BufDesc
  bufPool : Fin N → Page
  hashTable : List (HashEntry N)
  clockHand : Fin N
  diskreads : Nat
  disk : σ
  calls : List (StoreCall N)

namespace BufMgr

variable {σ : Type} {N : Nat}

/-- Constructor `BufMgr::BufMgr(bufs)` for `bufs = N ≥ 1`. -/
def new (hN : 0 < N) (disk : σ) : BufMgr σ N :=
  { bufTable := fun i => ⟨none, 0, i.val, 0, false, false, false⟩
    bufPool := fun _ => Page.zero
    hashTable := []
    clockHand := ⟨N - 1, Nat.sub_lt hN Nat.one_pos⟩
    diskreads := 0
    disk := disk
    calls := [] }

/-- Modelled from the spec: `advanceClock` of `buf.h` ("advance `clock_hand`
one position modulo `N`"). -/
def advanceClock (s : BufMgr σ N) : BufMgr σ N :=
  { s with clockHand := ⟨(s.clockHand.val + 1) % N, Nat.mod_lt _ (Fin.pos s.clockHand)⟩ }

/-- The pre-scan of `allocBuf`: `exceeded` stays true iff no frame has
`pinCnt == 0`. -/
def exceeded (s : BufMgr σ N) : Bool :=
  (List.finRange N).all (fun i => (s.bufTable i).pinCnt != 0)

/-- The tail of `allocBuf` once a victim with `pinCnt == 0` is chosen: remove
the old index entry, clear the descriptor, hand the frame out. -/
def evict (s : BufMgr σ N) : Status × Option (Fin N) × BufMgr σ N :=
  let h := s.clockHand
  let d := s.bufTable h
  (Status.OK, some h,
    { s with hashTable := (BufHashTbl.remove s.hashTable d.file d.pageNo).2
             bufTable := Function.update s.bufTable h d.Clear })

/-- The `while(true)` loop of `allocBuf`, run for at most `fuel` iterations. -/
def clockLoop (ops : FileOps σ) : Nat → BufMgr σ N → Option (Status × Option (Fin N) × BufMgr σ N)
  | 0, _ => none
  | fuel + 1, s =>
    let s1 := s.advanceClock
    let h := s1.clockHand
    let d := s1.bufTable h
    if !d.valid then some (Status.OK, some h, s1)
    else if d.refbit then
      clockLoop ops fuel { s1 with bufTable := Function.update s1.bufTable h { d with refbit := false } }
    else if d.pinCnt != 0 then clockLoop ops fuel s1
    else if d.dirty then
      match d.file with
      | none => none
      | some f =>
        let r := ops.writePage s1.disk f d.pageNo (s1.bufPool h)
        let s2 := { s1 with disk := r.2, calls := s1.calls ++ [StoreCall.write f d.pageNo (s1.bufPool h)] }
        if r.1 ≠ Status.OK then some (Status.UNIXERR, none, s2)
        else some s2.evict
    else some s1.evict

/-- `BufMgr::allocBuf`.  The loop is given `2 * N` iterations, which
`allocBuf_isSome` shows to be enough whenever the pre-scan passes. -/
def allocBuf (ops : FileOps σ) (s : BufMgr σ N) : Option (Status × Option (Fin N) × BufMgr σ N) :=
  if s.exceeded then some (Status.BUFFEREXCEEDED, none, s)
  else clockLoop ops (2 * N) s

/-- `BufMgr::readPage`; the returned frame stands for `page = &bufPool[frameNo]`. -/
def readPage (ops : FileOps σ) (s : BufMgr σ N) (file : File) (PageNo : Int) :
    Option (Status × Option (Fin N) × BufMgr σ N) :=
  match BufHashTbl.lookup s.hashTable (some file) PageNo with
  | none =>
    match allocBuf ops s with
    | none => none
    | some (status, fr, s1) =>
      if status ≠ Status.OK then some (status, none, s1)
      else
        match fr with
        | none => none
        | some frameNo =>
          let s2 := { s1 with diskreads := s1.diskreads + 1 }
          let r := ops.readPage s2.disk file PageNo (s2.bufPool frameNo)
          let s3 := { s2 with disk := r.2.2
                              bufPool := Function.update s2.bufPool frameNo r.2.1
                              calls := s2.calls ++ [StoreCall.read file PageNo frameNo] }
          if r.1 ≠ Status.OK then some (r.1, none, s3)
          else
            let i := BufHashTbl.insert s3.hashTable file PageNo frameNo
            let s4 := { s3 with hashTable := i.2 }
            if i.1 ≠ Status.OK then some (i.1, none, s4)
            else some (Status.OK, some frameNo,
              { s4 with bufTable := Function.update s4.bufTable frameNo
                          ((s4.bufTable frameNo).Set file PageNo) })
  | some frameNo =>
    let d := s.bufTable frameNo
    some (Status.OK, some frameNo,
      { s with bufTable := Function.update s.bufTable frameNo
                 { d with refbit := true, pinCnt := d.pinCnt + 1 } })

/-- `BufMgr::unPinPage`. -/
def unPinPage (s : BufMgr σ N) (file : File) (PageNo : Int) (dirty : Bool) :
    Status × BufMgr σ N :=
  match BufHashTbl.lookup s.hashTable (some file) PageNo with
  | some frameNo =>
    let d := s.bufTable frameNo
    if d.pinCnt = 0 then (Status.PAGENOTPINNED, s)
    else
      let d1 := { d with pinCnt := d.pinCnt - 1 }
      let d2 := if dirty then { d1 with dirty := true } else d1
      (Status.OK, { s with bufTable := Function.update s.bufTable frameNo d2 })
  | none => (Status.HASHNOTFOUND, s)

/-- `BufMgr::allocPage`; returns the new page number and the frame. -/
def allocPage (ops : FileOps σ) (s : BufMgr σ N) (file : File) :
    Option (Status × Option Int × Option (Fin N) × BufMgr σ N) :=
  let a := ops.allocatePage s.disk file
  let s0 := { s with disk := a.2.2, calls := s.calls ++ [StoreCall.allocate file] }
  if a.1 ≠ Status.OK then some (a.1, none, none, s0)
  else
    let pageNo := a.2.1
    match allocBuf ops s0 with
    | none => none
    | some (status, fr, s1) =>
      if status ≠ Status.OK then some (status, some pageNo, none, s1)
      else
        match fr with
        | none => none
        | some frameNo =>
          let i := BufHashTbl.insert s1.hashTable file pageNo frameNo
          let s2 := { s1 with hashTable := i.2 }
          if i.1 ≠ Status.OK then some (i.1, some pageNo, none, s2)
          else some (Status.OK, some pageNo, some frameNo,
            { s2 with bufTable := Function.update s2.bufTable frameNo
                        ((s2.bufTable frameNo).Set file pageNo) })

/-- `BufMgr::disposePage`. -/
def disposePage (ops : FileOps σ) (s : BufMgr σ N) (file : File) (pageNo : Int) :
    Status × BufMgr σ N :=
  let s1 :=
    match BufHashTbl.lookup s.hashTable (some file) pageNo with
    | some frameNo =>
      { s with bufTable := Function.update s.bufTable frameNo (s.bufTable frameNo).Clear }
    | none => s
  let s2 := { s1 with hashTable := (BufHashTbl.remove s1.hashTable (some file) pageNo).2 }
  let r := ops.disposePage s2.disk file pageNo
  (r.1, { s2 with disk := r.2, calls := s2.calls ++ [StoreCall.dispose file pageNo] })

/-- The end of the loop body of `flushFile` for a frame of the file: remove
the index entry, then `file = NULL`, `pageNo = -1`, `valid = false`. -/
def flushDrop (file : File) (s : BufMgr σ N) (i : Fin N) : BufMgr σ N :=
  let tmpbuf := s.bufTable i
  { s with hashTable := (BufHashTbl.remove s.hashTable (some file) tmpbuf.pageNo).2
           bufTable := Function.update s.bufTable i
             { tmpbuf with file := none, pageNo := -1, valid := false } }

/-- The body of the `for` loop of `flushFile` for frame `i`: `none` lets the
loop go on, `some status` is an early `return status`. -/
def flushFrame (ops : FileOps σ) (file : File) (s : BufMgr σ N) (i : Fin N) :
    Option Status × BufMgr σ N :=
  let tmpbuf := s.bufTable i
  if tmpbuf.valid = true ∧ tmpbuf.file = some file then
    if tmpbuf.pinCnt > 0 then (some Status.PAGEPINNED, s)
    else if tmpbuf.dirty = true then
      let r := ops.writePage s.disk file tmpbuf.pageNo (s.bufPool i)
      let s1 := { s with disk := r.2
                         calls := s.calls ++ [StoreCall.write file tmpbuf.pageNo (s.bufPool i)] }
      if r.1 ≠ Status.OK then (some r.1, s1)
      else
        (none, flushDrop file
          { s1 with bufTable := Function.update s1.bufTable i { tmpbuf with dirty := false } } i)
    else (none, flushDrop file s i)
  else if tmpbuf.valid = false ∧ tmpbuf.file = some file then (some Status.BADBUFFER, s)
  else (none, s)

/-- The `for` loop of `flushFile` over the frames in `frames`, in order. -/
def flushLoop (ops : FileOps σ) (file : File) : List (Fin N) → BufMgr σ N → Status × BufMgr σ N
  | [], s => (Status.OK, s)
  | i :: rest, s =>
    match flushFrame ops file s i with
    | (some status, s1) => (status, s1)
    | (none, s1) => flushLoop ops file rest s1

/-- `BufMgr::flushFile`. -/
def flushFile (ops : FileOps σ) (s : BufMgr σ N) (file : File) : Status × BufMgr σ N :=
  flushLoop ops file (List.finRange N) s

end BufMgr

/-! ## Well-formedness of the pool -/

namespace BufMgr

variable {σ : Type} {N : Nat}

/-- Pool well-formedness, clause by clause as the design states it:
every valid frame has exactly one index entry; every index entry points to a
valid frame with matching `(file, pageNo)`; at most one valid frame holds any
`(file, pageNo)`; an invalid frame has no index entry, `pinCnt = 0` and
`dirty = false`. -/
def WF (s : BufMgr σ N) : Prop :=
  (∀ i : Fin N, (s.bufTable i).valid = true →
      (s.hashTable.filter (fun e => decide (e.frameNo = i))).length = 1) ∧
  (∀ e ∈ s.hashTable, (s.bufTable e.frameNo).valid = true ∧
      (s.bufTable e.frameNo).file = some e.file ∧ (s.bufTable e.frameNo).pageNo = e.pageNo) ∧
  (∀ i j : Fin N, (s.bufTable i).valid = true → (s.bufTable j).valid = true →
      (s.bufTable i).file = (s.bufTable j).file → (s.bufTable i).pageNo = (s.bufTable j).pageNo →
      i = j) ∧
  (∀ i : Fin N, (s.bufTable i).valid = false →
      (∀ e ∈ s.hashTable, e.frameNo ≠ i) ∧ (s.bufTable i).pinCnt = 0 ∧
      (s.bufTable i).dirty = false)

instance (s : BufMgr σ N) : Decidable (WF s) := by
  unfold WF
  infer_instance

/-- An equivalent form of `WF` that is easier to carry through the operations:
the index has no two entries with the same key, every entry points to a valid
frame with matching key, every valid frame has some entry, and invalid frames
are unpinned and clean. -/
def WFcore (s : BufMgr σ N) : Prop :=
  (s.hashTable.map (fun e => (e.file, e.pageNo))).Nodup ∧
  (∀ e ∈ s.hashTable, (s.bufTable e.frameNo).valid = true ∧
      (s.bufTable e.frameNo).file = some e.file ∧ (s.bufTable e.frameNo).pageNo = e.pageNo) ∧
  (∀ i : Fin N, (s.bufTable i).valid = true → ∃ e ∈ s.hashTable, e.frameNo = i) ∧
  (∀ i : Fin N, (s.bufTable i).valid = false →
      (s.bufTable i).pinCnt = 0 ∧ (s.bufTable i).dirty = false)

/-- Two descriptors that differ at most in their `refbit`. -/
def sameButRef (d d1 : BufDesc) : Prop :=
  d1 = { d with refbit := d1.refbit }

/-- Two pool states that differ at most in the clock hand and in reference
bits: what the clock loop changes before it settles on a frame. -/
def clockEquiv (s s1 : BufMgr σ N) : Prop :=
  (∀ i, sameButRef (s.bufTable i) (s1.bufTable i)) ∧ s1.bufPool = s.bufPool ∧
  s1.hashTable = s.hashTable ∧ s1.diskreads = s.diskreads ∧ s1.disk = s.disk ∧
  s1.calls = s.calls

/-- The last iteration of the clock loop, from the state `s1` in which the hand
already points at the chosen frame: an invalid frame is handed out as it is; a
valid, unreferenced, unpinned frame is written back if dirty and then evicted,
or the failed write ends the call with `UNIXERR`. -/
def clockFinal (ops : FileOps σ) (s1 : BufMgr σ N)
    (r : Status × Option (Fin N) × BufMgr σ N) : Prop :=
  let d := s1.bufTable s1.clockHand
  (d.valid = false ∧ r = (Status.OK, some s1.clockHand, s1)) ∨
  (d.valid = true ∧ d.refbit = false ∧ d.pinCnt = 0 ∧ d.dirty = false ∧ r = s1.evict) ∨
  (d.valid = true ∧ d.refbit = false ∧ d.pinCnt = 0 ∧ d.dirty = true ∧
    ∃ f, d.file = some f ∧
      let w := ops.writePage s1.disk f d.pageNo (s1.bufPool s1.clockHand)
      let s2 := { s1 with disk := w.2
                          calls := s1.calls ++ [StoreCall.write f d.pageNo (s1.bufPool s1.clockHand)] }
      ((w.1 = Status.OK ∧ r = s2.evict) ∨ (w.1 ≠ Status.OK ∧ r = (Status.UNIXERR, none, s2))))

/-- Number of advances that take the hand from frame `h` to frame `j`
(between `1` and `N`). -/
def clockDist (h j : Fin N) : Nat :=
  if h.val < j.val then j.val - h.val else j.val + N - h.val

/-- Bound on the number of iterations the clock loop still needs when frame
`j` is unpinned: the way to `j`, plus one more round if `j` is valid with its
reference bit set. -/
def clockMeasure (s : BufMgr σ N) (j : Fin N) : Nat :=
  clockDist s.clockHand j +
    (if (s.bufTable j).valid = true ∧ (s.bufTable j).refbit = true then N else 0)

/-- State of the file store after frame `j` has been written back, if it is
dirty (and left alone otherwise): the store state in which a page is read into
`j` once `allocBuf` has evicted it. -/
def evictDisk (ops : FileOps σ) (s : BufMgr σ N) (j : Fin N) : σ :=
  if (s.bufTable j).dirty = true then
    match (s.bufTable j).file with
    | some f => (ops.writePage s.disk f (s.bufTable j).pageNo (s.bufPool j)).2
    | none => s.disk
  else s.disk

/-- What `flushFile` leaves in the descriptor of a frame it has flushed: no
file, page number `-1`, invalid, clean; pin count and reference bit as before. -/
def flushed (d : BufDesc) : BufDesc :=
  { d with file := none, pageNo := -1, valid := false, dirty := false }

/-- Frame `i` holds a valid page of `file`. -/
def fileFrame (s : BufMgr σ N) (file : File) (i : Fin N) : Prop :=
  (s.bufTable i).valid = true ∧ (s.bufTable i).file = some file

/-- Relation between the state `s` in which the loop of `flushFile` starts and
the state `t` it has reached after going through the frames in `pre` without
returning: frames outside `pre` and frames that hold no valid page of `file`
are untouched; frames of `file` in `pre` were unpinned and are now flushed;
frame contents, clock hand and read counter are untouched; the index has lost
nothing but entries of `file`; and nothing at all has changed if `pre` has no
frame of `file`. -/
def flushRel (file : File) (pre : List (Fin N)) (s t : BufMgr σ N) : Prop :=
  (∀ i, i ∉ pre → t.bufTable i = s.bufTable i) ∧
  (∀ i, ¬ fileFrame s file i → t.bufTable i = s.bufTable i) ∧
  (∀ i, i ∈ pre → fileFrame s file i →
    (s.bufTable i).pinCnt = 0 ∧ t.bufTable i = flushed (s.bufTable i)) ∧
  t.bufPool = s.bufPool ∧ t.clockHand = s.clockHand ∧ t.diskreads = s.diskreads ∧
  (∀ e ∈ t.hashTable, e ∈ s.hashTable) ∧
  (∀ e ∈ s.hashTable, e.file ≠ file → e ∈ t.hashTable) ∧
  ((∀ i, i ∈ pre → ¬ fileFrame s file i) → t = s)

end BufMgr

/-! ## A file store kept in memory, and concrete pools -/

/-- Contents of the in-memory store: the files that exist, with their handles,
and the pages, newest copy first. -/
structure MemDisk where
  files : List (String × File)
  pages : List ((File × Int) × Page)
  deriving DecidableEq, Repr

/-- A file store over `MemDisk`: reads return the newest copy of a page (and
fail with `UNIXERR` on a page the store does not have), writes always succeed,
page numbers are handed out consecutively, the first page of a file is the one
that entered the store first. -/
def memOps : FileOps MemDisk where
  readPage d f p old :=
    match d.pages.lookup (f, p) with
    | some pg => (Status.OK, pg, d)
    | none => (Status.UNIXERR, old, d)
  writePage d f p pg := (Status.OK, { d with pages := ((f, p), pg) :: d.pages })
  allocatePage d f :=
    (Status.OK, (d.pages.length : Int) + 1,
      { d with pages := ((f, (d.pages.length : Int) + 1), Page.zero) :: d.pages })
  disposePage d _ _ := (Status.OK, d)
  getFirstPage d f :=
    match d.pages.reverse.find? (fun e => e.1.1 = f) with
    | some e => (Status.OK, e.1.2)
    | none => (Status.UNIXERR, 0)

/-- The `db` object over `MemDisk`. -/
def memDb : DbOps MemDisk where
  openFile d name :=
    match d.files.lookup name with
    | some f => (Status.OK, some f, d)
    | none => (Status.FILENOTFOUND, none, d)
  closeFile d _ := (Status.OK, d)
  createFile d name :=
    match d.files.lookup name with
    | some _ => (Status.FILEEXISTS, d)
    | none => (Status.OK, { d with files := (name, d.files.length + 1) :: d.files })
  destroyFile d name := (Status.OK, { d with files := d.files.filter (fun e => e.1 ≠ name) })

/-- A store whose writes always fail. -/
def failingWriteOps : FileOps MemDisk :=
  { memOps with writePage := fun d _ _ _ => (Status.UNIXERR, d) }

/-- A pool of two frames: frame 0 holds page 3 of file 7, pinned twice and
clean; frame 1 holds page 4 of file 7, unpinned and dirty. -/
def pool2 : BufMgr MemDisk 2 where
  bufTable i := if i = 0 then ⟨some 7, 3, 0, 2, false, true, true⟩
                else ⟨some 7, 4, 1, 0, true, true, false⟩
  bufPool _ := Page.zero
  hashTable := [⟨7, 3, 0⟩, ⟨7, 4, 1⟩]
  clockHand := 1
  diskreads := 0
  disk := ⟨[("t", 7)], [((7, 3), Page.zero), ((7, 4), Page.zero), ((7, 5), Page.zero)]⟩
  calls := []


/-- A full pool of two frames: frame 0 holds page 3 of file 7, pinned twice;
frame 1 holds page 4 of file 7, pinned once. -/
def poolFull : BufMgr MemDisk 2 where
  bufTable i := if i = 0 then ⟨some 7, 3, 0, 2, false, true, true⟩
                else ⟨some 7, 4, 1, 1, false, true, true⟩
  bufPool _ := Page.zero
  hashTable := [⟨7, 4, 1⟩, ⟨7, 3, 0⟩]
  clockHand := 1
  diskreads := 0
  disk := ⟨[("t", 7)], [((7, 3), Page.zero), ((7, 4), Page.zero), ((7, 5), Page.zero)]⟩
  calls := []

/-- A pool of two frames in which the unpinned page of file 7 comes first:
frame 0 holds page 4, unpinned and dirty; frame 1 holds page 3, pinned twice. -/
def pool2b : BufMgr MemDisk 2 where
  bufTable i := if i = 0 then ⟨some 7, 4, 0, 0, true, true, false⟩
                else ⟨some 7, 3, 1, 2, false, true, true⟩
  bufPool _ := Page.zero
  hashTable := [⟨7, 4, 0⟩, ⟨7, 3, 1⟩]
  clockHand := 1
  diskreads := 0
  disk := ⟨[("t", 7)], []⟩
  calls := []

/-! ## The slotted page -/

/-- Modelled from the spec: the slot directory of the absent slotted page.
The first occupied slot at or after `start`, if there is one. -/
def Page.findSlot (p : Page) (start : Nat) : Option Nat :=
  (List.range' start (p.slots.length - start)).find? (fun i => (p.slots.getD i none).isSome)

/-- Modelled from the spec: `first_record() → rid`; an empty page fails (the
design names no code; `NORECORDS` is used). -/
def Page.firstRecord (p : Page) : Except Status RID :=
  match p.findSlot 0 with
  | some i => Except.ok ⟨p.curPage, i⟩
  | none => Except.error Status.NORECORDS

/-- Modelled from the spec: `next_record(rid) → rid`, which "fails with
`NO_MORE_RECS` at end". -/
def Page.nextRecord (p : Page) (rid : RID) : Except Status RID :=
  if rid.slotNo < 0 then Except.error Status.INVALIDSLOTNO
  else
    match p.findSlot (rid.slotNo.toNat + 1) with
    | some i => Except.ok ⟨p.curPage, i⟩
    | none => Except.error Status.NOMORERECS

/-- Modelled from the spec: `get_record(rid) → record`; a slot that is out of
range or empty fails (the design names no code; `INVALIDSLOTNO` is used). -/
def Page.getRecord (p : Page) (rid : RID) : Except Status Record :=
  if rid.slotNo < 0 then Except.error Status.INVALIDSLOTNO
  else
    match p.slots.getD rid.slotNo.toNat none with
    | some r => Except.ok r
    | none => Except.error Status.INVALIDSLOTNO

/-- Modelled from the spec: `get_next_page() → page_no` ("−1 if none"). -/
def Page.getNextPage (p : Page) : Except Status Int :=
  Except.ok p.nextPage

/-! ## Scan predicates -/

/-- `enum Datatype`. -/
inductive Datatype where
  | STRING
  | INTEGER
  | FLOAT
  deriving DecidableEq, Repr

/-- `enum Operator`. -/
inductive Operator where
  | LT
  | LTE
  | EQ
  | GTE
  | GT
  | NE
  deriving DecidableEq, Repr

/-- How the `float diff` of `matchRec` compares with `0.0`. -/
inductive DiffClass where
  | neg
  | zero
  | pos
  | nan
  deriving DecidableEq, Repr

/-- The second `switch` of `matchRec`: the comparison of `diff` with `0.0`
selected by `op` (every ordered comparison with a NaN is false, `!=` is true). -/
def applyOp (op : Operator) (c : DiffClass) : Bool :=
  match op, c with
  | Operator.LT, DiffClass.neg => true
  | Operator.LTE, DiffClass.neg => true
  | Operator.LTE, DiffClass.zero => true
  | Operator.EQ, DiffClass.zero => true
  | Operator.GTE, DiffClass.zero => true
  | Operator.GTE, DiffClass.pos => true
  | Operator.GT, DiffClass.pos => true
  | Operator.NE, DiffClass.neg => true
  | Operator.NE, DiffClass.pos => true
  | Operator.NE, DiffClass.nan => true
  | _, _ => false

/-- Two's-complement wrap of an integer into the range of a 32-bit `int`. -/
def wrap32 (z : Int) : Int :=
  (z + 2147483648) % 4294967296 - 2147483648

/-- The `int` stored in four bytes (least significant byte first), as `memcpy`
into an `int` reads it. -/
def int32OfBytes (b0 b1 b2 b3 : Byte) : Int :=
  wrap32 ((b0.val : Int) + 256 * b1.val + 65536 * b2.val + 16777216 * b3.val)

/-- The four bytes of an `int` (least significant byte first). -/
def bytesOfInt32 (z : Int) : List Byte :=
  let u : Nat := (z % 4294967296).toNat
  [⟨u % 256, Nat.mod_lt _ (by decide)⟩, ⟨u / 256 % 256, Nat.mod_lt _ (by decide)⟩,
   ⟨u / 65536 % 256, Nat.mod_lt _ (by decide)⟩, ⟨u / 16777216 % 256, Nat.mod_lt _ (by decide)⟩]

/-- `memcpy(&i, buf + offset, length)` into an `int`: defined when `length` is
`sizeof(int) = 4` and the four bytes lie inside the buffer. -/
def readInt32 (buf : List Byte) (offset length : Int) : Option Int :=
  if length = 4 ∧ 0 ≤ offset then
    match (buf.drop offset.toNat).take 4 with
    | [b0, b1, b2, b3] => some (int32OfBytes b0 b1 b2 b3)
    | _ => none
  else none

/-- Number of low bits that the conversion of `n` to a 24-bit significand
drops (`fuel` bounds the search; 8 is enough below `2 ^ 32`). -/
def floatShift : Nat → Nat → Nat
  | 0, _ => 0
  | fuel + 1, n => if n < 16777216 then 0 else 1 + floatShift fuel (n / 2)

/-- Value of the `float` nearest to the natural number `n < 2 ^ 32` (24-bit
significand, ties to even). -/
def floatOfNat (n : Nat) : Nat :=
  let e := floatShift 8 n
  let q := n / 2 ^ e
  let r := n % 2 ^ e
  let q1 := if 2 * r > 2 ^ e ∨ (2 * r = 2 ^ e ∧ q % 2 = 1) then q + 1 else q
  q1 * 2 ^ e

/-- Value of the `float` that the conversion `float diff = <int>` yields. -/
def floatOfInt (z : Int) : Int :=
  if z < 0 then -((floatOfNat z.natAbs : Nat) : Int) else ((floatOfNat z.natAbs : Nat) : Int)

/-- Comparison class of an exactly known value. -/
def classify (v : Int) : DiffClass :=
  if v < 0 then DiffClass.neg else if v = 0 then DiffClass.zero else DiffClass.pos

/-- `strncmp(a, b, n)`: compares at most `n` bytes as unsigned characters and
stops after a zero byte.  Defined when the bytes it reads lie inside the two
buffers.  The result is the difference of the first differing bytes (the C
standard fixes only its sign). -/
def strncmp : List Byte → List Byte → Nat → Option Int
  | _, _, 0 => some 0
  | x :: xs, y :: ys, n + 1 =>
    if x ≠ y then some ((x.val : Int) - (y.val : Int))
    else if x.val = 0 then some 0
    else strncmp xs ys n
  | _, _, _ + 1 => none

/-- Three-way lexicographic comparison of two byte strings (bytes compared as
unsigned numbers, a proper prefix is smaller): negative, zero or positive. -/
def lexCmp : List Byte → List Byte → Int
  | [], [] => 0
  | [], _ :: _ => -1
  | _ :: _, [] => 1
  | x :: xs, y :: ys => if x.val < y.val then -1 else if y.val < x.val then 1 else lexCmp xs ys

/-- The part of a byte string before its first zero byte. -/
def cstr (bs : List Byte) : List Byte :=
  bs.takeWhile (fun b => b.val ≠ 0)

/-! ## Heap file and scan -/

/-- State of a `HeapFileScan` object (the members of `HeapFile` followed by
those of `HeapFileScan`).  A `Page*` is the number of the frame it points into,
`none` for `NULL`; `filter` is `none` for a null `char*`. -/
structure HeapFileScan (N : Nat) where
  filePtr : File
  headerPage : Option (Fin N)
  headerPageNo : Int
  hdrDirtyFlag : Bool
  curPage : Option (Fin N)
  curPageNo : Int
  curDirtyFlag : Bool
  curRec : RID
  offset : Int
  length : Int
  type : Datatype
  filter : Option (List Byte)
  op : Operator
  markedPageNo : Int
  markedRec : RID
  deriving DecidableEq, Repr

namespace HeapFileScan

variable {σ : Type} {N : Nat}

/-- `HeapFileScan::matchRec`.  `fsub` stands for the `FLOAT` case, which
subtracts two `float`s: it gives the comparison class of `fattr - ffltr` from
the bytes of the two operands. -/
def matchRec (fsub : List Byte → List Byte → DiffClass) (sc : HeapFileScan N) (rec : Record) :
    Option Bool :=
  match sc.filter with
  | none => some true
  | some filter =>
    if wrap32 (sc.offset + sc.length - 1) ≥ rec.length then some false
    else
      let diff : Option DiffClass :=
        match sc.type with
        | Datatype.INTEGER =>
          match readInt32 rec.data sc.offset sc.length, readInt32 filter 0 sc.length with
          | some iattr, some ifltr => some (classify (floatOfInt (wrap32 (iattr - ifltr))))
          | _, _ => none
        | Datatype.FLOAT =>
          if sc.length = 4 ∧ 0 ≤ sc.offset ∧
              ((rec.data.drop sc.offset.toNat).take 4).length = 4 ∧ (filter.take 4).length = 4 then
            some (fsub ((rec.data.drop sc.offset.toNat).take 4) (filter.take 4))
          else none
        | Datatype.STRING =>
          if 0 ≤ sc.offset ∧ 0 ≤ sc.length then
            (strncmp (rec.data.drop sc.offset.toNat) filter sc.length.toNat).map
              (fun d => classify (floatOfInt d))
          else none
      diff.map (applyOp sc.op)

/-- `HeapFileScan::startScan`.  The tests `type_ != STRING && ...` and
`op_ != LT && ...` of the source are always false for values of the two
enumerations and are left out. -/
def startScan (sc : HeapFileScan N) (offset_ length_ : Int) (type_ : Datatype)
    (filter_ : Option (List Byte)) (op_ : Operator) : Status × HeapFileScan N :=
  match filter_ with
  | none => (Status.OK, { sc with filter := none })
  | some f =>
    if (offset_ < 0 ∨ length_ < 1) ∨
        (type_ = Datatype.INTEGER ∧ length_ ≠ 4 ∨ type_ = Datatype.FLOAT ∧ length_ ≠ 4) then
      (Status.BADSCANPARM, sc)
    else
      (Status.OK, { sc with offset := offset_, length := length_, type := type_,
                            filter := some f, op := op_ })

/-- Result of the inner `while` loop of `scanNext` over the records of one
page. -/
inductive RecordScan where
  | matched (rid : RID)
  | failed (status : Status)
  | exhausted
  deriving DecidableEq, Repr

/-- The inner `while (status == OK)` loop of `scanNext`, entered with
`tmpRid`: `matched` is the `return OK` on a match, `failed` the early return on
a `getRecord` error, `exhausted` the exit of the loop when `nextRecord` fails.
Every iteration moves to a higher slot, so `slots.length + 1` iterations are
enough (`recordLoop_isSome`). -/
def recordLoop (fsub : List Byte → List Byte → DiffClass) (sc : HeapFileScan N) (page : Page) :
    Nat → RID → Option RecordScan
  | 0, _ => none
  | fuel + 1, tmpRid =>
    match page.getRecord tmpRid with
    | Except.error status => some (RecordScan.failed status)
    | Except.ok rec =>
      match sc.matchRec fsub rec with
      | none => none
      | some true => some (RecordScan.matched tmpRid)
      | some false =>
        match page.nextRecord tmpRid with
        | Except.ok nextRid => recordLoop fsub sc page fuel nextRid
        | Except.error _ => some RecordScan.exhausted

/-- The outer `while (status == OK)` loop of `scanNext`, run for at most `fuel`
pages.  The result carries the status, the RID written to `outRid` (if any),
and the new scan and pool states. -/
def pageLoop (ops : FileOps σ) (fsub : List Byte → List Byte → DiffClass) :
    Nat → HeapFileScan N → BufMgr σ N →
    Option (Status × Option RID × HeapFileScan N × BufMgr σ N)
  | 0, _, _ => none
  | fuel + 1, sc, bm =>
    match sc.curPage with
    | none => none
    | some fr =>
      let page := bm.bufPool fr
      let inner : Option RecordScan :=
        match page.firstRecord with
        | Except.ok tmpRid => recordLoop fsub sc page (page.slots.length + 1) tmpRid
        | Except.error _ => some RecordScan.exhausted
      match inner with
      | none => none
      | some (RecordScan.matched rid) => some (Status.OK, some rid, { sc with curRec := rid }, bm)
      | some (RecordScan.failed status) => some (status, none, sc, bm)
      | some RecordScan.exhausted =>
        match page.getNextPage with
        | Except.error _ => some (Status.FILEEOF, none, sc, bm)
        | Except.ok nextPageNo =>
          if nextPageNo = -1 then some (Status.FILEEOF, none, sc, bm)
          else
            let sc1 := { sc with curPageNo := nextPageNo }
            match bm.readPage ops sc1.filePtr sc1.curPageNo with
            | none => none
            | some (status, pg, bm1) =>
              let sc2 := { sc1 with curPage := match pg with
                                                | some f => some f
                                                | none => sc1.curPage }
              if status = Status.OK then pageLoop ops fsub fuel sc2 bm1
              else some (status, none, sc2, bm1)

/-- `HeapFileScan::scanNext`; `fuel` bounds the number of pages visited. -/
def scanNext (ops : FileOps σ) (fsub : List Byte → List Byte → DiffClass) (fuel : Nat)
    (sc : HeapFileScan N) (bm : BufMgr σ N) :
    Option (Status × Option RID × HeapFileScan N × BufMgr σ N) :=
  if sc.curPage = none ∨ sc.curPageNo = 0 then
    match sc.headerPage with
    | none => none
    | some hdr =>
      let sc1 := { sc with curPageNo := (bm.bufPool hdr).firstPage }
      if sc1.curPageNo = -1 then some (Status.FILEEOF, none, sc1, bm)
      else
        match bm.readPage ops sc1.filePtr sc1.curPageNo with
        | none => none
        | some (status, pg, bm1) =>
          let sc2 := { sc1 with curPage := match pg with
                                            | some f => some f
                                            | none => sc1.curPage }
          if status ≠ Status.OK then some (status, none, sc2, bm1)
          else pageLoop ops fsub fuel { sc2 with curDirtyFlag := false, curRec := NULLRID } bm1
  else pageLoop ops fsub fuel sc bm

/-- `HeapFileScan::endScan`. -/
def endScan (sc : HeapFileScan N) (bm : BufMgr σ N) : Status × HeapFileScan N × BufMgr σ N :=
  match sc.curPage with
  | some _ =>
    let r := bm.unPinPage sc.filePtr sc.curPageNo sc.curDirtyFlag
    (r.1, { sc with curPage := none, curPageNo := 0, curDirtyFlag := false }, r.2)
  | none => (Status.OK, sc, bm)

/-- Constructor `HeapFileScan::HeapFileScan(name, status)`: the constructor of
`HeapFile` followed by `filter = NULL`.  `mem` is the object before
construction; members the constructor does not assign keep their value. -/
def new (db : DbOps σ) (ops : FileOps σ) (mem : HeapFileScan N) (bm : BufMgr σ N)
    (fileName : String) : Option (Status × HeapFileScan N × BufMgr σ N) :=
  let o := db.openFile bm.disk fileName
  let bm0 := { bm with disk := o.2.2 }
  match o.1, o.2.1 with
  | Status.OK, some file =>
    let sc0 := { mem with filePtr := file }
    let g := ops.getFirstPage bm0.disk file
    if g.1 ≠ Status.OK then some (g.1, { sc0 with filter := none }, bm0)
    else
      let sc1 := { sc0 with headerPageNo := g.2 }
      match bm0.readPage ops file sc1.headerPageNo with
      | none => none
      | some (status, pg, bm1) =>
        if status ≠ Status.OK then some (status, { sc1 with filter := none }, bm1)
        else
          match pg with
          | none => none
          | some hdr =>
            let sc2 := { sc1 with headerPage := some hdr, hdrDirtyFlag := false
                                  curPageNo := (bm1.bufPool hdr).firstPage }
            match bm1.readPage ops file sc2.curPageNo with
            | none => none
            | some (status2, pg2, bm2) =>
              if status2 ≠ Status.OK then some (status2, { sc2 with filter := none }, bm2)
              else
                some (Status.OK,
                  { sc2 with curPage := pg2, curDirtyFlag := false, curRec := NULLRID
                             filter := none }, bm2)
  | Status.OK, none => none
  | status, _ => some (status, { mem with filter := none }, bm0)

/-- Destructor `HeapFileScan::~HeapFileScan()`: `endScan()`, then the
destructor of `HeapFile` (unpin the current page if any, unpin the header
page, close the file; errors are only printed). -/
def delete (db : DbOps σ) (sc : HeapFileScan N) (bm : BufMgr σ N) :
    HeapFileScan N × BufMgr σ N :=
  let e := sc.endScan bm
  let sc1 := e.2.1
  let bm1 := e.2.2
  let r : HeapFileScan N × BufMgr σ N :=
    match sc1.curPage with
    | some _ =>
      ({ sc1 with curPage := none, curPageNo := 0, curDirtyFlag := false },
        (bm1.unPinPage sc1.filePtr sc1.curPageNo sc1.curDirtyFlag).2)
    | none => (sc1, bm1)
  let bm3 := (r.2.unPinPage r.1.filePtr r.1.headerPageNo r.1.hdrDirtyFlag).2
  (r.1, { bm3 with disk := (db.closeFile bm3.disk r.1.filePtr).2 })

end HeapFileScan

/-! ## Concrete scans and records -/

/-- A scan object with every member zero or null. -/
def HeapFileScan.blank (N : Nat) : HeapFileScan N where
  filePtr := 0
  headerPage := none
  headerPageNo := 0
  hdrDirtyFlag := false
  curPage := none
  curPageNo := 0
  curDirtyFlag := false
  curRec := ⟨0, 0⟩
  offset := 0
  length := 0
  type := Datatype.STRING
  filter := none
  op := Operator.LT
  markedPageNo := 0
  markedRec := ⟨0, 0⟩

/-- A scan with the filter `(INTEGER, offset 0, length 4, op, v)`. -/
def intScan (N : Nat) (op : Operator) (v : Int) : HeapFileScan N :=
  { HeapFileScan.blank N with
      offset := 0, length := 4, type := Datatype.INTEGER
      filter := some (bytesOfInt32 v), op := op }

/-- A record of four bytes holding the `int` `a`. -/
def intRecord (a : Int) : Record := ⟨bytesOfInt32 a, 4⟩

/-- A scan with the filter `(STRING, offset 0, length, op, flt)`. -/
def strScan (N : Nat) (op : Operator) (length : Int) (flt : List Byte) : HeapFileScan N :=
  { HeapFileScan.blank N with
      offset := 0, length := length, type := Datatype.STRING, filter := some flt, op := op }

/-- The comparison `a op v` of two integers, as the design states the meaning
of an `INTEGER` filter. -/
def intHolds (op : Operator) (a v : Int) : Bool :=
  match op with
  | Operator.LT => decide (a < v)
  | Operator.LTE => decide (a ≤ v)
  | Operator.EQ => decide (a = v)
  | Operator.GTE => decide (v ≤ a)
  | Operator.GT => decide (v < a)
  | Operator.NE => decide (a ≠ v)

/-- A stand-in for the `float` subtraction of the `FLOAT` case, for runs that
never reach it. -/
def noFloat : List Byte → List Byte → DiffClass := fun _ _ => DiffClass.nan

/-! ## Concrete heap files -/

/-- A record of 50 bytes whose first four bytes hold the `int` key `k`. -/
def keyRecord (k : Int) : Record := ⟨bytesOfInt32 k ++ List.replicate 46 0, 50⟩

/-- A data page with number `pageNo`, next-page link `nextPage` and one record
per key, in slot order. -/
def dataPage (pageNo nextPage : Int) (keys : List Int) : Page :=
  { Page.zero with curPage := pageNo, nextPage := nextPage
                   slots := keys.map (fun k => some (keyRecord k)) }

/-- A header page. -/
def hdrPage (firstPage lastPage pageCnt recCnt : Int) : Page :=
  { Page.zero with firstPage := firstPage, lastPage := lastPage, pageCnt := pageCnt
                   recCnt := recCnt }

/-- The heap file `t` (handle 7) with header page 1 and one data page, page 2,
holding the keys 7, 4, 9. -/
def heap1 : MemDisk :=
  ⟨[("t", 7)], [((7, 2), dataPage 2 (-1) [7, 4, 9]), ((7, 1), hdrPage 2 2 1 3)]⟩

/-- The heap file `t` (handle 7) with header page 1 and the chain of data pages
2 → 3, holding the key 4 on page 2 and the key 3 on page 3. -/
def heap2 : MemDisk :=
  ⟨[("t", 7)],
    [((7, 3), dataPage 3 (-1) [3]), ((7, 2), dataPage 2 3 [4]), ((7, 1), hdrPage 2 3 2 2)]⟩

/-- Open the heap file `t` of the store `d` on a new pool of three frames and
start a scan with the filter `(INTEGER, offset 0, length 4, op, v)`. -/
def openScan (d : MemDisk) (op : Operator) (v : Int) :
    Option (HeapFileScan 3 × BufMgr MemDisk 3) :=
  match HeapFileScan.new memDb memOps (HeapFileScan.blank 3)
      (BufMgr.new (Nat.succ_pos 2) d) "t" with
  | some (Status.OK, sc, bm) =>
    match sc.startScan 0 4 Datatype.INTEGER (some (bytesOfInt32 v)) op with
    | (Status.OK, sc1) => some (sc1, bm)
    | _ => none
  | _ => none

/-- Call `scanNext` `n` times in a row and collect the status and RID of each
call (each call may visit up to 8 pages). -/
def scanTimes : Nat → HeapFileScan 3 → BufMgr MemDisk 3 →
    Option (List (Status × Option RID) × HeapFileScan 3 × BufMgr MemDisk 3)
  | 0, sc, bm => some ([], sc, bm)
  | n + 1, sc, bm =>
    match sc.scanNext memOps noFloat 8 bm with
    | none => none
    | some (status, rid, sc1, bm1) =>
      match scanTimes n sc1 bm1 with
      | none => none
      | some (rest, sc2, bm2) => some ((status, rid) :: rest, sc2, bm2)

/-- A whole scan of the heap file `t` of `d`: open and start the scan, call
`scanNext` `n` times, call `endScan`, destroy the scan object.  The result
lists the statuses and RIDs of the `scanNext` calls, the status of `endScan`,
and the pin count of every frame at the end. -/
def scanLifecycle (d : MemDisk) (op : Operator) (v : Int) (n : Nat) :
    Option (List (Status × Option RID) × Status × List Nat) :=
  match openScan d op v with
  | none => none
  | some (sc, bm) =>
    match scanTimes n sc bm with
    | none => none
    | some (results, sc1, bm1) =>
      let e := sc1.endScan bm1
      let r := HeapFileScan.delete memDb e.2.1 e.2.2
      some (results, e.1, (List.finRange 3).map (fun i => (r.2.bufTable i).pinCnt))

/-! ## Further operations of the heap file -/

/-- Modelled from the spec: the values of `enum Datatype`, whose declaration is
in an absent header, in the order the design lists them. -/
def Datatype.code : Datatype → Int
  | Datatype.STRING => 0
  | Datatype.INTEGER => 1
  | Datatype.FLOAT => 2

/-- Modelled from the spec: the values of `enum Operator`, whose declaration is
in an absent header, in the order the design lists them. -/
def Operator.code : Operator → Int
  | Operator.LT => 0
  | Operator.LTE => 1
  | Operator.EQ => 2
  | Operator.GTE => 3
  | Operator.GT => 4
  | Operator.NE => 5

/-- The `Datatype` with value `c` (`STRING` when there is none). -/
def Datatype.ofCode (c : Int) : Datatype :=
  if c = 1 then Datatype.INTEGER else if c = 2 then Datatype.FLOAT else Datatype.STRING

/-- The `Operator` with value `c` (`LT` when there is none). -/
def Operator.ofCode (c : Int) : Operator :=
  if c = 1 then Operator.LTE else if c = 2 then Operator.EQ else if c = 3 then Operator.GTE
  else if c = 4 then Operator.GT else if c = 5 then Operator.NE else Operator.LT

/-- Modelled from the spec: `init(page_no)` of the absent slotted page: an
empty page with its own number and no next page. -/
def Page.init (p : Page) (pageNo : Int) : Page :=
  { p with curPage := pageNo, nextPage := -1, slots := [] }

/-- Modelled from the spec: `delete_record(rid)` of the absent slotted page
("deletes tombstone the slot but do not renumber"); a slot that is out of
range or empty fails with `INVALIDSLOTNO`. -/
def Page.deleteRecord (p : Page) (rid : RID) : Status × Page :=
  if rid.slotNo < 0 then (Status.INVALIDSLOTNO, p)
  else
    match p.slots.getD rid.slotNo.toNat none with
    | some _ => (Status.OK, { p with slots := p.slots.set rid.slotNo.toNat none })
    | none => (Status.INVALIDSLOTNO, p)

namespace HeapFileScan

variable {σ : Type} {N : Nat}

/-- `HeapFileScan::startScan` with `type_` and `op_` given by their integer
values, as a caller can pass any value converted to the enumeration; this is
the full condition of the source, with `sizeof(int) = sizeof(float) = 4`. -/
def startScanRaw (sc : HeapFileScan N) (offset_ length_ : Int) (type_ : Int)
    (filter_ : Option (List Byte)) (op_ : Int) : Status × HeapFileScan N :=
  match filter_ with
  | none => (Status.OK, { sc with filter := none })
  | some f =>
    if (offset_ < 0 ∨ length_ < 1) ∨
        (type_ ≠ Datatype.STRING.code ∧ type_ ≠ Datatype.INTEGER.code ∧
          type_ ≠ Datatype.FLOAT.code) ∨
        (type_ = Datatype.INTEGER.code ∧ length_ ≠ 4 ∨
          type_ = Datatype.FLOAT.code ∧ length_ ≠ 4) ∨
        (op_ ≠ Operator.LT.code ∧ op_ ≠ Operator.LTE.code ∧ op_ ≠ Operator.EQ.code ∧
          op_ ≠ Operator.GTE.code ∧ op_ ≠ Operator.GT.code ∧ op_ ≠ Operator.NE.code) then
      (Status.BADSCANPARM, sc)
    else
      (Status.OK, { sc with offset := offset_, length := length_
                            type := Datatype.ofCode type_, filter := some f
                            op := Operator.ofCode op_ })

/-- `HeapFileScan::markScan`. -/
def markScan (sc : HeapFileScan N) : Status × HeapFileScan N :=
  (Status.OK, { sc with markedPageNo := sc.curPageNo, markedRec := sc.curRec })

/-- The part of `resetScan` after the unpin of the current page, when the
marked page differs from the current one: restore `curPageNo` and `curRec`,
then read the page. -/
def resetTail (ops : FileOps σ) (sc : HeapFileScan N) (bm : BufMgr σ N) :
    Option (Status × HeapFileScan N × BufMgr σ N) :=
  let sc1 := { sc with curPageNo := sc.markedPageNo, curRec := sc.markedRec }
  match bm.readPage ops sc1.filePtr sc1.curPageNo with
  | none => none
  | some (status, pg, bm1) =>
    let sc2 := { sc1 with curPage := match pg with
                                      | some f => some f
                                      | none => sc1.curPage }
    if status ≠ Status.OK then some (status, sc2, bm1)
    else some (Status.OK, { sc2 with curDirtyFlag := false }, bm1)

/-- `HeapFileScan::resetScan`. -/
def resetScan (ops : FileOps σ) (sc : HeapFileScan N) (bm : BufMgr σ N) :
    Option (Status × HeapFileScan N × BufMgr σ N) :=
  if sc.markedPageNo ≠ sc.curPageNo then
    match sc.curPage with
    | some _ =>
      let u := bm.unPinPage sc.filePtr sc.curPageNo sc.curDirtyFlag
      if u.1 ≠ Status.OK then some (u.1, sc, u.2)
      else resetTail ops sc u.2
    | none => resetTail ops sc bm
  else some (Status.OK, { sc with curRec := sc.markedRec }, bm)

/-- `HeapFileScan::getRecord(Record&)`: the record at `curRec` on the current
page. -/
def getRecord (sc : HeapFileScan N) (bm : BufMgr σ N) : Option (Except Status Record) :=
  match sc.curPage with
  | none => none
  | some fr => some ((bm.bufPool fr).getRecord sc.curRec)

/-- `HeapFileScan::deleteRecord`.  `recCnt` is an `int`; its decrement wraps. -/
def deleteRecord (sc : HeapFileScan N) (bm : BufMgr σ N) :
    Option (Status × HeapFileScan N × BufMgr σ N) :=
  match sc.curPage, sc.headerPage with
  | some fr, some hdr =>
    let d := (bm.bufPool fr).deleteRecord sc.curRec
    let bm1 := { bm with bufPool := Function.update bm.bufPool fr d.2 }
    let h := bm1.bufPool hdr
    let bm2 := { bm1 with bufPool := Function.update bm1.bufPool hdr
                             { h with recCnt := wrap32 (h.recCnt - 1) } }
    some (d.1, { sc with curDirtyFlag := true, hdrDirtyFlag := true }, bm2)
  | _, _ => none

/-- `HeapFileScan::markDirty`. -/
def markDirty (sc : HeapFileScan N) : Status × HeapFileScan N :=
  (Status.OK, { sc with curDirtyFlag := true })

/-- One successful call of `scanNext`: from the scan and pool state `a` some
call returns `OK` with a RID and leaves the state `b`. -/
def scanStep (ops : FileOps σ) (fsub : List Byte → List Byte → DiffClass)
    (a b : HeapFileScan N × BufMgr σ N) : Prop :=
  ∃ fuel rid, scanNext ops fsub fuel a.1 a.2 = some (Status.OK, some rid, b.1, b.2)

end HeapFileScan

namespace HeapFile

variable {σ : Type} {N : Nat}

/-- `HeapFile::getRecCnt`: `headerPage->recCnt`. -/
def getRecCnt (sc : HeapFileScan N) (bm : BufMgr σ N) : Option Int :=
  match sc.headerPage with
  | none => none
  | some hdr => some (bm.bufPool hdr).recCnt

/-- The call `curPage->getRecord(rid, rec)` on the frame `curPage` points to. -/
def pageGetRecord (sc : HeapFileScan N) (bm : BufMgr σ N) (rid : RID) :
    Option (Status × Option Record × HeapFileScan N × BufMgr σ N) :=
  match sc.curPage with
  | none => none
  | some fr =>
    match (bm.bufPool fr).getRecord rid with
    | Except.ok rec => some (Status.OK, some rec, sc, bm)
    | Except.error status => some (status, none, sc, bm)

/-- `HeapFile::getRecord(rid, rec)`, on the `HeapFile` members of the object. -/
def getRecord (ops : FileOps σ) (sc : HeapFileScan N) (bm : BufMgr σ N) (rid : RID) :
    Option (Status × Option Record × HeapFileScan N × BufMgr σ N) :=
  if rid.pageNo = sc.curPageNo then
    pageGetRecord { sc with curRec := rid } bm rid
  else
    let u := bm.unPinPage sc.filePtr sc.curPageNo sc.curDirtyFlag
    if u.1 ≠ Status.OK then some (u.1, none, sc, u.2)
    else
      match u.2.readPage ops sc.filePtr rid.pageNo with
      | none => none
      | some (status, pg, bm1) =>
        let sc1 := { sc with curPage := match pg with
                                         | some f => some f
                                         | none => sc.curPage }
        if status ≠ Status.OK then some (status, none, sc1, bm1)
        else
          pageGetRecord { sc1 with curPageNo := rid.pageNo, curDirtyFlag := false, curRec := rid }
            bm1 rid

end HeapFile

/-- An `InsertFileScan` object has the members of `HeapFile` only; it is kept
in the same record, of which the scan members are not used. -/
abbrev InsertFileScan (N : Nat) := HeapFileScan N

/-- `InsertFileScan::insertRecord`.  `maxRec` stands for `PAGESIZE - DPFIXED`
(both constants are in an absent header); the comparison is between unsigned
32-bit values.  Past the length check the body of the source is empty: control
reaches the end of the function without a `return`, so there is no status
(`none`), `outRid` is not assigned and nothing is changed. -/
def InsertFileScan.insertRecord {σ : Type} {N : Nat} (maxRec : Int) (sc : InsertFileScan N)
    (bm : BufMgr σ N) (rec : Record) :
    Option Status × Option RID × InsertFileScan N × BufMgr σ N :=
  if rec.length % 4294967296 > maxRec % 4294967296 then
    (some Status.INVALIDRECLEN, none, sc, bm)
  else (none, none, sc, bm)

/-- The bytes that `strcpy(hdrPage->fileName, fileName.c_str())` stores. -/
def nameBytes (fileName : String) : List Byte :=
  fileName.toList.map (fun c => ⟨c.toNat % 256, Nat.mod_lt _ (by decide)⟩)

/-- The end of `createHeapFile`, once both pages are allocated: initialise the
data page, set `firstPage` and `lastPage`, `pageCnt++`, unpin both pages dirty
and close the file. -/
def createFinish {σ : Type} {N : Nat} (db : DbOps σ) (bm : BufMgr σ N) (file : File)
    (hdrPageNo : Int) (hdr : Fin N) (newPageNo : Int) (newPage : Fin N) : Status × BufMgr σ N :=
  let bm1 := { bm with bufPool := Function.update bm.bufPool newPage
                          ((bm.bufPool newPage).init newPageNo) }
  let h := bm1.bufPool hdr
  let bm2 := { bm1 with bufPool := Function.update bm1.bufPool hdr
                           { h with firstPage := newPageNo, lastPage := newPageNo
                                    pageCnt := wrap32 (h.pageCnt + 1) } }
  let u1 := bm2.unPinPage file hdrPageNo true
  if u1.1 ≠ Status.OK then u1
  else
    let u2 := u1.2.unPinPage file newPageNo true
    if u2.1 ≠ Status.OK then u2
    else
      let c := db.closeFile u2.2.disk file
      (c.1, { u2.2 with disk := c.2 })

/-- `createHeapFile`. -/
def createHeapFile {σ : Type} {N : Nat} (db : DbOps σ) (ops : FileOps σ) (bm : BufMgr σ N)
    (fileName : String) : Option (Status × BufMgr σ N) :=
  let o := db.openFile bm.disk fileName
  let bm0 := { bm with disk := o.2.2 }
  if o.1 ≠ Status.OK then
    let c := db.createFile bm0.disk fileName
    let bm1 := { bm0 with disk := c.2 }
    if c.1 ≠ Status.OK then some (c.1, bm1)
    else
      let o2 := db.openFile bm1.disk fileName
      let bm2 := { bm1 with disk := o2.2.2 }
      if o2.1 ≠ Status.OK then some (o2.1, bm2)
      else
        match o2.2.1 with
        | none => none
        | some file =>
          match bm2.allocPage ops file with
          | none => none
          | some (status, hdrPageNo, newPage, bm3) =>
            if status ≠ Status.OK then some (status, bm3)
            else
              match hdrPageNo, newPage with
              | some hdrPageNo, some hdr =>
                let bm4 := { bm3 with bufPool := Function.update bm3.bufPool hdr
                                         { bm3.bufPool hdr with fileName := nameBytes fileName } }
                match bm4.allocPage ops file with
                | none => none
                | some (status2, newPageNo, newPage2, bm5) =>
                  if status2 ≠ Status.OK then some (status2, bm5)
                  else
                    match newPageNo, newPage2 with
                    | some newPageNo, some np =>
                      some (createFinish db bm5 file hdrPageNo hdr newPageNo np)
                    | _, _ => none
              | _, _ => none
  else some (Status.FILEEXISTS, bm0)

/-- `destroyHeapFile`. -/
def destroyHeapFile {σ : Type} {N : Nat} (db : DbOps σ) (bm : BufMgr σ N) (fileName : String) :
    Status × BufMgr σ N :=
  let r := db.destroyFile bm.disk fileName
  (r.1, { bm with disk := r.2 })

/-! ## Concrete runs of the further operations -/

/-- A pool of two frames after the heap file `t` of `heap1` has been opened and
the object destroyed again: both frames are unpinned and still hold the header
page and the data page of `t`. -/
def usedPool : Option (BufMgr MemDisk 2) :=
  match HeapFileScan.new memDb memOps (HeapFileScan.blank 2)
      (BufMgr.new (Nat.succ_pos 1) heap1) "t" with
  | some (Status.OK, sc, bm) => some (HeapFileScan.delete memDb sc bm).2
  | _ => none

/-- Create the heap file `name` on the pool `bm` and open it: the status of
`createHeapFile`, the status of the constructor, the header fields
`firstPage`, `lastPage`, `pageCnt`, `recCnt`, and the value of `getRecCnt`. -/
def createThenOpen (bm : BufMgr MemDisk 2) (name : String) :
    Option (Status × Status × (Int × Int × Int × Int) × Option Int) :=
  match createHeapFile memDb memOps bm name with
  | none => none
  | some (status, bm1) =>
    match HeapFileScan.new memDb memOps (HeapFileScan.blank 2) bm1 name with
    | none => none
    | some (status2, sc, bm2) =>
      let h : Page := match sc.headerPage with
                      | some hdr => bm2.bufPool hdr
                      | none => Page.zero
      some (status, status2, (h.firstPage, h.lastPage, h.pageCnt, h.recCnt),
        HeapFile.getRecCnt sc bm2)

/-- The heap file `t` (handle 7) with header page 1 and one data page, page 2,
holding the keys 1 to 5. -/
def heap5 : MemDisk :=
  ⟨[("t", 7)], [((7, 2), dataPage 2 (-1) [1, 2, 3, 4, 5]), ((7, 1), hdrPage 2 2 1 5)]⟩

/-- The state of a scan of `heap5` for `EQ 3` after its first `scanNext`, if
that call returns a RID. -/
def scanAtThree : Option (RID × HeapFileScan 3 × BufMgr MemDisk 3) :=
  match openScan heap5 Operator.EQ 3 with
  | none => none
  | some (sc, bm) =>
    match sc.scanNext memOps noFloat 8 bm with
    | some (Status.OK, some rid, sc1, bm1) => some (rid, sc1, bm1)
    | _ => none

/-- Delete the record of `heap5` that matches `EQ 3`: the RID the scan stops
on, the status of `deleteRecord`, `getRecCnt` before and after, the status of
the next `scanNext`, and, after the object is destroyed and the file opened
again, `getRecCnt` and the status of the first `scanNext` of a new scan for
`EQ 3`. -/
def deleteRun :
    Option (RID × Status × Option Int × Option Int × Status × Option Int × Status) :=
  match scanAtThree with
  | none => none
  | some (rid, sc, bm) =>
    match sc.deleteRecord bm with
    | none => none
    | some (status, sc1, bm1) =>
      match sc1.scanNext memOps noFloat 8 bm1 with
      | none => none
      | some (status2, _, sc2, bm2) =>
        let r := HeapFileScan.delete memDb sc2 bm2
        match HeapFileScan.new memDb memOps (HeapFileScan.blank 3) r.2 "t" with
        | some (Status.OK, sc3, bm3) =>
          match (sc3.startScan 0 4 Datatype.INTEGER (some (bytesOfInt32 3)) Operator.EQ).2.scanNext
              memOps noFloat 8 bm3 with
          | none => none
          | some (status3, _, sc4, bm4) =>
            some (rid, status, HeapFile.getRecCnt sc bm, HeapFile.getRecCnt sc1 bm1, status2,
              HeapFile.getRecCnt sc4 bm4, status3)
        | _ => none

/-! ## Relations between pool states -/

namespace BufMgr

variable {σ : Type} {N : Nat}

/-- Two pool states that differ at most in frame `h`: frame contents are the
same, descriptors other than that of `h` are the same, the index finds every
other frame under the same keys and has no new entry. -/
def keepsBut (s t : BufMgr σ N) (h : Fin N) : Prop :=
  t.bufPool = s.bufPool ∧
  (∀ i, i ≠ h → t.bufTable i = s.bufTable i) ∧
  (∀ file pageNo i, BufHashTbl.lookup s.hashTable file pageNo = some i → i ≠ h →
    BufHashTbl.lookup t.hashTable file pageNo = some i) ∧
  (∀ e ∈ s.hashTable, e.frameNo ≠ h → e ∈ t.hashTable) ∧
  (∀ e ∈ t.hashTable, e ∈ s.hashTable)

end BufMgr

/-! ## Mark and reset, run on concrete files -/

/-- The heap file `t` (handle 7) with header page 1 and the chain of data pages
2 → 3, holding the key 4 on page 2 and the key 9 on page 3, in a store that
also has a page 0 of the file and reads it like any other page. -/
def heap3 : MemDisk :=
  ⟨[("t", 7)],
    [((7, 0), Page.zero), ((7, 3), dataPage 3 (-1) [9]), ((7, 2), dataPage 2 3 [4]),
      ((7, 1), hdrPage 2 3 2 2)]⟩

/-- From the state `(sc, bm)`: `markScan`, `n` calls of `scanNext`,
`resetScan`, and one more `scanNext`.  The result lists the statuses and RIDs
of the `n` calls, the status of `resetScan`, `curPageNo` and `curRec` after
it, and the status and RID of the last `scanNext`. -/
def markResetRun (n : Nat) (sc : HeapFileScan 3) (bm : BufMgr MemDisk 3) :
    Option (List (Status × Option RID) × Status × (Int × RID) × Status × Option RID) :=
  match scanTimes n sc.markScan.2 bm with
  | none => none
  | some (results, sc1, bm1) =>
    match sc1.resetScan memOps bm1 with
    | none => none
    | some (status, sc2, bm2) =>
      match sc2.scanNext memOps noFloat 8 bm2 with
      | none => none
      | some (status2, rid2, _, _) =>
        some (results, status, (sc2.curPageNo, sc2.curRec), status2, rid2)

/-- The scan of the store `d` for `(op, v)`, opened on a new pool of three
frames and ended with `endScan`: it has no current page and `curPageNo = 0`. -/
def endedScan (d : MemDisk) (op : Operator) (v : Int) :
    Option (HeapFileScan 3 × BufMgr MemDisk 3) :=
  match openScan d op v with
  | none => none
  | some (sc, bm) => some (sc.endScan bm).2

/-! ## One iteration of `scanNext`, and relations used to follow a scan -/

namespace BufMgr

variable {σ : Type} {N : Nat}

/-- Every page that is pinned in `a` is pinned in `b` too, in the same frame
and with the same contents. -/
def Holds (a b : BufMgr σ N) : Prop :=
  ∀ (file : File) (pageNo : Int) (fr : Fin N),
    BufHashTbl.lookup a.hashTable (some file) pageNo = some fr → 0 < (a.bufTable fr).pinCnt →
    BufHashTbl.lookup b.hashTable (some file) pageNo = some fr ∧ 0 < (b.bufTable fr).pinCnt ∧
    b.bufPool fr = a.bufPool fr

/-- Every page that is pinned in `a` is resident in `b`, in the same frame and
with the same contents. -/
def Resides (a b : BufMgr σ N) : Prop :=
  ∀ (file : File) (pageNo : Int) (fr : Fin N),
    BufHashTbl.lookup a.hashTable (some file) pageNo = some fr → 0 < (a.bufTable fr).pinCnt →
    BufHashTbl.lookup b.hashTable (some file) pageNo = some fr ∧ b.bufPool fr = a.bufPool fr

end BufMgr

namespace HeapFileScan

variable {σ : Type} {N : Nat}

/-- The scan of one page in `scanNext`: the record loop started at the first
record, or `exhausted` at once when the page has no record. -/
def scanPage (fsub : List Byte → List Byte → DiffClass) (sc : HeapFileScan N) (page : Page) :
    Option RecordScan :=
  match page.firstRecord with
  | Except.ok tmpRid => recordLoop fsub sc page (page.slots.length + 1) tmpRid
  | Except.error _ => some RecordScan.exhausted

/-- Outcome of one iteration of the outer loop of `scanNext`: the call returns
(`done`), the loop goes on with the next page (`more`), or there is no normal
continuation (`stuck`). -/
inductive PageStep (σ : Type) (N : Nat) where
  | done (r : Status × Option RID × HeapFileScan N × BufMgr σ N)
  | more (sc : HeapFileScan N) (bm : BufMgr σ N)
  | stuck

/-- One iteration of the outer loop of `scanNext` (the body of `pageLoop`). -/
def pageStep (ops : FileOps σ) (fsub : List Byte → List Byte → DiffClass) (sc : HeapFileScan N)
    (bm : BufMgr σ N) : PageStep σ N :=
  match sc.curPage with
  | none => PageStep.stuck
  | some fr =>
    match scanPage fsub sc (bm.bufPool fr) with
    | none => PageStep.stuck
    | some (RecordScan.matched rid) =>
      PageStep.done (Status.OK, some rid, { sc with curRec := rid }, bm)
    | some (RecordScan.failed status) => PageStep.done (status, none, sc, bm)
    | some RecordScan.exhausted =>
      if (bm.bufPool fr).nextPage = -1 then PageStep.done (Status.FILEEOF, none, sc, bm)
      else
        match bm.readPage ops sc.filePtr (bm.bufPool fr).nextPage with
        | none => PageStep.stuck
        | some (status, pg, bm1) =>
          let sc2 := { sc with curPageNo := (bm.bufPool fr).nextPage
                               curPage := match pg with
                                          | some f => some f
                                          | none => sc.curPage }
          if status = Status.OK then PageStep.more sc2 bm1
          else PageStep.done (status, none, sc2, bm1)

/-- The scan has a current page, and that page is pinned in the pool under the
number `curPageNo`. -/
def CurPinned (sc : HeapFileScan N) (bm : BufMgr σ N) : Prop :=
  ∃ fr, sc.curPage = some fr ∧
    BufHashTbl.lookup bm.hashTable (some sc.filePtr) sc.curPageNo = some fr ∧
    0 < (bm.bufTable fr).pinCnt

/-- Two scan objects with the same file and the same filter. -/
def sameFilter (a b : HeapFileScan N) : Prop :=
  b.filePtr = a.filePtr ∧ b.filter = a.filter ∧ b.offset = a.offset ∧ b.length = a.length ∧
  b.type = a.type ∧ b.op = a.op

/-- Two scan objects with the same file, the same filter and the same mark. -/
def keepsScan (a b : HeapFileScan N) : Prop :=
  sameFilter a b ∧ b.markedPageNo = a.markedPageNo ∧ b.markedRec = a.markedRec

end HeapFileScan

/-! ## Reachable pool states -/

namespace BufMgr

variable {σ : Type} {N : Nat}

/-- The pool states that can be reached from a freshly constructed pool by
calls of `readPage`, `unPinPage`, `allocPage`, `disposePage` and `flushFile`
that return. -/
inductive Reachable (ops : FileOps σ) : BufMgr σ N → Prop where
  | new (hN : 0 < N) (disk : σ) : Reachable ops (BufMgr.new hN disk)
  | readPage (s : BufMgr σ N) (file : File) (PageNo : Int)
      (r : Status × Option (Fin N) × BufMgr σ N) :
      Reachable ops s → BufMgr.readPage ops s file PageNo = some r → Reachable ops r.2.2
  | unPinPage (s : BufMgr σ N) (file : File) (PageNo : Int) (dirty : Bool) :
      Reachable ops s → Reachable ops (BufMgr.unPinPage s file PageNo dirty).2
  | allocPage (s : BufMgr σ N) (file : File)
      (r : Status × Option Int × Option (Fin N) × BufMgr σ N) :
      Reachable ops s → BufMgr.allocPage ops s file = some r → Reachable ops r.2.2.2
  | disposePage (s : BufMgr σ N) (file : File) (pageNo : Int) :
      Reachable ops s → Reachable ops (BufMgr.disposePage ops s file pageNo).2
  | flushFile (s : BufMgr σ N) (file : File) :
      Reachable ops s → Reachable ops (BufMgr.flushFile ops s file).2

end BufMgr

/-- A pool of one frame on which page 3 of file 7 has been read (the new pool
itself if the read does not return). -/
def readPool : BufMgr MemDisk 1 :=
  match BufMgr.readPage memOps (BufMgr.new Nat.one_pos pool2.disk) 7 3 with
  | none => BufMgr.new Nat.one_pos pool2.disk
  | some r => r.2.2

/-- The pool `readPool` after page 3 of file 7 has been unpinned. -/
def unpinnedPool : BufMgr MemDisk 1 :=
  (readPool.unPinPage 7 3 false).2

/-- The pool `unpinnedPool` after file 7 has been flushed. -/
def flushedPool : BufMgr MemDisk 1 :=
  (BufMgr.flushFile memOps unpinnedPool 7).2

/-! ## What a scan should return: the records of the page chain, in order -/

/-- The records of a slot directory in slot order, each with its RID; `k` is
the number of the first slot of the list. -/
def recordsFrom (pageNo : Int) : Nat → List (Option Record) → List (RID × Record)
  | _, [] => []
  | k, none :: rest => recordsFrom pageNo (k + 1) rest
  | k, some rec :: rest => (⟨pageNo, k⟩, rec) :: recordsFrom pageNo (k + 1) rest

/-- The records of a page in slot order, each with its RID. -/
def Page.records (p : Page) : List (RID × Record) :=
  recordsFrom p.curPage 0 p.slots

namespace HeapFileScan

variable {σ : Type} {N : Nat}

/-- The scan of a list of records as the design words it: `matchRec` on each
in turn, the first match wins.  There is no result when `matchRec` has none on
a record that is met. -/
def scanRecords (fsub : List Byte → List Byte → DiffClass) (sc : HeapFileScan N) :
    List (RID × Record) → Option RecordScan
  | [] => some RecordScan.exhausted
  | (rid, rec) :: rest =>
    match sc.matchRec fsub rec with
    | none => none
    | some true => some (RecordScan.matched rid)
    | some false => scanRecords fsub sc rest

/-- The RID of the first record that satisfies `matchRec`, in the order of the
pages and, on a page, in slot order. -/
def firstMatch (fsub : List Byte → List Byte → DiffClass) (sc : HeapFileScan N) :
    List Page → Option RID
  | [] => none
  | p :: ps =>
    match p.records.find? (fun e => decide (sc.matchRec fsub e.2 = some true)) with
    | some e => some e.1
    | none => firstMatch fsub sc ps

/-- The current page followed by at most `k` further pages of the chain, each
as the buffer manager returns it when it is read after the pages before it;
the list ends early at a page without next page, and there is no list when the
scan has no current page or a read does not succeed. -/
def pagesFrom (ops : FileOps σ) : Nat → HeapFileScan N → BufMgr σ N → Option (List Page)
  | 0, sc, bm =>
    match sc.curPage with
    | none => none
    | some fr => some [bm.bufPool fr]
  | k + 1, sc, bm =>
    match sc.curPage with
    | none => none
    | some fr =>
      if (bm.bufPool fr).nextPage = -1 then some [bm.bufPool fr]
      else
        match bm.readPage ops sc.filePtr (bm.bufPool fr).nextPage with
        | some (Status.OK, some f1, bm1) =>
          (pagesFrom ops k { sc with curPageNo := (bm.bufPool fr).nextPage, curPage := some f1 }
            bm1).map (fun ps => bm.bufPool fr :: ps)
        | _ => none

/-- The pages a call of `scanNext` may go through, up to `k` pages after the
first: the chain from the current page, or from the first page of the file
when the scan has no current page (no page at all when the file has none). -/
def scanPages (ops : FileOps σ) (k : Nat) (sc : HeapFileScan N) (bm : BufMgr σ N) :
    Option (List Page) :=
  if sc.curPage = none ∨ sc.curPageNo = 0 then
    match sc.headerPage with
    | none => none
    | some hdr =>
      if (bm.bufPool hdr).firstPage = -1 then some []
      else
        match bm.readPage ops sc.filePtr (bm.bufPool hdr).firstPage with
        | some (Status.OK, some f1, bm1) =>
          pagesFrom ops k
            { sc with curPageNo := (bm.bufPool hdr).firstPage, curPage := some f1
                      curDirtyFlag := false, curRec := NULLRID } bm1
        | _ => none
  else pagesFrom ops k sc bm

end HeapFileScan

/-- The heap file `t` (handle 7) with header page 1 and one data page, page 2,
which holds no record. -/
def heapEmpty : MemDisk :=
  ⟨[("t", 7)], [((7, 2), dataPage 2 (-1) []), ((7, 1), hdrPage 2 2 1 0)]⟩


/-! ## What a flush of some frames leaves behind -/

namespace BufMgr

variable {σ : Type} {N : Nat}

/-- The frames of `frames` that hold a valid page of `file` in `s`, in the
order of `frames`. -/
def fileFrames (s : BufMgr σ N) (file : File) (frames : List (Fin N)) : List (Fin N) :=
  frames.filter (fun i => decide ((s.bufTable i).valid = true ∧ (s.bufTable i).file = some file))

/-- The frames before frame `k`, in increasing order. -/
def framesBefore (k : Fin N) : List (Fin N) :=
  (List.finRange N).filter (fun i => decide (i < k))

/-- The write-back of the design ("if `dirty` write it back") for the frames
of `file` among `frames`, as calls on the store: one `writePage` per dirty
frame, with the page number and the contents the frame has in `s`. -/
def flushWrites (s : BufMgr σ N) (file : File) (frames : List (Fin N)) : List (StoreCall N) :=
  ((fileFrames s file frames).filter (fun i => (s.bufTable i).dirty)).map
    (fun i => StoreCall.write file (s.bufTable i).pageNo (s.bufPool i))

/-- The store `d` after the writes of `flushWrites`, made in order. -/
def flushDisk (ops : FileOps σ) (s : BufMgr σ N) (file : File) (frames : List (Fin N)) (d : σ) :
    σ :=
  ((fileFrames s file frames).filter (fun i => (s.bufTable i).dirty)).foldl
    (fun d i => (ops.writePage d file (s.bufTable i).pageNo (s.bufPool i)).2) d

/-- The index `ht` after the removals of the design ("remove the index
entry") for the frames of `file` among `frames`: for each of them, the first
entry under the key `(file, pageNo)` of the frame is taken out. -/
def flushIndex (s : BufMgr σ N) (file : File) (frames : List (Fin N))
    (ht : List (HashEntry N)) : List (HashEntry N) :=
  (fileFrames s file frames).foldl
    (fun h i => h.eraseP (fun e => e.hasKey (some file) (s.bufTable i).pageNo)) ht

/-- Calls, store and index of the state `t` are those of `s` after the frames
of `file` among `pre` have been flushed. -/
def flushEffect (ops : FileOps σ) (file : File) (pre : List (Fin N)) (s t : BufMgr σ N) : Prop :=
  t.calls = s.calls ++ flushWrites s file pre ∧
  t.disk = flushDisk ops s file pre s.disk ∧
  t.hashTable = flushIndex s file pre s.hashTable

end BufMgr

/-! ## The end of the pool, and a delete that is lost -/

namespace BufMgr

variable {σ : Type} {N : Nat}

/-- The loop of the destructor `BufMgr::~BufMgr()` over the frames in
`frames`: every frame that is valid and dirty is written to its file, and the
status of the write is dropped.  There is no result when such a frame has a
null `File*`. -/
def deleteLoop (ops : FileOps σ) : List (Fin N) → BufMgr σ N → Option (BufMgr σ N)
  | [], s => some s
  | i :: rest, s =>
    let tmpbuf := s.bufTable i
    if tmpbuf.valid = true ∧ tmpbuf.dirty = true then
      match tmpbuf.file with
      | none => none
      | some file =>
        deleteLoop ops rest
          { s with disk := (ops.writePage s.disk file tmpbuf.pageNo (s.bufPool i)).2
                   calls := s.calls ++ [StoreCall.write file tmpbuf.pageNo (s.bufPool i)] }
    else deleteLoop ops rest s

/-- Destructor `BufMgr::~BufMgr()`.  The result is the file store the pool
leaves behind. -/
def delete (ops : FileOps σ) (s : BufMgr σ N) : Option σ :=
  (deleteLoop ops (List.finRange N) s).map (fun t => t.disk)

end BufMgr

/-- The heap file `t` (handle 7) with header page 1 and the chain of data pages
2 → 3, holding the keys 3 and 1 on page 2 and the key 3 on page 3. -/
def heapDel : MemDisk :=
  ⟨[("t", 7)],
    [((7, 3), dataPage 3 (-1) [3]), ((7, 2), dataPage 2 3 [3, 1]), ((7, 1), hdrPage 2 3 2 3)]⟩

/-- A scan of `heapDel` for `EQ 3` on a new pool of three frames: `scanNext`,
`deleteRecord` on the record it stops on, one more `scanNext`, `endScan`, the
destructor of the scan object and the destructor of the pool.  The result
lists the RID of the first `scanNext`, the status of `deleteRecord`,
`getRecCnt` after it, status and RID of the second `scanNext`, the descriptor
of every frame before the pool is destroyed as (page number, pin count, dirty),
and the store the pool leaves behind. -/
def deleteThenClose :
    Option (Option RID × Status × Option Int × (Status × Option RID) ×
      List (Int × Nat × Bool) × MemDisk) :=
  match openScan heapDel Operator.EQ 3 with
  | none => none
  | some (sc, bm) =>
    match sc.scanNext memOps noFloat 8 bm with
    | some (Status.OK, rid, sc1, bm1) =>
      match sc1.deleteRecord bm1 with
      | none => none
      | some (status, sc2, bm2) =>
        match sc2.scanNext memOps noFloat 8 bm2 with
        | none => none
        | some (status2, rid2, sc3, bm3) =>
          let e := sc3.endScan bm3
          let r := HeapFileScan.delete memDb e.2.1 e.2.2
          match BufMgr.delete memOps r.2 with
          | none => none
          | some d =>
            some (rid, status, HeapFile.getRecCnt sc2 bm2, (status2, rid2),
              (List.finRange 3).map (fun i =>
                ((r.2.bufTable i).pageNo, (r.2.bufTable i).pinCnt, (r.2.bufTable i).dirty)), d)
    | _ => none

/-- After `deleteThenClose`: the file is opened on a new pool over the store
left behind and scanned for `EQ 3` again.  The result is the status and RID of
the first `scanNext`, and `getRecCnt`. -/
def scanAfterDelete : Option (Status × Option RID × Option Int) :=
  match deleteThenClose with
  | none => none
  | some r =>
    match openScan r.2.2.2.2.2 Operator.EQ 3 with
    | none => none
    | some (sc, bm) =>
      match sc.scanNext memOps noFloat 8 bm with
      | none => none
      | some (status, rid, sc1, bm1) => some (status, rid, HeapFile.getRecCnt sc1 bm1)
/-! # Theorems -/

/-! ## The page index -/

theorem BufHashTbl.lookup_eq_none_iff {N : Nat} (ht : List (HashEntry N)) (file : Option File)
    (pageNo : Int) :
    BufHashTbl.lookup ht file pageNo = none ↔
      ∀ e ∈ ht, ¬ (some e.file = file ∧ e.pageNo = pageNo) := by
  simp [BufHashTbl.lookup, HashEntry.hasKey, List.find?_eq_none]

theorem BufHashTbl.lookup_eq_some {N : Nat} {ht : List (HashEntry N)} {file : Option File}
    {pageNo : Int} {fr : Fin N} (h : BufHashTbl.lookup ht file pageNo = some fr) :
    ∃ e ∈ ht, some e.file = file ∧ e.pageNo = pageNo ∧ e.frameNo = fr := by
  simp only [BufHashTbl.lookup, Option.map_eq_some'] at h
  obtain ⟨e, he, hfr⟩ := h
  have hk := List.find?_some he
  have hm := List.mem_of_find?_eq_some he
  simp [HashEntry.hasKey] at hk
  exact ⟨e, hm, hk.1, hk.2, hfr⟩

/-! ## `unPinPage` -/

namespace BufMgr

variable {σ : Type} {N : Nat}

/-- C2: `unPinPage` returns `HASHNOTFOUND` when `(file, PageNo)` has no index
entry and `PAGENOTPINNED` when the entry's frame has `pinCnt = 0`, leaving the
whole state unchanged in both cases; otherwise it returns `OK`, the frame's
`pinCnt` drops by exactly one, its dirty bit becomes `old dirty || dirty`, and
nothing else in the state changes. -/
theorem unPinPage_contract (s : BufMgr σ N) (file : File) (PageNo : Int) (dirty : Bool) :
    ((∀ e ∈ s.hashTable, ¬ (e.file = file ∧ e.pageNo = PageNo)) →
        s.unPinPage file PageNo dirty = (Status.HASHNOTFOUND, s)) ∧
    (∀ frameNo, BufHashTbl.lookup s.hashTable (some file) PageNo = some frameNo →
      ((s.bufTable frameNo).pinCnt = 0 →
        s.unPinPage file PageNo dirty = (Status.PAGENOTPINNED, s)) ∧
      ((s.bufTable frameNo).pinCnt ≠ 0 →
        s.unPinPage file PageNo dirty =
          (Status.OK,
            { s with bufTable := Function.update s.bufTable frameNo
                       { s.bufTable frameNo with
                           pinCnt := (s.bufTable frameNo).pinCnt - 1
                           dirty := (s.bufTable frameNo).dirty || dirty } }) ∧
        ((s.unPinPage file PageNo dirty).2.bufTable frameNo).pinCnt + 1 =
          (s.bufTable frameNo).pinCnt)) ∧
    ((∃ e ∈ s.hashTable, e.file = file ∧ e.pageNo = PageNo) →
      ∃ frameNo, BufHashTbl.lookup s.hashTable (some file) PageNo = some frameNo) := by
  refine ⟨?_, ?_, ?_⟩
  · intro h
    have hl : BufHashTbl.lookup s.hashTable (some file) PageNo = none := by
      rw [BufHashTbl.lookup_eq_none_iff]
      intro e he hk
      exact h e he ⟨Option.some.inj hk.1, hk.2⟩
    simp [unPinPage, hl]
  · intro frameNo hl
    refine ⟨?_, ?_⟩
    · intro h0
      simp [unPinPage, hl, h0]
    · intro h0
      have hpos : 0 < (s.bufTable frameNo).pinCnt := Nat.pos_of_ne_zero h0
      cases dirty <;> simp [unPinPage, hl, h0] <;> omega
  · rintro ⟨e, he, hf, hp⟩
    cases hl : BufHashTbl.lookup s.hashTable (some file) PageNo with
    | some fr => exact ⟨fr, rfl⟩
    | none =>
      rw [BufHashTbl.lookup_eq_none_iff] at hl
      exact absurd ⟨congrArg some hf, hp⟩ (hl e he)

end BufMgr

/-! ## The clock loop of `allocBuf` -/

namespace BufMgr

variable {σ : Type} {N : Nat}

theorem sameButRef_refl (d : BufDesc) : sameButRef d d := by
  cases d; rfl

theorem sameButRef_trans {a b c : BufDesc} (h1 : sameButRef a b) (h2 : sameButRef b c) :
    sameButRef a c := by
  unfold sameButRef at *
  rw [h2, h1]

theorem sameButRef_clearRef (d : BufDesc) : sameButRef d { d with refbit := false } := by
  cases d; rfl

theorem sameButRef_fields {d d1 : BufDesc} (h : sameButRef d d1) :
    d1.file = d.file ∧ d1.pageNo = d.pageNo ∧ d1.frameNo = d.frameNo ∧ d1.pinCnt = d.pinCnt ∧
    d1.dirty = d.dirty ∧ d1.valid = d.valid := by
  unfold sameButRef at h
  rw [h]
  simp

theorem clockEquiv_refl (s : BufMgr σ N) : clockEquiv s s :=
  ⟨fun _ => sameButRef_refl _, rfl, rfl, rfl, rfl, rfl⟩

theorem clockEquiv_trans {a b c : BufMgr σ N} (h1 : clockEquiv a b) (h2 : clockEquiv b c) :
    clockEquiv a c := by
  obtain ⟨a1, a2, a3, a4, a5, a6⟩ := h1
  obtain ⟨b1, b2, b3, b4, b5, b6⟩ := h2
  exact ⟨fun i => sameButRef_trans (a1 i) (b1 i), b2.trans a2, b3.trans a3, b4.trans a4,
    b5.trans a5, b6.trans a6⟩

theorem clockEquiv_advance (s : BufMgr σ N) : clockEquiv s s.advanceClock :=
  ⟨fun _ => sameButRef_refl _, rfl, rfl, rfl, rfl, rfl⟩

theorem clockEquiv_clearRef (s : BufMgr σ N) (h : Fin N) :
    clockEquiv s
      { s with bufTable := Function.update s.bufTable h { s.bufTable h with refbit := false } } := by
  refine ⟨fun i => ?_, rfl, rfl, rfl, rfl, rfl⟩
  by_cases hi : i = h
  · subst hi
    simp only [Function.update_same]
    exact sameButRef_clearRef _
  · simp only [Function.update_noteq hi]
    exact sameButRef_refl _

/-- Whatever the clock loop returns is the outcome of its last iteration, run
from a state that differs from the initial one only in the hand and in
reference bits. -/
theorem clockLoop_final (ops : FileOps σ) :
    ∀ (fuel : Nat) (s : BufMgr σ N) (r : Status × Option (Fin N) × BufMgr σ N),
      clockLoop ops fuel s = some r → ∃ s1, clockEquiv s s1 ∧ clockFinal ops s1 r := by
  intro fuel
  induction fuel with
  | zero => intro s r h; simp [clockLoop] at h
  | succ n ih =>
    intro s r h
    rw [clockLoop] at h
    dsimp only at h
    split at h
    · rename_i hv
      simp only [Option.some.injEq] at h
      exact ⟨s.advanceClock, clockEquiv_advance s, Or.inl ⟨by simpa using hv, h.symm⟩⟩
    · rename_i hv
      have hv1 : (s.advanceClock.bufTable s.advanceClock.clockHand).valid = true := by
        simpa using hv
      split at h
      · obtain ⟨s1, he, hf⟩ := ih _ r h
        exact ⟨s1, clockEquiv_trans (clockEquiv_trans (clockEquiv_advance s)
          (clockEquiv_clearRef _ _)) he, hf⟩
      · rename_i hr
        have hr1 : (s.advanceClock.bufTable s.advanceClock.clockHand).refbit = false := by
          simpa using hr
        split at h
        · obtain ⟨s1, he, hf⟩ := ih _ r h
          exact ⟨s1, clockEquiv_trans (clockEquiv_advance s) he, hf⟩
        · rename_i hp
          have hp1 : (s.advanceClock.bufTable s.advanceClock.clockHand).pinCnt = 0 := by
            simpa using hp
          split at h
          · rename_i hd
            split at h
            · exact absurd h (by simp)
            · rename_i f hfile
              refine ⟨s.advanceClock, clockEquiv_advance s, Or.inr (Or.inr ?_)⟩
              refine ⟨hv1, hr1, hp1, hd, f, hfile, ?_⟩
              split at h
              · rename_i hw
                simp only [Option.some.injEq] at h
                exact Or.inr ⟨hw, h.symm⟩
              · rename_i hw
                simp only [Option.some.injEq] at h
                exact Or.inl ⟨by simpa using hw, h.symm⟩
          · rename_i hd
            simp only [Option.some.injEq] at h
            exact ⟨s.advanceClock, clockEquiv_advance s,
              Or.inr (Or.inl ⟨hv1, hr1, hp1, by simpa using hd, h.symm⟩)⟩

end BufMgr

/-! ## Termination of the clock loop -/

namespace BufMgr

variable {σ : Type} {N : Nat}

theorem clockDist_pos (h j : Fin N) : 1 ≤ clockDist h j := by
  unfold clockDist
  have := h.isLt
  split <;> omega

theorem clockDist_le (h j : Fin N) : clockDist h j ≤ N := by
  unfold clockDist
  have := h.isLt
  have := j.isLt
  split <;> omega

theorem clockDist_self (j : Fin N) : clockDist j j = N := by
  unfold clockDist
  simp

theorem clockDist_advance (s : BufMgr σ N) (j : Fin N) (hne : s.advanceClock.clockHand ≠ j) :
    clockDist s.advanceClock.clockHand j + 1 = clockDist s.clockHand j := by
  have hh := s.clockHand.isLt
  have hj := j.isLt
  have hne1 : (s.clockHand.val + 1) % N ≠ j.val := by
    intro h
    apply hne
    exact Fin.ext h
  unfold clockDist
  simp only [advanceClock]
  by_cases hlt : s.clockHand.val + 1 < N
  · rw [Nat.mod_eq_of_lt hlt] at hne1 ⊢
    split <;> split <;> omega
  · have heq : s.clockHand.val + 1 = N := by omega
    rw [heq, Nat.mod_self] at hne1 ⊢
    split <;> split <;> omega

theorem clockMeasure_le (s : BufMgr σ N) (j : Fin N) : clockMeasure s j ≤ 2 * N := by
  unfold clockMeasure
  have := clockDist_le s.clockHand j
  split <;> omega

/-- With an unpinned frame `j` and no valid frame whose `File*` is null, the
clock loop returns within `clockMeasure s j` iterations. -/
theorem clockLoop_isSome (ops : FileOps σ) (j : Fin N) :
    ∀ (fuel : Nat) (s : BufMgr σ N), (s.bufTable j).pinCnt = 0 →
      (∀ i, (s.bufTable i).valid = true → (s.bufTable i).file ≠ none) →
      clockMeasure s j ≤ fuel → (clockLoop ops fuel s).isSome = true := by
  intro fuel
  induction fuel with
  | zero =>
    intro s _ _ hm
    have := clockDist_pos s.clockHand j
    unfold clockMeasure at hm
    omega
  | succ n ih =>
    intro s hpin hfile hm
    rw [clockLoop]
    dsimp only
    split
    · rfl
    · rename_i hv
      have hv1 : (s.advanceClock.bufTable s.advanceClock.clockHand).valid = true := by
        simpa using hv
      split
      · rename_i hr
        apply ih
        · by_cases hj : s.advanceClock.clockHand = j
          · rw [hj]; simp only [Function.update_same]
            rw [← hj]; rw [hj]; exact hpin
          · simp only [Function.update_noteq (Ne.symm hj)]
            exact hpin
        · intro i
          by_cases hi : i = s.advanceClock.clockHand
          · subst hi
            simp only [Function.update_same]
            intro _
            exact hfile _ hv1
          · simp only [Function.update_noteq hi]
            exact hfile i
        · by_cases hj : s.advanceClock.clockHand = j
          · have hd : clockDist s.clockHand j ≥ 1 := clockDist_pos _ _
            have hvj : (s.bufTable j).valid = true := by rw [← hj]; exact hv1
            have hrj : (s.bufTable j).refbit = true := by rw [← hj]; exact hr
            unfold clockMeasure at hm ⊢
            simp only [hvj, hrj, and_self, if_true] at hm
            have e1 : clockDist s.advanceClock.clockHand j = N := by
              rw [hj]; exact clockDist_self j
            have e2 : (Function.update s.advanceClock.bufTable s.advanceClock.clockHand
                { s.advanceClock.bufTable s.advanceClock.clockHand with refbit := false }
                j).refbit = false := by
              rw [← hj]; simp only [Function.update_same]
            simp only [e2, Bool.false_eq_true, and_false, if_false, e1]
            omega
          · have hd := clockDist_advance s j hj
            unfold clockMeasure at hm ⊢
            simp only [Function.update_noteq (Ne.symm hj)]
            have e : s.advanceClock.bufTable j = s.bufTable j := rfl
            rw [e]
            omega
      · split
        · rename_i hp
          have hj : s.advanceClock.clockHand ≠ j := by
            intro hj
            rw [hj] at hp
            have : (s.bufTable j).pinCnt = 0 := hpin
            have e : s.advanceClock.bufTable j = s.bufTable j := rfl
            rw [e, this] at hp
            simp at hp
          refine ih s.advanceClock hpin hfile ?_
          have hd := clockDist_advance s j hj
          unfold clockMeasure at hm ⊢
          have e : s.advanceClock.bufTable j = s.bufTable j := rfl
          rw [e]
          omega
        · split
          · split
            · rename_i hnone
              exact absurd hnone (hfile _ hv1)
            · split <;> rfl
          · rfl

theorem exceeded_eq_false_iff (s : BufMgr σ N) :
    s.exceeded = false ↔ ∃ j, (s.bufTable j).pinCnt = 0 := by
  unfold exceeded
  rw [← Bool.not_eq_true, List.all_eq_true]
  simp

theorem exceeded_eq_true_iff (s : BufMgr σ N) :
    s.exceeded = true ↔ ∀ j, (s.bufTable j).pinCnt ≠ 0 := by
  unfold exceeded
  rw [List.all_eq_true]
  simp

/-- The `2 * N` iterations given to the loop in `allocBuf` are enough: when no
valid frame has a null `File*`, `allocBuf` returns. -/
theorem allocBuf_isSome (ops : FileOps σ) (s : BufMgr σ N)
    (hfile : ∀ i, (s.bufTable i).valid = true → (s.bufTable i).file ≠ none) :
    (allocBuf ops s).isSome = true := by
  unfold allocBuf
  split
  · rfl
  · rename_i hex
    have hex1 : s.exceeded = false := by simpa using hex
    obtain ⟨j, hj⟩ := (exceeded_eq_false_iff s).1 hex1
    exact clockLoop_isSome ops j _ s hj hfile (clockMeasure_le s j)

end BufMgr

/-! ## The two forms of well-formedness agree -/

namespace BufMgr

variable {σ : Type} {N : Nat}

theorem filter_length_le_one {α β : Type} (key : α → β) (P : α → Bool) :
    ∀ l : List α, (l.map key).Nodup →
      (∀ a ∈ l, ∀ b ∈ l, P a = true → P b = true → key a = key b) →
      (l.filter P).length ≤ 1 := by
  intro l
  induction l with
  | nil => intro _ _; simp
  | cons a l ih =>
    intro hnd hk
    rw [List.map_cons, List.nodup_cons] at hnd
    have ihl := ih hnd.2 (fun x hx y hy => hk x (List.mem_cons_of_mem _ hx) y
      (List.mem_cons_of_mem _ hy))
    by_cases hPa : P a = true
    · have hnone : l.filter P = [] := by
        rw [List.filter_eq_nil_iff]
        intro b hb hPb
        apply hnd.1
        rw [hk a (List.mem_cons_self _ _) b (List.mem_cons_of_mem _ hb) hPa hPb]
        exact List.mem_map_of_mem key hb
      simp [List.filter_cons, hPa, hnone]
    · simp [List.filter_cons, hPa, ihl]

theorem filter_length_pos {α : Type} (P : α → Bool) (l : List α) (a : α) (ha : a ∈ l)
    (hP : P a = true) : 1 ≤ (l.filter P).length := by
  have : a ∈ l.filter P := List.mem_filter.2 ⟨ha, hP⟩
  exact List.length_pos_of_mem this

theorem keys_nodup_of_counts (tbl : Fin N → BufDesc)
    (hone : ∀ i j : Fin N, (tbl i).valid = true → (tbl j).valid = true →
      (tbl i).file = (tbl j).file → (tbl i).pageNo = (tbl j).pageNo → i = j) :
    ∀ l : List (HashEntry N),
      (∀ e ∈ l, (tbl e.frameNo).valid = true ∧ (tbl e.frameNo).file = some e.file ∧
        (tbl e.frameNo).pageNo = e.pageNo) →
      (∀ i : Fin N, (l.filter (fun e => decide (e.frameNo = i))).length ≤ 1) →
      (l.map (fun e => (e.file, e.pageNo))).Nodup := by
  intro l
  induction l with
  | nil => intro _ _; simp
  | cons a l ih =>
    intro hq hc
    rw [List.map_cons, List.nodup_cons]
    refine ⟨?_, ih (fun e he => hq e (List.mem_cons_of_mem _ he)) (fun i => ?_)⟩
    · intro hmem
      rw [List.mem_map] at hmem
      obtain ⟨b, hb, hkey⟩ := hmem
      have hfa := hq a (List.mem_cons_self _ _)
      have hfb := hq b (List.mem_cons_of_mem _ hb)
      simp only [Prod.mk.injEq] at hkey
      have hfr : b.frameNo = a.frameNo := by
        apply hone _ _ hfb.1 hfa.1
        · rw [hfb.2.1, hfa.2.1, hkey.1]
        · rw [hfb.2.2, hfa.2.2, hkey.2]
      have h2 := hc a.frameNo
      have hpos := filter_length_pos (fun e : HashEntry N => decide (e.frameNo = a.frameNo)) l b hb
        (by simpa using hfr)
      simp only [List.filter_cons, decide_True, if_true, List.length_cons] at h2
      omega
    · have h2 := hc i
      rw [List.filter_cons] at h2
      split at h2
      · simp only [List.length_cons] at h2; omega
      · exact h2

theorem WF.toCore {s : BufMgr σ N} (h : WF s) : WFcore s := by
  obtain ⟨h1, h2, h3, h4⟩ := h
  refine ⟨?_, h2, ?_, fun i hi => (h4 i hi).2⟩
  · apply keys_nodup_of_counts s.bufTable h3 s.hashTable h2
    intro i
    by_cases hv : (s.bufTable i).valid = true
    · exact le_of_eq (h1 i hv)
    · have hv1 : (s.bufTable i).valid = false := by simpa using hv
      have : s.hashTable.filter (fun e => decide (e.frameNo = i)) = [] := by
        rw [List.filter_eq_nil_iff]
        intro e he
        simpa using (h4 i hv1).1 e he
      simp [this]
  · intro i hv
    have := h1 i hv
    have hne : s.hashTable.filter (fun e => decide (e.frameNo = i)) ≠ [] := by
      intro h0
      rw [h0] at this
      simp at this
    obtain ⟨e, he⟩ := List.exists_mem_of_ne_nil _ hne
    rw [List.mem_filter] at he
    exact ⟨e, he.1, by simpa using he.2⟩

theorem WFcore.toWF {s : BufMgr σ N} (h : WFcore s) : WF s := by
  obtain ⟨h1, h2, h3, h4⟩ := h
  refine ⟨?_, h2, ?_, ?_⟩
  · intro i hv
    obtain ⟨e, he, hei⟩ := h3 i hv
    have hpos := filter_length_pos (fun e : HashEntry N => decide (e.frameNo = i)) s.hashTable e he
      (by simpa using hei)
    have hle := filter_length_le_one (fun e : HashEntry N => (e.file, e.pageNo))
      (fun e : HashEntry N => decide (e.frameNo = i)) s.hashTable h1 (by
        intro a ha b hb hPa hPb
        have ea : a.frameNo = i := by simpa using hPa
        have eb : b.frameNo = i := by simpa using hPb
        have qa := h2 a ha
        have qb := h2 b hb
        rw [ea] at qa
        rw [eb] at qb
        have : some a.file = some b.file := by rw [← qa.2.1, ← qb.2.1]
        simp only [Prod.mk.injEq]
        exact ⟨Option.some.inj this, by rw [← qa.2.2, ← qb.2.2]⟩)
    omega
  · intro i j hvi hvj hf hp
    obtain ⟨a, ha, hai⟩ := h3 i hvi
    obtain ⟨b, hb, hbj⟩ := h3 j hvj
    have qa := h2 a ha
    have qb := h2 b hb
    rw [hai] at qa
    rw [hbj] at qb
    have hkey : (fun e : HashEntry N => (e.file, e.pageNo)) a =
        (fun e : HashEntry N => (e.file, e.pageNo)) b := by
      have : some a.file = some b.file := by rw [← qa.2.1, ← qb.2.1, hf]
      simp only [Prod.mk.injEq]
      exact ⟨Option.some.inj this, by rw [← qa.2.2, ← qb.2.2, hp]⟩
    have hab : a = b := List.inj_on_of_nodup_map h1 ha hb hkey
    rw [← hai, ← hbj, hab]
  · intro i hv
    refine ⟨?_, h4 i hv⟩
    intro e he hei
    have := (h2 e he).1
    rw [hei, hv] at this
    exact absurd this (by simp)

theorem WF_iff_WFcore (s : BufMgr σ N) : WF s ↔ WFcore s :=
  ⟨WF.toCore, WFcore.toWF⟩

end BufMgr

/-! ## Steps that preserve well-formedness -/

namespace BufMgr

variable {σ : Type} {N : Nat}

theorem BufHashTbl_remove_snd (ht : List (HashEntry N)) (file : Option File) (pageNo : Int) :
    (BufHashTbl.remove ht file pageNo).2 = ht.eraseP (fun e => e.hasKey file pageNo) := by
  unfold BufHashTbl.remove
  split
  · rfl
  · rename_i h
    symm
    apply List.eraseP_of_forall_not
    intro e he hk
    apply h
    rw [List.any_eq_true]
    exact ⟨e, he, hk⟩

theorem hasKey_iff (e : HashEntry N) (file : Option File) (pageNo : Int) :
    e.hasKey file pageNo = true ↔ some e.file = file ∧ e.pageNo = pageNo := by
  simp [HashEntry.hasKey]

theorem not_hasKey_of_mem_eraseP (file : Option File) (pageNo : Int) :
    ∀ l : List (HashEntry N), (l.map (fun e => (e.file, e.pageNo))).Nodup →
      ∀ e ∈ l.eraseP (fun e => e.hasKey file pageNo), e.hasKey file pageNo = false := by
  intro l
  induction l with
  | nil => intro _ e he; simp at he
  | cons a l ih =>
    intro hnd e he
    rw [List.map_cons, List.nodup_cons] at hnd
    by_cases hPa : a.hasKey file pageNo = true
    · have e1 : (a :: l).eraseP (fun e => e.hasKey file pageNo) = l :=
        List.eraseP_cons_of_pos hPa
      rw [e1] at he
      by_contra hPe
      have hPe1 : e.hasKey file pageNo = true := by simpa using hPe
      rw [hasKey_iff] at hPa hPe1
      apply hnd.1
      rw [List.mem_map]
      refine ⟨e, he, ?_⟩
      have : some e.file = some a.file := by rw [hPe1.1, hPa.1]
      simp only [Prod.mk.injEq]
      exact ⟨Option.some.inj this, by rw [hPe1.2, hPa.2]⟩
    · have e1 : (a :: l).eraseP (fun e => e.hasKey file pageNo) =
          a :: l.eraseP (fun e => e.hasKey file pageNo) := List.eraseP_cons_of_neg hPa
      rw [e1] at he
      rcases List.mem_cons.1 he with h | h
      · rw [h]; simpa using hPa
      · exact ih hnd.2 e h

theorem WFcore_congr {s s1 : BufMgr σ N} (ht : s1.bufTable = s.bufTable)
    (hh : s1.hashTable = s.hashTable) (h : WFcore s) : WFcore s1 := by
  unfold WFcore at *
  rw [ht, hh]
  exact h

theorem WFcore_of_fields {s s1 : BufMgr σ N}
    (hd : ∀ i, (s1.bufTable i).file = (s.bufTable i).file ∧
      (s1.bufTable i).pageNo = (s.bufTable i).pageNo ∧
      (s1.bufTable i).valid = (s.bufTable i).valid ∧
      ((s.bufTable i).valid = false → (s1.bufTable i).pinCnt = (s.bufTable i).pinCnt ∧
        (s1.bufTable i).dirty = (s.bufTable i).dirty))
    (hh : s1.hashTable = s.hashTable) (h : WFcore s) : WFcore s1 := by
  obtain ⟨h1, h2, h3, h4⟩ := h
  refine ⟨by rw [hh]; exact h1, ?_, ?_, ?_⟩
  · intro e he
    rw [hh] at he
    have := h2 e he
    have f := hd e.frameNo
    rw [f.1, f.2.1, f.2.2.1]
    exact this
  · intro i hv
    rw [(hd i).2.2.1] at hv
    rw [hh]
    exact h3 i hv
  · intro i hv
    rw [(hd i).2.2.1] at hv
    have := (hd i).2.2.2 hv
    rw [this.1, this.2]
    exact h4 i hv

theorem WFcore_clockEquiv {s s1 : BufMgr σ N} (he : clockEquiv s s1) (h : WFcore s) :
    WFcore s1 := by
  apply WFcore_of_fields _ he.2.2.1 h
  intro i
  have := sameButRef_fields (he.1 i)
  exact ⟨this.1, this.2.1, this.2.2.2.2.2, fun _ => ⟨this.2.2.2.1, this.2.2.2.2.1⟩⟩

/-- Changing pin count, dirty bit or reference bit of a valid frame keeps the
pool well-formed. -/
theorem WFcore_touch {s s1 : BufMgr σ N} (h : WFcore s) (fr : Fin N) (d : BufDesc)
    (hv : (s.bufTable fr).valid = true) (hdv : d.valid = true)
    (hdf : d.file = (s.bufTable fr).file) (hdp : d.pageNo = (s.bufTable fr).pageNo)
    (ht : s1.bufTable = Function.update s.bufTable fr d)
    (hh : s1.hashTable = s.hashTable) : WFcore s1 := by
  apply WFcore_of_fields _ hh h
  intro i
  rw [ht]
  by_cases hi : i = fr
  · subst hi
    simp only [Function.update_same]
    refine ⟨hdf, hdp, by rw [hdv, hv], fun h0 => ?_⟩
    rw [hv] at h0
    exact absurd h0 (by simp)
  · rw [Function.update_noteq hi]
    exact ⟨rfl, rfl, rfl, fun _ => ⟨rfl, rfl⟩⟩

/-- Removing the index entry of a valid frame and making the frame invalid,
unpinned and clean keeps the pool well-formed. -/
theorem WFcore_drop {s s1 : BufMgr σ N} (h : WFcore s) (fr : Fin N) (d : BufDesc)
    (hv : (s.bufTable fr).valid = true) (hdv : d.valid = false) (hdp : d.pinCnt = 0)
    (hdd : d.dirty = false)
    (ht : s1.bufTable = Function.update s.bufTable fr d)
    (hh : s1.hashTable = s.hashTable.eraseP
      (fun e => e.hasKey (s.bufTable fr).file (s.bufTable fr).pageNo)) : WFcore s1 := by
  obtain ⟨h1, h2, h3, h4⟩ := h
  have hne : ∀ e ∈ s1.hashTable, e ∈ s.hashTable ∧ e.frameNo ≠ fr := by
    intro e he
    rw [hh] at he
    have hm := List.mem_of_mem_eraseP he
    refine ⟨hm, fun hfr => ?_⟩
    have hk := not_hasKey_of_mem_eraseP _ _ s.hashTable h1 e he
    have q := h2 e hm
    rw [hfr] at q
    have : e.hasKey (s.bufTable fr).file (s.bufTable fr).pageNo = true := by
      rw [hasKey_iff]
      exact ⟨q.2.1.symm, q.2.2.symm⟩
    rw [this] at hk
    exact absurd hk (by simp)
  refine ⟨?_, ?_, ?_, ?_⟩
  · rw [hh]
    exact List.Nodup.sublist (List.Sublist.map _ (List.eraseP_sublist _)) h1
  · intro e he
    obtain ⟨hm, hfr⟩ := hne e he
    rw [ht, Function.update_noteq hfr]
    exact h2 e hm
  · intro i hvi
    have hi : i ≠ fr := by
      intro hi
      rw [ht, hi, Function.update_same, hdv] at hvi
      exact absurd hvi (by simp)
    rw [ht, Function.update_noteq hi] at hvi
    obtain ⟨e, he, hei⟩ := h3 i hvi
    refine ⟨e, ?_, hei⟩
    rw [hh]
    apply (List.mem_eraseP_of_neg _).2 he
    intro hk
    rw [hasKey_iff] at hk
    obtain ⟨efr, hefr, hefr2⟩ := h3 fr hv
    have q := h2 efr hefr
    rw [hefr2] at q
    have hkey : (fun e : HashEntry N => (e.file, e.pageNo)) e =
        (fun e : HashEntry N => (e.file, e.pageNo)) efr := by
      have : some e.file = some efr.file := by rw [hk.1, q.2.1]
      simp only [Prod.mk.injEq]
      exact ⟨Option.some.inj this, by rw [hk.2, q.2.2]⟩
    have := List.inj_on_of_nodup_map h1 he hefr hkey
    apply hi
    rw [← hei, this, hefr2]
  · intro i hvi
    by_cases hi : i = fr
    · rw [ht, hi, Function.update_same]
      exact ⟨hdp, hdd⟩
    · rw [ht, Function.update_noteq hi] at hvi ⊢
      exact h4 i hvi

/-- Giving an invalid frame a page whose key is not yet in the index, and
adding the entry, keeps the pool well-formed. -/
theorem WFcore_install {s s1 : BufMgr σ N} (h : WFcore s) (fr : Fin N) (d : BufDesc)
    (file : File) (pageNo : Int)
    (hv : (s.bufTable fr).valid = false)
    (hnew : ∀ e ∈ s.hashTable, e.hasKey (some file) pageNo = false)
    (hdv : d.valid = true) (hdf : d.file = some file) (hdp : d.pageNo = pageNo)
    (ht : s1.bufTable = Function.update s.bufTable fr d)
    (hh : s1.hashTable = ⟨file, pageNo, fr⟩ :: s.hashTable) : WFcore s1 := by
  obtain ⟨h1, h2, h3, h4⟩ := h
  have hne : ∀ e ∈ s.hashTable, e.frameNo ≠ fr := by
    intro e he hfr
    have := (h2 e he).1
    rw [hfr, hv] at this
    exact absurd this (by simp)
  refine ⟨?_, ?_, ?_, ?_⟩
  · rw [hh, List.map_cons, List.nodup_cons]
    refine ⟨?_, h1⟩
    intro hm
    rw [List.mem_map] at hm
    obtain ⟨e, he, hk⟩ := hm
    simp only [Prod.mk.injEq] at hk
    have := hnew e he
    have ht : e.hasKey (some file) pageNo = true := by
      rw [hasKey_iff]
      exact ⟨by rw [hk.1], hk.2⟩
    rw [ht] at this
    exact absurd this (by simp)
  · intro e he
    rw [hh] at he
    rcases List.mem_cons.1 he with he | he
    · rw [he, ht]
      simp only [Function.update_same]
      exact ⟨hdv, hdf, hdp⟩
    · rw [ht, Function.update_noteq (hne e he)]
      exact h2 e he
  · intro i hvi
    rw [hh]
    by_cases hi : i = fr
    · exact ⟨⟨file, pageNo, fr⟩, List.mem_cons_self _ _, hi.symm⟩
    · rw [ht, Function.update_noteq hi] at hvi
      obtain ⟨e, he, hei⟩ := h3 i hvi
      exact ⟨e, List.mem_cons_of_mem _ he, hei⟩
  · intro i hvi
    have hi : i ≠ fr := by
      intro hi
      rw [ht, hi, Function.update_same, hdv] at hvi
      exact absurd hvi (by simp)
    rw [ht, Function.update_noteq hi] at hvi ⊢
    exact h4 i hvi

theorem WFcore_new (hN : 0 < N) (disk : σ) : WFcore (new hN disk) := by
  refine ⟨?_, ?_, ?_, ?_⟩
  · simp [new]
  · intro e he; simp [new] at he
  · intro i hv; simp [new] at hv
  · intro i _; simp [new]

theorem WFcore.file_ne_none {s : BufMgr σ N} (h : WFcore s) (i : Fin N)
    (hv : (s.bufTable i).valid = true) : (s.bufTable i).file ≠ none := by
  obtain ⟨e, he, hei⟩ := h.2.2.1 i hv
  have := (h.2.1 e he).2.1
  rw [hei] at this
  rw [this]
  simp

end BufMgr

/-! ## `allocBuf` -/

namespace BufMgr

variable {σ : Type} {N : Nat}

/-- Outcome of `allocBuf`: either the pre-scan fails and nothing changes, or
the result is that of the last clock iteration. -/
theorem allocBuf_post (ops : FileOps σ) (s : BufMgr σ N)
    (r : Status × Option (Fin N) × BufMgr σ N) (h : allocBuf ops s = some r) :
    (s.exceeded = true ∧ r = (Status.BUFFEREXCEEDED, none, s)) ∨
    (s.exceeded = false ∧ ∃ s1, clockEquiv s s1 ∧ clockFinal ops s1 r) := by
  unfold allocBuf at h
  split at h
  · rename_i hex
    simp only [Option.some.injEq] at h
    exact Or.inl ⟨hex, h.symm⟩
  · rename_i hex
    exact Or.inr ⟨by simpa using hex, clockLoop_final ops _ s r h⟩

theorem WFcore_evict {s : BufMgr σ N} (h : WFcore s)
    (hv : (s.bufTable s.clockHand).valid = true) : WFcore s.evict.2.2 := by
  apply WFcore_drop h s.clockHand (s.bufTable s.clockHand).Clear hv rfl rfl rfl rfl
  simp only [evict]
  exact BufHashTbl_remove_snd _ _ _

theorem clockFinal_WFcore (ops : FileOps σ) {s1 : BufMgr σ N}
    {r : Status × Option (Fin N) × BufMgr σ N} (hf : clockFinal ops s1 r) (hw : WFcore s1) :
    WFcore r.2.2 ∧
    (r.1 = Status.OK → ∃ fr, r.2.1 = some fr ∧ (r.2.2.bufTable fr).valid = false) := by
  unfold clockFinal at hf
  dsimp only at hf
  rcases hf with ⟨hv, rfl⟩ | ⟨hv, -, -, -, rfl⟩ | ⟨hv, -, -, -, f, -, hw2⟩
  · exact ⟨hw, fun _ => ⟨s1.clockHand, rfl, hv⟩⟩
  · refine ⟨WFcore_evict hw hv, fun _ => ⟨s1.clockHand, rfl, ?_⟩⟩
    simp [evict, BufDesc.Clear]
  · rcases hw2 with ⟨-, rfl⟩ | ⟨-, rfl⟩
    · refine ⟨?_, fun _ => ⟨s1.clockHand, rfl, ?_⟩⟩
      · exact WFcore_evict (WFcore_congr rfl rfl hw) hv
      · simp [evict, BufDesc.Clear]
    · exact ⟨WFcore_congr rfl rfl hw, fun h => absurd h (by simp)⟩

/-- `allocBuf` keeps the pool well-formed, and a frame it hands out is invalid. -/
theorem allocBuf_WFcore (ops : FileOps σ) {s : BufMgr σ N}
    {r : Status × Option (Fin N) × BufMgr σ N} (h : allocBuf ops s = some r) (hw : WFcore s) :
    WFcore r.2.2 ∧
    (r.1 = Status.OK → ∃ fr, r.2.1 = some fr ∧ (r.2.2.bufTable fr).valid = false) := by
  rcases allocBuf_post ops s r h with ⟨-, rfl⟩ | ⟨-, s1, he, hf⟩
  · exact ⟨hw, fun h => absurd h (by simp)⟩
  · exact clockFinal_WFcore ops hf (WFcore_clockEquiv he hw)

theorem allocBuf_total (ops : FileOps σ) {s : BufMgr σ N} (hw : WFcore s) :
    ∃ r, allocBuf ops s = some r := by
  have := allocBuf_isSome ops s (fun i hv => hw.file_ne_none i hv)
  exact Option.isSome_iff_exists.1 this

end BufMgr

/-! ## Well-formedness is preserved by every operation -/

namespace BufMgr

variable {σ : Type} {N : Nat}

theorem insert_WFcore {s s1 : BufMgr σ N} (hw : WFcore s) (fr : Fin N) (file : File)
    (pageNo : Int) (hv : (s.bufTable fr).valid = false)
    (hok : (BufHashTbl.insert s.hashTable file pageNo fr).1 = Status.OK)
    (hh : s1.hashTable = (BufHashTbl.insert s.hashTable file pageNo fr).2)
    (ht : s1.bufTable = Function.update s.bufTable fr ((s.bufTable fr).Set file pageNo)) :
    WFcore s1 := by
  unfold BufHashTbl.insert at hok hh
  split at hok
  · exact absurd hok (by simp)
  · rename_i hany
    rw [if_neg hany] at hh
    apply WFcore_install hw fr _ file pageNo hv _ rfl rfl rfl ht hh
    intro e he
    by_contra hk
    apply hany
    rw [List.any_eq_true]
    exact ⟨e, he, by simpa using hk⟩

theorem insert_fail_snd (ht : List (HashEntry N)) (file : File) (pageNo : Int) (fr : Fin N)
    (h : (BufHashTbl.insert ht file pageNo fr).1 ≠ Status.OK) :
    (BufHashTbl.insert ht file pageNo fr).2 = ht := by
  unfold BufHashTbl.insert at h ⊢
  split
  · rfl
  · rename_i hany
    rw [if_neg hany] at h
    exact absurd rfl h

theorem readPage_WFcore (ops : FileOps σ) {s : BufMgr σ N} (hw : WFcore s) (file : File)
    (PageNo : Int) : ∃ r, readPage ops s file PageNo = some r ∧ WFcore r.2.2 := by
  unfold readPage
  cases hl : BufHashTbl.lookup s.hashTable (some file) PageNo with
  | some frameNo =>
    refine ⟨_, rfl, ?_⟩
    obtain ⟨e, he, -, -, hfr⟩ := BufHashTbl.lookup_eq_some hl
    have q := hw.2.1 e he
    rw [hfr] at q
    refine WFcore_touch hw frameNo _ q.1 ?_ ?_ ?_ rfl rfl <;> first | rfl | exact q.1
  | none =>
    obtain ⟨⟨st, fr, s1⟩, hr⟩ := allocBuf_total ops hw
    obtain ⟨hw1, hfr⟩ := allocBuf_WFcore ops hr hw
    simp only [hr]
    by_cases hst : st = Status.OK
    · obtain ⟨frameNo, hfr1, hinv⟩ := hfr hst
      simp only at hfr1 hinv hw1
      subst hfr1
      subst hst
      simp only [ne_eq, not_true_eq_false, if_false]
      split
      · refine ⟨_, rfl, WFcore_congr ?_ ?_ hw1⟩ <;> rfl
      · split
        · refine ⟨_, rfl, ?_⟩
          rename_i hins
          refine WFcore_congr ?_ ?_ hw1
          · rfl
          · exact insert_fail_snd _ _ _ _ hins
        · refine ⟨_, rfl, ?_⟩
          rename_i hins
          exact insert_WFcore hw1 frameNo file PageNo hinv (by simpa using hins) rfl rfl
    · simp only [ne_eq, hst, not_false_eq_true, if_true]
      exact ⟨_, rfl, hw1⟩

theorem unPinPage_WFcore {s : BufMgr σ N} (hw : WFcore s) (file : File) (PageNo : Int)
    (dirty : Bool) : WFcore (s.unPinPage file PageNo dirty).2 := by
  unfold unPinPage
  cases hl : BufHashTbl.lookup s.hashTable (some file) PageNo with
  | none => exact hw
  | some frameNo =>
    obtain ⟨e, he, -, -, hfr⟩ := BufHashTbl.lookup_eq_some hl
    have q := hw.2.1 e he
    rw [hfr] at q
    dsimp only
    split
    · exact hw
    · cases dirty
      · simp only [Bool.false_eq_true, if_false]
        refine WFcore_touch hw frameNo _ q.1 ?_ ?_ ?_ rfl rfl <;> first | rfl | exact q.1
      · simp only [if_true]
        refine WFcore_touch hw frameNo _ q.1 ?_ ?_ ?_ rfl rfl <;> first | rfl | exact q.1

theorem allocPage_WFcore (ops : FileOps σ) {s : BufMgr σ N} (hw : WFcore s) (file : File) :
    ∃ r, allocPage ops s file = some r ∧ WFcore r.2.2.2 := by
  unfold allocPage
  dsimp only
  split
  · refine ⟨_, rfl, WFcore_congr ?_ ?_ hw⟩ <;> rfl
  · have hw0 : WFcore { s with disk := (ops.allocatePage s.disk file).2.2
                               calls := s.calls ++ [StoreCall.allocate file] } :=
      WFcore_congr rfl rfl hw
    obtain ⟨⟨st, fr, s1⟩, hr⟩ := allocBuf_total ops hw0
    obtain ⟨hw1, hfr⟩ := allocBuf_WFcore ops hr hw0
    simp only [hr]
    by_cases hst : st = Status.OK
    · obtain ⟨frameNo, hfr1, hinv⟩ := hfr hst
      simp only at hfr1 hinv hw1
      subst hfr1
      subst hst
      simp only [ne_eq, not_true_eq_false, if_false]
      split
      · refine ⟨_, rfl, ?_⟩
        rename_i hins
        refine WFcore_congr ?_ ?_ hw1
        · rfl
        · exact insert_fail_snd _ _ _ _ hins
      · refine ⟨_, rfl, ?_⟩
        rename_i hins
        exact insert_WFcore hw1 frameNo file _ hinv (by simpa using hins) rfl rfl
    · simp only [ne_eq, hst, not_false_eq_true, if_true]
      exact ⟨_, rfl, hw1⟩

theorem disposePage_WFcore (ops : FileOps σ) {s : BufMgr σ N} (hw : WFcore s) (file : File)
    (pageNo : Int) : WFcore (disposePage ops s file pageNo).2 := by
  unfold disposePage
  dsimp only
  cases hl : BufHashTbl.lookup s.hashTable (some file) pageNo with
  | none =>
    refine WFcore_congr ?_ ?_ hw
    · rfl
    dsimp only
    rw [BufHashTbl_remove_snd]
    apply List.eraseP_of_forall_not
    intro e he hk
    rw [BufHashTbl.lookup_eq_none_iff] at hl
    exact hl e he ((hasKey_iff _ _ _).1 hk)
  | some frameNo =>
    obtain ⟨e, he, hf, hp, hfr⟩ := BufHashTbl.lookup_eq_some hl
    have q := hw.2.1 e he
    rw [hfr] at q
    apply WFcore_drop hw frameNo (s.bufTable frameNo).Clear q.1 rfl rfl rfl rfl
    dsimp only
    rw [BufHashTbl_remove_snd, q.2.1, q.2.2, hf, hp]

theorem flushFrame_WFcore (ops : FileOps σ) (file : File) {s : BufMgr σ N} (hw : WFcore s)
    (i : Fin N) : WFcore (flushFrame ops file s i).2 := by
  unfold flushFrame
  dsimp only
  split
  · rename_i hvf
    split
    · exact hw
    · rename_i hpin
      have hpin0 : (s.bufTable i).pinCnt = 0 := by omega
      split
      · rename_i hd
        split
        · refine WFcore_congr ?_ ?_ hw <;> rfl
        · refine WFcore_drop hw i
            { (s.bufTable i) with file := none, pageNo := -1, valid := false, dirty := false }
            hvf.1 ?_ ?_ ?_ ?_ ?_
          · rfl
          · exact hpin0
          · rfl
          · simp only [flushDrop, Function.update_same, Function.update_idem]
          · simp only [flushDrop, Function.update_same]
            rw [BufHashTbl_remove_snd, hvf.2]
      · rename_i hd
        refine WFcore_drop hw i
          { (s.bufTable i) with file := none, pageNo := -1, valid := false } hvf.1 ?_ ?_ ?_ ?_ ?_
        · rfl
        · exact hpin0
        · simpa using hd
        · rfl
        · simp only [flushDrop]
          rw [BufHashTbl_remove_snd, hvf.2]
  · split
    · exact hw
    · exact hw

theorem flushLoop_WFcore (ops : FileOps σ) (file : File) :
    ∀ (l : List (Fin N)) (s : BufMgr σ N), WFcore s → WFcore (flushLoop ops file l s).2 := by
  intro l
  induction l with
  | nil => intro s hw; exact hw
  | cons i rest ih =>
    intro s hw
    have h1 := flushFrame_WFcore ops file hw i
    rw [flushLoop]
    split
    · rename_i st s1 heq
      rw [heq] at h1
      exact h1
    · rename_i s1 heq
      rw [heq] at h1
      exact ih s1 h1

end BufMgr

namespace BufMgr

variable {σ : Type} {N : Nat}

/-- C6: pool well-formedness is an invariant.  It holds for a freshly
constructed pool, and from a well-formed pool every `readPage`, `unPinPage`,
`allocPage`, `disposePage` and `flushFile` call returns and leaves a
well-formed pool, whatever status the call or the file store returns. -/
theorem WF_invariant (ops : FileOps σ) :
    (∀ (hN : 0 < N) (disk : σ), WF (new hN disk)) ∧
    ∀ s : BufMgr σ N, WF s →
      (∀ file PageNo, ∃ r, readPage ops s file PageNo = some r ∧ WF r.2.2) ∧
      (∀ file PageNo dirty, WF (unPinPage s file PageNo dirty).2) ∧
      (∀ file, ∃ r, allocPage ops s file = some r ∧ WF r.2.2.2) ∧
      (∀ file pageNo, WF (disposePage ops s file pageNo).2) ∧
      (∀ file, WF (flushFile ops s file).2) := by
  refine ⟨fun hN disk => (WFcore_new hN disk).toWF, fun s hs => ?_⟩
  have hw := hs.toCore
  refine ⟨?_, ?_, ?_, ?_, ?_⟩
  · intro file PageNo
    obtain ⟨r, hr, hw1⟩ := readPage_WFcore ops hw file PageNo
    exact ⟨r, hr, hw1.toWF⟩
  · intro file PageNo dirty
    exact (unPinPage_WFcore hw file PageNo dirty).toWF
  · intro file
    obtain ⟨r, hr, hw1⟩ := allocPage_WFcore ops hw file
    exact ⟨r, hr, hw1.toWF⟩
  · intro file pageNo
    exact (disposePage_WFcore ops hw file pageNo).toWF
  · intro file
    exact (flushLoop_WFcore ops file _ s hw).toWF

/-- The invariant of C6 at the two-frame pool `pool2`. -/
theorem WF_invariant_witness :
    WF pool2 ∧ WF (pool2.unPinPage 7 3 true).2 ∧ WF (disposePage memOps pool2 7 4).2 ∧
    WF (flushFile memOps pool2 7).2 :=
  ⟨by decide, ((WF_invariant memOps).2 pool2 (by decide)).2.1 7 3 true,
    ((WF_invariant memOps).2 pool2 (by decide)).2.2.2.1 7 4,
    ((WF_invariant memOps).2 pool2 (by decide)).2.2.2.2 7⟩

/-- The outcome of C2 at `pool2`: unpinning page 3 of file 7 succeeds and takes
its pin count from 2 to 1. -/
theorem unPinPage_contract_witness :
    (pool2.unPinPage 7 3 true).1 = Status.OK ∧
    ((pool2.unPinPage 7 3 true).2.bufTable 0).pinCnt + 1 = 2 :=
  ⟨congrArg Prod.fst
      (((unPinPage_contract pool2 7 3 true).2.1 0 (by decide)).2 (by decide)).1,
    (((unPinPage_contract pool2 7 3 true).2.1 0 (by decide)).2 (by decide)).2⟩

end BufMgr

/-! ## `readPage` -/

namespace BufMgr

variable {σ : Type} {N : Nat}

theorem lookup_insert_self (ht : List (HashEntry N)) (file : File) (pageNo : Int) (fr : Fin N)
    (h : (BufHashTbl.insert ht file pageNo fr).1 = Status.OK) :
    BufHashTbl.lookup (BufHashTbl.insert ht file pageNo fr).2 (some file) pageNo = some fr := by
  unfold BufHashTbl.insert at h ⊢
  split
  · rename_i hany
    rw [if_pos hany] at h
    exact absurd h (by simp)
  · simp [BufHashTbl.lookup, HashEntry.hasKey]

/-- C1: from a well-formed pool, if `readPage(file, PageNo)` returns `OK` then
the index maps `(file, PageNo)` to the returned frame, and that frame is valid
with `refbit = true`.  On a hit the pin count is one more than before, the dirty
bit is unchanged and no call is made on the file store.  On a miss the pin count
is 1, the dirty bit is false, and the last call on the file store is the read
of `PageNo` into that frame, which now holds what the store returned. -/
theorem readPage_contract (ops : FileOps σ) (s : BufMgr σ N) (hs : WF s) (file : File)
    (PageNo : Int) (fr : Option (Fin N)) (s' : BufMgr σ N)
    (h : readPage ops s file PageNo = some (Status.OK, fr, s')) :
    ∃ frameNo, fr = some frameNo ∧
      BufHashTbl.lookup s'.hashTable (some file) PageNo = some frameNo ∧
      (s'.bufTable frameNo).valid = true ∧ (s'.bufTable frameNo).refbit = true ∧
      (s'.bufTable frameNo).file = some file ∧ (s'.bufTable frameNo).pageNo = PageNo ∧
      (∀ f0, BufHashTbl.lookup s.hashTable (some file) PageNo = some f0 →
        frameNo = f0 ∧
        (s'.bufTable frameNo).pinCnt = (s.bufTable frameNo).pinCnt + 1 ∧
        (s'.bufTable frameNo).dirty = (s.bufTable frameNo).dirty ∧
        s'.calls = s.calls ∧ s'.disk = s.disk ∧ s'.bufPool = s.bufPool ∧
        s'.diskreads = s.diskreads) ∧
      (BufHashTbl.lookup s.hashTable (some file) PageNo = none →
        (s'.bufTable frameNo).pinCnt = 1 ∧ (s'.bufTable frameNo).dirty = false ∧
        ∃ s1, allocBuf ops s = some (Status.OK, some frameNo, s1) ∧
          (ops.readPage s1.disk file PageNo (s1.bufPool frameNo)).1 = Status.OK ∧
          s'.calls = s1.calls ++ [StoreCall.read file PageNo frameNo] ∧
          s'.bufPool frameNo = (ops.readPage s1.disk file PageNo (s1.bufPool frameNo)).2.1 ∧
          s'.disk = (ops.readPage s1.disk file PageNo (s1.bufPool frameNo)).2.2) := by
  have hw := hs.toCore
  unfold readPage at h
  cases hl : BufHashTbl.lookup s.hashTable (some file) PageNo with
  | some frameNo =>
    simp only [hl, Option.some.injEq, Prod.mk.injEq, true_and] at h
    obtain ⟨hfr, hs'⟩ := h
    subst hs'
    obtain ⟨e, he, hf, hp, hefr⟩ := BufHashTbl.lookup_eq_some hl
    have q := hw.2.1 e he
    rw [hefr] at q
    refine ⟨frameNo, hfr.symm, hl, ?_, ?_, ?_, ?_, ?_, ?_⟩
    · simp only [Function.update_same]; exact q.1
    · simp only [Function.update_same]
    · simp only [Function.update_same]; rw [q.2.1, Option.some.inj hf]
    · simp only [Function.update_same]; rw [q.2.2, hp]
    · intro f0 hf0
      refine ⟨(Option.some.inj hf0), ?_, ?_, rfl, rfl, rfl, rfl⟩
      · simp only [Function.update_same]
      · simp only [Function.update_same]
    · intro hnone
      exact absurd hnone (by simp)
  | none =>
    simp only [hl] at h
    cases hr : allocBuf ops s with
    | none => simp [hr] at h
    | some r =>
      obtain ⟨st, fr1, s1⟩ := r
      simp only [hr] at h
      split at h
      · rename_i hst
        simp only [Option.some.injEq, Prod.mk.injEq] at h
        exact absurd h.1 hst
      · rename_i hst
        have hst1 : st = Status.OK := by simpa using hst
        subst hst1
        cases fr1 with
        | none => simp at h
        | some frameNo =>
          simp only at h
          split at h
          · rename_i hrd
            simp only [Option.some.injEq, Prod.mk.injEq] at h
            exact absurd h.1 hrd
          · rename_i hrd
            split at h
            · rename_i hins
              simp only [Option.some.injEq, Prod.mk.injEq] at h
              exact absurd h.1 hins
            · rename_i hins
              simp only [Option.some.injEq, Prod.mk.injEq, true_and] at h
              obtain ⟨hfr, hs'⟩ := h
              subst hs'
              refine ⟨frameNo, hfr.symm, ?_, ?_, ?_, ?_, ?_, ?_, ?_⟩
              · exact lookup_insert_self _ _ _ _ (by simpa using hins)
              · simp [BufDesc.Set]
              · simp [BufDesc.Set]
              · simp [BufDesc.Set]
              · simp [BufDesc.Set]
              · intro f0 hf0
                exact absurd hf0 (by simp)
              · intro _
                refine ⟨by simp [BufDesc.Set], by simp [BufDesc.Set], s1, rfl,
                  by simpa using hrd, rfl, ?_, rfl⟩
                simp only [Function.update_same]

end BufMgr

namespace BufMgr

/-- The outcome of C1 at `pool2`, for a miss: reading page 5 of file 7 returns
`OK`, the index maps the page to the returned frame and the frame is pinned
once. -/
theorem readPage_contract_witness :
    ∃ frameNo s', readPage memOps pool2 7 5 = some (Status.OK, some frameNo, s') ∧
      BufHashTbl.lookup s'.hashTable (some 7) 5 = some frameNo ∧
      (s'.bufTable frameNo).pinCnt = 1 := by
  have hex : ∃ fr s', readPage memOps pool2 7 5 = some (Status.OK, fr, s') := ⟨_, _, rfl⟩
  obtain ⟨fr, s', h⟩ := hex
  obtain ⟨frameNo, hfr, hl, -, -, -, -, -, hmiss⟩ :=
    readPage_contract memOps pool2 (by decide) 7 5 fr s' h
  subst hfr
  exact ⟨frameNo, s', h, hl, (hmiss (by decide)).1⟩

end BufMgr

/-! ## Write-back of a dirty victim -/

namespace BufMgr

variable {σ : Type} {N : Nat}

/-- The three parts of the write-back property of `allocBuf` (see
`allocBuf_dirty_writeback`). -/
theorem allocBuf_writeback_core (ops : FileOps σ) (s : BufMgr σ N) (st : Status)
    (fr : Option (Fin N)) (s' : BufMgr σ N) (h : allocBuf ops s = some (st, fr, s')) :
    (∀ v, st = Status.OK → fr = some v → (s.bufTable v).valid = true →
        (s.bufTable v).dirty = true →
        ∃ f, (s.bufTable v).file = some f ∧
          s'.calls = s.calls ++ [StoreCall.write f (s.bufTable v).pageNo (s.bufPool v)] ∧
          (ops.writePage s.disk f (s.bufTable v).pageNo (s.bufPool v)).1 = Status.OK ∧
          s'.disk = (ops.writePage s.disk f (s.bufTable v).pageNo (s.bufPool v)).2 ∧
          s'.bufPool = s.bufPool) ∧
    (st = Status.UNIXERR →
        ∃ f, (s.bufTable s'.clockHand).file = some f ∧
          (s.bufTable s'.clockHand).valid = true ∧ (s.bufTable s'.clockHand).dirty = true ∧
          (s.bufTable s'.clockHand).pinCnt = 0 ∧
          (ops.writePage s.disk f (s.bufTable s'.clockHand).pageNo
            (s.bufPool s'.clockHand)).1 ≠ Status.OK ∧
          s'.calls = s.calls ++
            [StoreCall.write f (s.bufTable s'.clockHand).pageNo (s.bufPool s'.clockHand)] ∧
          s'.hashTable = s.hashTable ∧ s'.bufPool = s.bufPool ∧
          ∀ i, (s'.bufTable i).file = (s.bufTable i).file ∧
            (s'.bufTable i).pageNo = (s.bufTable i).pageNo ∧
            (s'.bufTable i).valid = (s.bufTable i).valid ∧
            (s'.bufTable i).dirty = (s.bufTable i).dirty ∧
            (s'.bufTable i).pinCnt = (s.bufTable i).pinCnt) ∧
    (∀ f p c, s'.calls = s.calls ++ [StoreCall.write f p c] →
        (ops.writePage s.disk f p c).1 ≠ Status.OK → st = Status.UNIXERR) := by
  rcases allocBuf_post ops s _ h with ⟨-, hr⟩ | ⟨-, s1, he, hf⟩
  · simp only [Prod.mk.injEq] at hr
    obtain ⟨rfl, rfl, rfl⟩ := hr
    refine ⟨fun v h0 => absurd h0 (by simp), fun h0 => absurd h0 (by simp), ?_⟩
    intro f p c hc
    exact absurd hc (by simp)
  · obtain ⟨hd, hpool, hht, -, hdisk, hcalls⟩ := he
    unfold clockFinal at hf
    dsimp only at hf
    have hfld := fun i => sameButRef_fields (hd i)
    rcases hf with ⟨hv, hr⟩ | ⟨hv, -, hp, hdirty, hr⟩ | ⟨hv, -, hp, hdirty, f, hfile, hw2⟩
    · simp only [Prod.mk.injEq] at hr
      obtain ⟨rfl, rfl, rfl⟩ := hr
      refine ⟨?_, fun h0 => absurd h0 (by simp), ?_⟩
      · intro v _ hfr hvv _
        have : s'.clockHand = v := Option.some.inj hfr
        rw [this, (hfld v).2.2.2.2.2, hvv] at hv
        exact absurd hv (by simp)
      · intro f p c hc
        rw [hcalls] at hc
        exact absurd hc (by simp)
    · simp only [evict, Prod.mk.injEq] at hr
      obtain ⟨rfl, rfl, rfl⟩ := hr
      refine ⟨?_, fun h0 => absurd h0 (by simp), ?_⟩
      · intro v _ hfr _ hdv
        have : s1.clockHand = v := Option.some.inj hfr
        rw [this, (hfld v).2.2.2.2.1, hdv] at hdirty
        exact absurd hdirty (by simp)
      · intro f p c hc
        simp only [hcalls] at hc
        exact absurd hc (by simp)
    · rw [hdisk, hpool, hcalls, (hfld _).2.1] at hw2
      rw [(hfld _).1] at hfile
      rw [(hfld _).2.2.2.2.2] at hv
      rw [(hfld _).2.2.2.2.1] at hdirty
      rw [(hfld _).2.2.2.1] at hp
      rcases hw2 with ⟨hok, hr⟩ | ⟨hfail, hr⟩
      · simp only [evict, Prod.mk.injEq] at hr
        obtain ⟨rfl, rfl, rfl⟩ := hr
        refine ⟨?_, fun h0 => absurd h0 (by simp), ?_⟩
        · intro v _ hfr _ _
          have hv' : s1.clockHand = v := Option.some.inj hfr
          rw [hv'] at hfile hok
          refine ⟨f, hfile, ?_, hok, ?_, rfl⟩
          · simp only [hv']
          · simp only [hv']
        · intro f' p' c' hc hne
          simp only [List.append_cancel_left_eq, List.cons.injEq, StoreCall.write.injEq,
            and_true] at hc
          obtain ⟨rfl, rfl, rfl⟩ := hc
          exact absurd hok hne
      · simp only [Prod.mk.injEq] at hr
        obtain ⟨rfl, rfl, rfl⟩ := hr
        refine ⟨fun v h0 => absurd h0 (by simp), fun _ => ?_, fun _ _ _ _ _ => rfl⟩
        refine ⟨f, hfile, hv, hdirty, hp, hfail, rfl, hht, rfl, fun i => ?_⟩
        have := hfld i
        exact ⟨this.1, this.2.1, this.2.2.2.2.2, this.2.2.2.2.1, this.2.2.2.1⟩

/-- C5: dirty durability on eviction.  (1) When `allocBuf` returns `OK` with a
frame that was valid and dirty, it has issued exactly one call on the store,
`writePage(old pageNo, frame contents)` on the old file, and that call
succeeded.  (2) When `allocBuf` returns `UNIXERR`, the frame under the clock
hand was a valid, dirty, unpinned frame whose write-back failed; the index is
unchanged and every descriptor keeps its file, page number, valid and dirty
fields and pin count (only reference bits may differ), and the frame contents
are unchanged.  (3) A write-back that fails always ends the call with
`UNIXERR`.  (4) `readPage` on a miss passes that `UNIXERR` and state on. -/
theorem allocBuf_dirty_writeback (ops : FileOps σ) (s : BufMgr σ N) (st : Status)
    (fr : Option (Fin N)) (s' : BufMgr σ N) (h : allocBuf ops s = some (st, fr, s')) :
    (∀ v, st = Status.OK → fr = some v → (s.bufTable v).valid = true →
        (s.bufTable v).dirty = true →
        ∃ f, (s.bufTable v).file = some f ∧
          s'.calls = s.calls ++ [StoreCall.write f (s.bufTable v).pageNo (s.bufPool v)] ∧
          (ops.writePage s.disk f (s.bufTable v).pageNo (s.bufPool v)).1 = Status.OK ∧
          s'.disk = (ops.writePage s.disk f (s.bufTable v).pageNo (s.bufPool v)).2 ∧
          s'.bufPool = s.bufPool) ∧
    (st = Status.UNIXERR →
        ∃ f, (s.bufTable s'.clockHand).file = some f ∧
          (s.bufTable s'.clockHand).valid = true ∧ (s.bufTable s'.clockHand).dirty = true ∧
          (s.bufTable s'.clockHand).pinCnt = 0 ∧
          (ops.writePage s.disk f (s.bufTable s'.clockHand).pageNo
            (s.bufPool s'.clockHand)).1 ≠ Status.OK ∧
          s'.calls = s.calls ++
            [StoreCall.write f (s.bufTable s'.clockHand).pageNo (s.bufPool s'.clockHand)] ∧
          s'.hashTable = s.hashTable ∧ s'.bufPool = s.bufPool ∧
          ∀ i, (s'.bufTable i).file = (s.bufTable i).file ∧
            (s'.bufTable i).pageNo = (s.bufTable i).pageNo ∧
            (s'.bufTable i).valid = (s.bufTable i).valid ∧
            (s'.bufTable i).dirty = (s.bufTable i).dirty ∧
            (s'.bufTable i).pinCnt = (s.bufTable i).pinCnt) ∧
    (∀ f p c, s'.calls = s.calls ++ [StoreCall.write f p c] →
        (ops.writePage s.disk f p c).1 ≠ Status.OK → st = Status.UNIXERR) ∧
    (st = Status.UNIXERR → ∀ file PageNo,
        BufHashTbl.lookup s.hashTable (some file) PageNo = none →
        readPage ops s file PageNo = some (Status.UNIXERR, none, s')) := by
  obtain ⟨h1, h2, h3⟩ := allocBuf_writeback_core ops s st fr s' h
  refine ⟨h1, h2, h3, ?_⟩
  intro hst file PageNo hl
  subst hst
  unfold readPage
  simp [hl, h]

end BufMgr

namespace BufMgr

/-- The outcome of C5 at `pool2`: evicting the dirty frame 1 writes page 4 of
file 7 back first; over a store whose writes fail the call returns `UNIXERR`
and the index is kept. -/
theorem allocBuf_dirty_writeback_witness :
    (∃ s', allocBuf memOps pool2 = some (Status.OK, some 1, s') ∧
      s'.calls = [StoreCall.write 7 4 Page.zero]) ∧
    (∃ s', allocBuf failingWriteOps pool2 = some (Status.UNIXERR, none, s') ∧
      s'.hashTable = pool2.hashTable) := by
  constructor
  · have hex : ∃ s', allocBuf memOps pool2 = some (Status.OK, some 1, s') := ⟨_, rfl⟩
    obtain ⟨s', h⟩ := hex
    obtain ⟨f, hf, hc, -⟩ :=
      (allocBuf_dirty_writeback memOps pool2 _ _ s' h).1 1 rfl rfl (by decide) (by decide)
    have hf7 : f = 7 := by
      have : (pool2.bufTable 1).file = some 7 := by decide
      rw [this] at hf
      exact (Option.some.inj hf).symm
    subst hf7
    exact ⟨s', h, hc⟩
  · have hex : ∃ s', allocBuf failingWriteOps pool2 = some (Status.UNIXERR, none, s') :=
      ⟨_, rfl⟩
    obtain ⟨s', h⟩ := hex
    obtain ⟨f, -, -, -, -, -, -, hht, -⟩ :=
      (allocBuf_dirty_writeback failingWriteOps pool2 _ _ s' h).2.1 rfl
    exact ⟨s', h, hht⟩

end BufMgr

/-! ## Buffer exhaustion and retry -/

namespace BufMgr

variable {σ : Type} {N : Nat}

/-- When frame `j` is the only unpinned frame of a well-formed pool whose
frames are all valid, and its write-back (if it is dirty) succeeds, `allocBuf`
evicts exactly `j`. -/
theorem allocBuf_unique_victim (ops : FileOps σ) (s : BufMgr σ N) (hw : WFcore s) (j : Fin N)
    (hj : (s.bufTable j).pinCnt = 0) (hvalid : ∀ i, (s.bufTable i).valid = true)
    (hothers : ∀ i, i ≠ j → (s.bufTable i).pinCnt ≠ 0)
    (hW : (s.bufTable j).dirty = true → ∀ f, (s.bufTable j).file = some f →
      (ops.writePage s.disk f (s.bufTable j).pageNo (s.bufPool j)).1 = Status.OK) :
    ∃ s', allocBuf ops s = some (Status.OK, some j, s') ∧
      s'.hashTable = s.hashTable.eraseP
        (fun e => e.hasKey (s.bufTable j).file (s.bufTable j).pageNo) ∧
      (s'.bufTable j).valid = false ∧
      (∀ i, i ≠ j → sameButRef (s.bufTable i) (s'.bufTable i)) ∧
      s'.bufPool = s.bufPool ∧ s'.disk = evictDisk ops s j := by
  obtain ⟨⟨st, fr, s'⟩, hr⟩ := allocBuf_total ops hw
  rcases allocBuf_post ops s _ hr with ⟨hex, -⟩ | ⟨-, s1, he, hf⟩
  · rw [exceeded_eq_true_iff] at hex
    exact absurd hj (hex j)
  · obtain ⟨hd, hpool, hht, -, hdisk, hcalls⟩ := he
    have hfld := fun i => sameButRef_fields (hd i)
    unfold clockFinal at hf
    dsimp only at hf
    have hhand : (s1.bufTable s1.clockHand).pinCnt = 0 → s1.clockHand = j := by
      intro h0
      by_contra hne
      rw [(hfld _).2.2.2.1] at h0
      exact hothers _ hne h0
    rcases hf with ⟨hv, -⟩ | ⟨-, -, hp, hdirty, hres⟩ | ⟨-, -, hp, hdirty, f, hfile, hw2⟩
    · rw [(hfld _).2.2.2.2.2, hvalid] at hv
      exact absurd hv (by simp)
    · have hc := hhand hp
      simp only [evict, Prod.mk.injEq] at hres
      obtain ⟨hst, hfr, hs'⟩ := hres
      rw [(hfld _).2.2.2.2.1, hc] at hdirty
      refine ⟨s', by rw [hr, hst, hfr, hc], ?_, ?_, ?_, ?_, ?_⟩
      · rw [hs']
        dsimp only
        rw [BufHashTbl_remove_snd, hht, (hfld _).1, (hfld _).2.1, hc]
      · rw [hs']
        dsimp only
        rw [hc, Function.update_same]
        rfl
      · intro i hi
        rw [hs']
        dsimp only
        rw [hc, Function.update_noteq hi]
        exact hd i
      · rw [hs']
        exact hpool
      · rw [hs']
        dsimp only
        rw [hdisk]
        simp [evictDisk, hdirty]
    · have hc := hhand hp
      rw [(hfld _).2.2.2.2.1, hc] at hdirty
      rw [(hfld _).1, hc] at hfile
      rcases hw2 with ⟨-, hres⟩ | ⟨hfail, -⟩
      · simp only [evict, Prod.mk.injEq] at hres
        obtain ⟨hst, hfr, hs'⟩ := hres
        refine ⟨s', by rw [hr, hst, hfr, hc], ?_, ?_, ?_, ?_, ?_⟩
        · rw [hs']
          dsimp only
          rw [BufHashTbl_remove_snd, hht, (hfld _).1, (hfld _).2.1, hc]
        · rw [hs']
          dsimp only
          rw [hc, Function.update_same]
          rfl
        · intro i hi
          rw [hs']
          dsimp only
          rw [hc, Function.update_noteq hi]
          exact hd i
        · rw [hs']
          exact hpool
        · rw [hs']
          dsimp only
          rw [hdisk, hpool, (hfld _).2.1, hc]
          simp [evictDisk, hdirty, hfile]
      · rw [hdisk, hpool, (hfld _).2.1, hc] at hfail
        exact absurd (hW hdirty f hfile) hfail

end BufMgr

namespace BufMgr

variable {σ : Type} {N : Nat}

theorem insert_of_lookup_none (ht : List (HashEntry N)) (file : File) (pageNo : Int)
    (fr : Fin N) (h : BufHashTbl.lookup ht (some file) pageNo = none) :
    BufHashTbl.insert ht file pageNo fr = (Status.OK, ⟨file, pageNo, fr⟩ :: ht) := by
  unfold BufHashTbl.insert
  rw [BufHashTbl.lookup_eq_none_iff] at h
  rw [if_neg]
  intro hany
  rw [List.any_eq_true] at hany
  obtain ⟨e, he, hk⟩ := hany
  exact h e he ((hasKey_iff _ _ _).1 hk)

theorem lookup_eraseP_none (ht : List (HashEntry N)) (file : Option File) (pageNo : Int)
    (p : HashEntry N → Bool) (h : BufHashTbl.lookup ht file pageNo = none) :
    BufHashTbl.lookup (ht.eraseP p) file pageNo = none := by
  rw [BufHashTbl.lookup_eq_none_iff] at h ⊢
  intro e he
  exact h e (List.mem_of_mem_eraseP he)

/-- C3: in a well-formed pool whose frames are all valid and pinned, `readPage`
of a page that is not resident returns `BUFFEREXCEEDED` and changes nothing.
If a successful `unPinPage` then brings a frame `j` to pin count 0, and the
write-back of `j` (needed only if it is dirty) and the read of the requested
page succeed, the same `readPage` returns `OK`, the requested page occupies
exactly frame `j` with pin count 1, and every other frame keeps its page, its
pin count, its contents and its index entry. -/
theorem readPage_exceeded_then_retry (ops : FileOps σ) (s : BufMgr σ N) (hs : WF s)
    (hall : ∀ i, (s.bufTable i).valid = true ∧ (s.bufTable i).pinCnt > 0)
    (file : File) (PageNo : Int)
    (hmiss : BufHashTbl.lookup s.hashTable (some file) PageNo = none) :
    readPage ops s file PageNo = some (Status.BUFFEREXCEEDED, none, s) ∧
    ∀ (f' : File) (p' : Int) (dh : Bool) (s1 : BufMgr σ N) (j : Fin N),
      s.unPinPage f' p' dh = (Status.OK, s1) → (s1.bufTable j).pinCnt = 0 →
      ((s1.bufTable j).dirty = true → ∀ f, (s1.bufTable j).file = some f →
        (ops.writePage s1.disk f (s1.bufTable j).pageNo (s1.bufPool j)).1 = Status.OK) →
      (ops.readPage (evictDisk ops s1 j) file PageNo (s1.bufPool j)).1 = Status.OK →
      ∃ s2, readPage ops s1 file PageNo = some (Status.OK, some j, s2) ∧
        BufHashTbl.lookup s2.hashTable (some file) PageNo = some j ∧
        (s2.bufTable j).file = some file ∧ (s2.bufTable j).pageNo = PageNo ∧
        (s2.bufTable j).valid = true ∧ (s2.bufTable j).pinCnt = 1 ∧
        ∀ i, i ≠ j →
          (s2.bufTable i).file = (s.bufTable i).file ∧
          (s2.bufTable i).pageNo = (s.bufTable i).pageNo ∧
          (s2.bufTable i).pinCnt = (s.bufTable i).pinCnt ∧
          (s2.bufTable i).valid = (s.bufTable i).valid ∧
          (s2.bufTable i).dirty = (s.bufTable i).dirty ∧
          s2.bufPool i = s.bufPool i ∧
          ∀ e ∈ s.hashTable, e.frameNo = i → e ∈ s2.hashTable := by
  have hw := hs.toCore
  refine ⟨?_, ?_⟩
  · have hex : s.exceeded = true := by
      rw [exceeded_eq_true_iff]
      intro i
      have := (hall i).2
      omega
    unfold readPage
    simp only [hmiss, allocBuf, hex, if_true]
    simp
  · intro f' p' dh s1 j hu hj0 hW hR
    -- the frame that was unpinned is `j`, and nothing else changed
    have hw1 : WFcore s1 := by
      have := unPinPage_WFcore hw f' p' dh
      rw [hu] at this
      exact this
    have hshape : s1.hashTable = s.hashTable ∧ s1.bufPool = s.bufPool ∧
        (∀ i, (s1.bufTable i).valid = (s.bufTable i).valid) ∧
        (∀ i, i ≠ j → s1.bufTable i = s.bufTable i) ∧
        (s1.bufTable j).file = (s.bufTable j).file ∧
        (s1.bufTable j).pageNo = (s.bufTable j).pageNo := by
      unfold unPinPage at hu
      cases hl : BufHashTbl.lookup s.hashTable (some f') p' with
      | none => simp [hl] at hu
      | some j0 =>
        simp only [hl] at hu
        split at hu
        · simp at hu
        · simp only [Prod.mk.injEq, true_and] at hu
          have hjj : j = j0 := by
            by_contra hne
            rw [← hu] at hj0
            simp only [Function.update_noteq hne] at hj0
            have := (hall j).2
            omega
          subst hjj
          rw [← hu]
          refine ⟨rfl, rfl, ?_, ?_, ?_, ?_⟩
          · intro i
            by_cases hi : i = j
            · subst hi
              cases dh <;> simp
            · simp only [Function.update_noteq hi]
          · intro i hi
            simp only [Function.update_noteq hi]
          · cases dh <;> simp
          · cases dh <;> simp
    obtain ⟨hht, hpool, hval, hoth, hfj, hpj⟩ := hshape
    obtain ⟨s', ha, hht', hinv, hrest, hpool', hdisk'⟩ :=
      allocBuf_unique_victim ops s1 hw1 j hj0 (fun i => by rw [hval]; exact (hall i).1)
        (fun i hi => by
          rw [hoth i hi]
          have := (hall i).2
          omega) hW
    have hl' : BufHashTbl.lookup s'.hashTable (some file) PageNo = none := by
      rw [hht']
      apply lookup_eraseP_none
      rw [hht]
      exact hmiss
    have hl1 : BufHashTbl.lookup s1.hashTable (some file) PageNo = none := by
      rw [hht]; exact hmiss
    have hins := insert_of_lookup_none s'.hashTable file PageNo j hl'
    have hR' : (ops.readPage s'.disk file PageNo (s'.bufPool j)).1 = Status.OK := by
      rw [hdisk', hpool']; exact hR
    have hread : ∃ s2, readPage ops s1 file PageNo = some (Status.OK, some j, s2) ∧
        s2.hashTable = ⟨file, PageNo, j⟩ :: s'.hashTable ∧
        s2.bufTable = Function.update s'.bufTable j ((s'.bufTable j).Set file PageNo) ∧
        s2.bufPool = Function.update s'.bufPool j
          (ops.readPage s'.disk file PageNo (s'.bufPool j)).2.1 := by
      unfold readPage
      simp only [hl1, ha, ne_eq, not_true_eq_false, if_false, hR', hins]
      exact ⟨_, rfl, rfl, rfl, rfl⟩
    obtain ⟨s2, hrd, h2ht, h2tbl, h2pool⟩ := hread
    refine ⟨s2, hrd, ?_, ?_, ?_, ?_, ?_, ?_⟩
    · rw [h2ht]
      simp [BufHashTbl.lookup, HashEntry.hasKey]
    · rw [h2tbl]; simp [BufDesc.Set]
    · rw [h2tbl]; simp [BufDesc.Set]
    · rw [h2tbl]; simp [BufDesc.Set]
    · rw [h2tbl]; simp [BufDesc.Set]
    · intro i hi
      have hf := sameButRef_fields (hrest i hi)
      rw [hoth i hi] at hf
      rw [h2tbl, h2pool, h2ht]
      simp only [Function.update_noteq hi]
      refine ⟨hf.1, hf.2.1, hf.2.2.2.1, hf.2.2.2.2.2, hf.2.2.2.2.1, ?_, ?_⟩
      · rw [hpool', hpool]
      · intro e he hei
        apply List.mem_cons_of_mem
        rw [hht', hht]
        apply (List.mem_eraseP_of_neg _).2 he
        intro hk
        rw [hasKey_iff, hfj, hpj] at hk
        -- `e` and the entry of frame `j` would share their key
        obtain ⟨ej, hej, hejj⟩ := hw.2.2.1 j (hall j).1
        have q := hw.2.1 ej hej
        rw [hejj] at q
        have hkey : (fun e : HashEntry N => (e.file, e.pageNo)) e =
            (fun e : HashEntry N => (e.file, e.pageNo)) ej := by
          have : some e.file = some ej.file := by rw [hk.1, q.2.1]
          simp only [Prod.mk.injEq]
          exact ⟨Option.some.inj this, by rw [hk.2, q.2.2]⟩
        have := List.inj_on_of_nodup_map hw.1 he hej hkey
        apply hi
        rw [← hei, this, hejj]

end BufMgr

namespace BufMgr

/-- The scenario of C3 at the full pool `poolFull`: reading page 5 of file 7
fails with `BUFFEREXCEEDED`; after page 4 is unpinned the read succeeds and
page 5 sits in frame 1, pinned once. -/
theorem readPage_exceeded_then_retry_witness :
    readPage memOps poolFull 7 5 = some (Status.BUFFEREXCEEDED, none, poolFull) ∧
    ∃ s2, readPage memOps (poolFull.unPinPage 7 4 true).2 7 5 = some (Status.OK, some 1, s2) ∧
      (s2.bufTable 1).pinCnt = 1 := by
  have h := readPage_exceeded_then_retry memOps poolFull (by decide) (by decide) 7 5 (by decide)
  refine ⟨h.1, ?_⟩
  obtain ⟨s2, h1, -, -, -, -, h2, -⟩ :=
    h.2 7 4 true (poolFull.unPinPage 7 4 true).2 1 rfl (by decide) (fun _ _ _ => rfl) (by decide)
  exact ⟨s2, h1, h2⟩

end BufMgr

/-! ## `flushFile` and pinned pages -/

namespace BufMgr

variable {σ : Type} {N : Nat}

theorem flushFrame_pinned (ops : FileOps σ) (file : File) (s : BufMgr σ N) (i : Fin N)
    (h : fileFrame s file i) (hp : 0 < (s.bufTable i).pinCnt) :
    flushFrame ops file s i = (some Status.PAGEPINNED, s) := by
  unfold fileFrame at h
  unfold flushFrame
  dsimp only
  rw [if_pos h, if_pos hp]

theorem flushFrame_other (ops : FileOps σ) (file : File) (s : BufMgr σ N) (i : Fin N)
    (h : ¬ fileFrame s file i) :
    flushFrame ops file s i = (some Status.BADBUFFER, s) ∨ flushFrame ops file s i = (none, s) := by
  unfold fileFrame at h
  unfold flushFrame
  dsimp only
  rw [if_neg h]
  split
  · exact Or.inl rfl
  · exact Or.inr rfl

theorem flushFrame_unpinned (ops : FileOps σ) (file : File) (s : BufMgr σ N) (i : Fin N)
    (h : fileFrame s file i) (hp : (s.bufTable i).pinCnt = 0) :
    (∃ s1, flushFrame ops file s i =
        (some (ops.writePage s.disk file (s.bufTable i).pageNo (s.bufPool i)).1, s1)) ∨
    (∃ s1, flushFrame ops file s i = (none, s1) ∧
      s1.bufTable = Function.update s.bufTable i (flushed (s.bufTable i)) ∧
      s1.bufPool = s.bufPool ∧ s1.clockHand = s.clockHand ∧ s1.diskreads = s.diskreads ∧
      s1.hashTable = s.hashTable.eraseP (fun e => e.hasKey (some file) (s.bufTable i).pageNo)) := by
  unfold fileFrame at h
  unfold flushFrame
  dsimp only
  rw [if_pos h, if_neg (by omega)]
  split
  · rename_i hd
    split
    · exact Or.inl ⟨_, rfl⟩
    · refine Or.inr ⟨_, rfl, ?_, rfl, rfl, rfl, ?_⟩
      · simp only [flushDrop, Function.update_same, Function.update_idem, flushed]
      · simp only [flushDrop, Function.update_same]
        rw [BufHashTbl_remove_snd]
  · rename_i hd
    have hd0 : (s.bufTable i).dirty = false := by simpa using hd
    refine Or.inr ⟨_, rfl, ?_, rfl, rfl, rfl, ?_⟩
    · simp only [flushDrop, flushed]
      cases hb : s.bufTable i
      rw [hb] at hd0
      simp only at hd0
      simp [hd0]
    · simp only [flushDrop]
      rw [BufHashTbl_remove_snd]

theorem flushRel_nil (file : File) (s : BufMgr σ N) : flushRel file [] s s :=
  ⟨fun _ _ => rfl, fun _ _ => rfl, fun _ h => absurd h (by simp), rfl, rfl, rfl,
    fun _ h => h, fun _ h _ => h, fun _ => rfl⟩

/-- If the loop of `flushFile` over a duplicate-free list of frames ends with
`PAGEPINNED`, it stopped at the first pinned frame `k` of the file, and the
frames before `k` are related to the initial state by `flushRel`. -/
theorem flushLoop_pinned (ops : FileOps σ)
    (hstore : ∀ d f p pg, (ops.writePage d f p pg).1 ≠ Status.PAGEPINNED) (file : File) :
    ∀ (l : List (Fin N)) (s : BufMgr σ N), l.Nodup →
      (flushLoop ops file l s).1 = Status.PAGEPINNED →
      ∃ pre k post, l = pre ++ k :: post ∧ fileFrame s file k ∧ 0 < (s.bufTable k).pinCnt ∧
        (∀ i, i ∈ pre → ¬ (fileFrame s file i ∧ 0 < (s.bufTable i).pinCnt)) ∧
        flushRel file pre s (flushLoop ops file l s).2 := by
  intro l
  induction l with
  | nil =>
    intro s _ h
    simp [flushLoop] at h
  | cons i rest ih =>
    intro s hnd h
    rw [List.nodup_cons] at hnd
    by_cases hff : fileFrame s file i
    · by_cases hp : 0 < (s.bufTable i).pinCnt
      · refine ⟨[], i, rest, rfl, hff, hp, fun _ h => absurd h (by simp), ?_⟩
        rw [flushLoop, flushFrame_pinned ops file s i hff hp]
        exact flushRel_nil file s
      · have hp0 : (s.bufTable i).pinCnt = 0 := by omega
        rcases flushFrame_unpinned ops file s i hff hp0 with ⟨s1, hs1⟩ | ⟨s1, hs1, htbl, hpool, hhand, hreads, hht⟩
        · rw [flushLoop, hs1] at h
          exact absurd h (hstore _ _ _ _)
        · rw [flushLoop, hs1] at h ⊢
          simp only at h ⊢
          obtain ⟨pre, k, post, hl, hk, hkp, hpre, hrel⟩ := ih s1 hnd.2 h
          have hsub : ∀ x, x ∈ pre → x ∈ rest := by
            intro x hx
            rw [hl]
            exact List.mem_append_left _ hx
          have hkrest : k ∈ rest := by
            rw [hl]
            exact List.mem_append_right _ (List.mem_cons_self _ _)
          have hsame : ∀ x, x ≠ i → s1.bufTable x = s.bufTable x := by
            intro x hx
            rw [htbl, Function.update_noteq hx]
          have hne : ∀ x, x ∈ rest → x ≠ i := by
            intro x hx hxi
            rw [hxi] at hx
            exact hnd.1 hx
          have hffs : ∀ x, x ≠ i → (fileFrame s1 file x ↔ fileFrame s file x) := by
            intro x hx
            unfold fileFrame
            rw [hsame x hx]
          have hipre : i ∉ pre := fun hi => hnd.1 (hsub i hi)
          obtain ⟨r1, r2, r3, r4, r5, r6, r7, r8, -⟩ := hrel
          refine ⟨i :: pre, k, post, by rw [hl]; rfl, ?_, ?_, ?_, ?_⟩
          · exact (hffs k (hne k hkrest)).1 hk
          · rw [← hsame k (hne k hkrest)]
            exact hkp
          · intro x hx
            rcases List.mem_cons.1 hx with hx | hx
            · rw [hx]
              exact fun hh => hp hh.2
            · have hxi := hne x (hsub x hx)
              rw [← hsame x hxi, ← hffs x hxi]
              exact hpre x hx
          · refine ⟨?_, ?_, ?_, r4.trans hpool, r5.trans hhand, r6.trans hreads, ?_, ?_, ?_⟩
            · intro x hx
              have hxi : x ≠ i := fun hxi => hx (by rw [hxi]; exact List.mem_cons_self _ _)
              have hxp : x ∉ pre := fun hxp => hx (List.mem_cons_of_mem _ hxp)
              rw [r1 x hxp, hsame x hxi]
            · intro x hx
              have hxi : x ≠ i := fun hxi => hx (by rw [hxi]; exact hff)
              rw [r2 x (fun hh => hx ((hffs x hxi).1 hh)), hsame x hxi]
            · intro x hx hxf
              rcases List.mem_cons.1 hx with hx | hx
              · rw [hx, r1 i hipre, htbl, Function.update_same]
                exact ⟨hp0, rfl⟩
              · have hxi := hne x (hsub x hx)
                have := r3 x hx ((hffs x hxi).2 hxf)
                rw [hsame x hxi] at this
                exact this
            · intro e he
              have := r7 e he
              rw [hht] at this
              exact List.mem_of_mem_eraseP this
            · intro e he hef
              apply r8 e _ hef
              rw [hht]
              apply (List.mem_eraseP_of_neg _).2 he
              intro hk
              rw [hasKey_iff] at hk
              exact hef (Option.some.inj hk.1)
            · intro hall
              exact absurd hff (hall i (List.mem_cons_self _ _))
    · rcases flushFrame_other ops file s i hff with hs1 | hs1
      · rw [flushLoop, hs1] at h
        simp at h
      · rw [flushLoop, hs1] at h ⊢
        simp only at h ⊢
        obtain ⟨pre, k, post, hl, hk, hkp, hpre, hrel⟩ := ih s hnd.2 h
        obtain ⟨r1, r2, r3, r4, r5, r6, r7, r8, r9⟩ := hrel
        refine ⟨i :: pre, k, post, by rw [hl]; rfl, hk, hkp, ?_, ?_⟩
        · intro x hx
          rcases List.mem_cons.1 hx with hx | hx
          · rw [hx]
            exact fun hh => hff hh.1
          · exact hpre x hx
        · refine ⟨?_, r2, ?_, r4, r5, r6, r7, r8, ?_⟩
          · intro x hx
            exact r1 x (fun hxp => hx (List.mem_cons_of_mem _ hxp))
          · intro x hx hxf
            rcases List.mem_cons.1 hx with hx | hx
            · rw [hx] at hxf
              exact absurd hxf hff
            · exact r3 x hx hxf
          · intro hall
            exact r9 (fun x hx => hall x (List.mem_cons_of_mem _ hx))

end BufMgr

namespace BufMgr

variable {σ : Type} {N : Nat}

theorem finRange_split_lt {pre post : List (Fin N)} {k : Fin N}
    (h : List.finRange N = pre ++ k :: post) (i : Fin N) : i ∈ pre ↔ i < k := by
  have hp := List.pairwise_lt_finRange N
  rw [h, List.pairwise_append] at hp
  obtain ⟨-, hkp, hcross⟩ := hp
  rw [List.pairwise_cons] at hkp
  constructor
  · intro hi
    exact hcross i hi k (List.mem_cons_self _ _)
  · intro hi
    have hm : i ∈ pre ++ k :: post := by
      rw [← h]
      exact List.mem_finRange i
    rcases List.mem_append.1 hm with hm | hm
    · exact hm
    · rcases List.mem_cons.1 hm with hm | hm
      · rw [hm] at hi
        exact absurd hi (lt_irrefl _)
      · exact absurd (hkp.1 i hm) (not_lt_of_gt hi)

theorem flushFrame_store (ops : FileOps σ) (file : File) (s : BufMgr σ N) (i : Fin N)
    (h : fileFrame s file i) (hp : (s.bufTable i).pinCnt = 0) (s1 : BufMgr σ N)
    (h1 : flushFrame ops file s i = (none, s1)) :
    s1.calls = s.calls ++
      (if (s.bufTable i).dirty = true then
        [StoreCall.write file (s.bufTable i).pageNo (s.bufPool i)] else []) ∧
    s1.disk = (if (s.bufTable i).dirty = true then
      (ops.writePage s.disk file (s.bufTable i).pageNo (s.bufPool i)).2 else s.disk) := by
  unfold fileFrame at h
  unfold flushFrame at h1
  dsimp only at h1
  rw [if_pos h, if_neg (by omega)] at h1
  by_cases hd : (s.bufTable i).dirty = true
  · rw [if_pos hd] at h1
    rw [if_pos hd, if_pos hd]
    split at h1
    · exact absurd (Prod.mk.inj h1).1 (by simp)
    · have e := (Prod.mk.inj h1).2
      subst e
      exact ⟨rfl, rfl⟩
  · rw [if_neg hd] at h1
    rw [if_neg hd, if_neg hd]
    have e := (Prod.mk.inj h1).2
    subst e
    exact ⟨(List.append_nil _).symm, rfl⟩

theorem mem_fileFrames (s : BufMgr σ N) (file : File) (l : List (Fin N)) (x : Fin N) :
    x ∈ fileFrames s file l ↔ x ∈ l ∧ fileFrame s file x := by
  unfold fileFrames fileFrame
  rw [List.mem_filter, decide_eq_true_iff]

theorem mem_framesBefore (k i : Fin N) : i ∈ framesBefore k ↔ i < k := by
  unfold framesBefore
  rw [List.mem_filter, decide_eq_true_iff]
  exact ⟨fun h => h.2, fun h => ⟨List.mem_finRange i, h⟩⟩

theorem fileFrames_cons_pos (s : BufMgr σ N) (file : File) (i : Fin N) (l : List (Fin N))
    (h : fileFrame s file i) : fileFrames s file (i :: l) = i :: fileFrames s file l := by
  unfold fileFrame at h
  unfold fileFrames
  exact List.filter_cons_of_pos (decide_eq_true h)

theorem fileFrames_cons_neg (s : BufMgr σ N) (file : File) (i : Fin N) (l : List (Fin N))
    (h : ¬ fileFrame s file i) : fileFrames s file (i :: l) = fileFrames s file l := by
  unfold fileFrame at h
  unfold fileFrames
  exact List.filter_cons_of_neg (fun hd => h (of_decide_eq_true hd))

theorem fileFrames_congr (s s1 : BufMgr σ N) (file : File) (l : List (Fin N))
    (h : ∀ x ∈ l, s1.bufTable x = s.bufTable x) : fileFrames s1 file l = fileFrames s file l := by
  unfold fileFrames
  apply List.filter_congr
  intro x hx
  rw [h x hx]

/-- The effect of a flush of the frames in `l` depends only on the
descriptors and the contents of these frames. -/
theorem flushEffect_congr (ops : FileOps σ) (s s1 : BufMgr σ N) (file : File)
    (l : List (Fin N)) (h : ∀ x ∈ l, s1.bufTable x = s.bufTable x)
    (hp : s1.bufPool = s.bufPool) :
    flushWrites s1 file l = flushWrites s file l ∧
    (∀ d, flushDisk ops s1 file l d = flushDisk ops s file l d) ∧
    ∀ ht, flushIndex s1 file l ht = flushIndex s file l ht := by
  have hm : ∀ x ∈ fileFrames s file l, s1.bufTable x = s.bufTable x :=
    fun x hx => h x ((mem_fileFrames s file l x).1 hx).1
  have hf : (fileFrames s file l).filter (fun i => (s1.bufTable i).dirty) =
      (fileFrames s file l).filter (fun i => (s.bufTable i).dirty) :=
    List.filter_congr (fun x hx => by rw [hm x hx])
  refine ⟨?_, ?_, ?_⟩
  · unfold flushWrites
    rw [fileFrames_congr s s1 file l h, hf]
    apply List.map_congr_left
    intro x hx
    rw [hm x (List.mem_of_mem_filter hx), hp]
  · intro d
    unfold flushDisk
    rw [fileFrames_congr s s1 file l h, hf]
    apply List.foldl_ext
    intro a x hx
    rw [hm x (List.mem_of_mem_filter hx), hp]
  · intro ht
    unfold flushIndex
    rw [fileFrames_congr s s1 file l h]
    apply List.foldl_ext
    intro a x hx
    rw [hm x hx]

theorem flushEffect_nil (ops : FileOps σ) (file : File) (s : BufMgr σ N) :
    flushEffect ops file [] s s :=
  ⟨(List.append_nil _).symm, rfl, rfl⟩

theorem flushEffect_cons_neg (ops : FileOps σ) (file : File) (i : Fin N) (pre : List (Fin N))
    (s t : BufMgr σ N) (hff : ¬ fileFrame s file i) (he : flushEffect ops file pre s t) :
    flushEffect ops file (i :: pre) s t := by
  unfold flushEffect flushWrites flushDisk flushIndex at he ⊢
  rw [fileFrames_cons_neg s file i pre hff]
  exact he

theorem flushEffect_cons_pos (ops : FileOps σ) (file : File) (i : Fin N) (pre : List (Fin N))
    (s s1 t : BufMgr σ N) (hff : fileFrame s file i) (hni : i ∉ pre)
    (htbl : s1.bufTable = Function.update s.bufTable i (flushed (s.bufTable i)))
    (hpool : s1.bufPool = s.bufPool)
    (hht : s1.hashTable =
      s.hashTable.eraseP (fun e => e.hasKey (some file) (s.bufTable i).pageNo))
    (hcalls : s1.calls = s.calls ++
      (if (s.bufTable i).dirty = true then
        [StoreCall.write file (s.bufTable i).pageNo (s.bufPool i)] else []))
    (hdisk : s1.disk = (if (s.bufTable i).dirty = true then
      (ops.writePage s.disk file (s.bufTable i).pageNo (s.bufPool i)).2 else s.disk))
    (he : flushEffect ops file pre s1 t) : flushEffect ops file (i :: pre) s t := by
  have hsame : ∀ x ∈ pre, s1.bufTable x = s.bufTable x := by
    intro x hx
    have hxi : x ≠ i := fun e => hni (by rw [← e]; exact hx)
    rw [htbl, Function.update_noteq hxi]
  have hfpos : (s.bufTable i).dirty = true →
      (i :: fileFrames s file pre).filter (fun i => (s.bufTable i).dirty) =
        i :: (fileFrames s file pre).filter (fun i => (s.bufTable i).dirty) :=
    fun hd => List.filter_cons_of_pos hd
  have hfneg : ¬ (s.bufTable i).dirty = true →
      (i :: fileFrames s file pre).filter (fun i => (s.bufTable i).dirty) =
        (fileFrames s file pre).filter (fun i => (s.bufTable i).dirty) :=
    fun hd => List.filter_cons_of_neg hd
  obtain ⟨c1, c2, c3⟩ := flushEffect_congr ops s s1 file pre hsame hpool
  obtain ⟨e1, e2, e3⟩ := he
  rw [c1, hcalls] at e1
  rw [c2, hdisk] at e2
  rw [c3, hht] at e3
  refine ⟨?_, ?_, ?_⟩
  · rw [e1]
    unfold flushWrites
    rw [fileFrames_cons_pos s file i pre hff]
    by_cases hd : (s.bufTable i).dirty = true
    · rw [if_pos hd, hfpos hd, List.map_cons, List.append_assoc]
      rfl
    · rw [if_neg hd, hfneg hd, List.append_nil]
  · rw [e2]
    unfold flushDisk
    rw [fileFrames_cons_pos s file i pre hff]
    by_cases hd : (s.bufTable i).dirty = true
    · rw [if_pos hd, hfpos hd, List.foldl_cons]
    · rw [if_neg hd, hfneg hd]
  · rw [e3]
    unfold flushIndex
    rw [fileFrames_cons_pos s file i pre hff, List.foldl_cons]

/-- When the loop of `flushFile` over `pre ++ k :: post` ends with `PAGEPINNED`
at frame `k`, the calls made on the store, the store and the index are those of
a flush of the frames of the file in `pre`. -/
theorem flushLoop_effect (ops : FileOps σ)
    (hstore : ∀ d f p pg, (ops.writePage d f p pg).1 ≠ Status.PAGEPINNED) (file : File)
    (k : Fin N) (post : List (Fin N)) :
    ∀ (pre : List (Fin N)) (s : BufMgr σ N), (pre ++ k :: post).Nodup →
      fileFrame s file k → 0 < (s.bufTable k).pinCnt →
      (∀ i, i ∈ pre → ¬ (fileFrame s file i ∧ 0 < (s.bufTable i).pinCnt)) →
      (flushLoop ops file (pre ++ k :: post) s).1 = Status.PAGEPINNED →
      flushEffect ops file pre s (flushLoop ops file (pre ++ k :: post) s).2 := by
  intro pre
  induction pre with
  | nil =>
    intro s _ hk hkp _ _
    rw [List.nil_append, flushLoop, flushFrame_pinned ops file s k hk hkp]
    exact flushEffect_nil ops file s
  | cons i pre ih =>
    intro s hnd hk hkp hpre h
    rw [List.cons_append] at hnd h ⊢
    rw [List.nodup_cons] at hnd
    have hik : k ≠ i := by
      intro e
      apply hnd.1
      rw [← e]
      exact List.mem_append_right _ (List.mem_cons_self _ _)
    have hipre : i ∉ pre := fun hi => hnd.1 (List.mem_append_left _ hi)
    by_cases hff : fileFrame s file i
    · have hp0 : (s.bufTable i).pinCnt = 0 := by
        have := hpre i (List.mem_cons_self _ _)
        by_contra hne
        exact this ⟨hff, Nat.pos_of_ne_zero hne⟩
      rcases flushFrame_unpinned ops file s i hff hp0 with
        ⟨s1, hs1⟩ | ⟨s1, hs1, htbl, hpool, -, -, hht⟩
      · rw [flushLoop, hs1] at h
        exact absurd h (hstore _ _ _ _)
      · obtain ⟨hcalls, hdisk⟩ := flushFrame_store ops file s i hff hp0 s1 hs1
        rw [flushLoop, hs1] at h ⊢
        simp only at h ⊢
        have hsame : ∀ x, x ≠ i → s1.bufTable x = s.bufTable x := by
          intro x hx
          rw [htbl, Function.update_noteq hx]
        have hffs : ∀ x, x ≠ i → (fileFrame s1 file x ↔ fileFrame s file x) := by
          intro x hx
          unfold fileFrame
          rw [hsame x hx]
        refine flushEffect_cons_pos ops file i pre s s1 _ hff hipre htbl hpool hht hcalls hdisk
          (ih s1 hnd.2 ((hffs k hik).2 hk) (by rw [hsame k hik]; exact hkp) ?_ h)
        intro x hx
        have hxi : x ≠ i := fun e => hipre (by rw [← e]; exact hx)
        rw [hsame x hxi, hffs x hxi]
        exact hpre x (List.mem_cons_of_mem _ hx)
    · rcases flushFrame_other ops file s i hff with hs1 | hs1
      · rw [flushLoop, hs1] at h
        simp at h
      · rw [flushLoop, hs1] at h ⊢
        simp only at h ⊢
        exact flushEffect_cons_neg ops file i pre s _ hff
          (ih s hnd.2 hk hkp (fun x hx => hpre x (List.mem_cons_of_mem _ hx)) h)

theorem framesBefore_eq {pre post : List (Fin N)} {k : Fin N}
    (h : List.finRange N = pre ++ k :: post) : framesBefore k = pre := by
  have hlt := finRange_split_lt h
  have hnd := List.nodup_finRange N
  rw [h] at hnd
  have h1 : pre.filter (fun i => decide (i < k)) = pre :=
    List.filter_eq_self.2 (fun a ha => decide_eq_true ((hlt a).1 ha))
  have h2 : (k :: post).filter (fun i => decide (i < k)) = [] :=
    List.filter_eq_nil_iff.2 (fun a ha hd =>
      (List.nodup_append.1 hnd).2.2 ((hlt a).2 (of_decide_eq_true hd)) ha)
  unfold framesBefore
  rw [h, List.filter_append, h1, h2, List.append_nil]

theorem foldl_eraseP_subset (file : File) (key : Fin N → Int) :
    ∀ (l : List (Fin N)) (ht : List (HashEntry N)),
      ∀ e ∈ l.foldl (fun h i => h.eraseP (fun e => e.hasKey (some file) (key i))) ht,
        e ∈ ht := by
  intro l
  induction l with
  | nil => intro ht e he; exact he
  | cons j l ih =>
    intro ht e he
    rw [List.foldl_cons] at he
    exact List.mem_of_mem_eraseP (ih _ e he)

/-- In an index without two entries under one key, the removals leave no
entry under a removed key. -/
theorem foldl_eraseP_removed (file : File) (key : Fin N → Int) :
    ∀ (l : List (Fin N)) (ht : List (HashEntry N)),
      (ht.map (fun e => (e.file, e.pageNo))).Nodup →
      ∀ i ∈ l, ∀ e ∈ l.foldl (fun h i => h.eraseP (fun e => e.hasKey (some file) (key i))) ht,
        e.hasKey (some file) (key i) = false := by
  intro l
  induction l with
  | nil => intro ht _ i hi; exact absurd hi (by simp)
  | cons j l ih =>
    intro ht hnd i hi e he
    rw [List.foldl_cons] at he
    have hnd1 : ((ht.eraseP (fun e => e.hasKey (some file) (key j))).map
        (fun e => (e.file, e.pageNo))).Nodup :=
      List.Nodup.sublist ((List.eraseP_sublist ht).map _) hnd
    rcases List.mem_cons.1 hi with hi | hi
    · rw [hi]
      exact not_hasKey_of_mem_eraseP (some file) (key j) ht hnd e
        (foldl_eraseP_subset file key l _ e he)
    · exact ih _ hnd1 i hi e he

/-- The removals keep every entry that is under none of the removed keys. -/
theorem foldl_eraseP_kept (file : File) (key : Fin N → Int) :
    ∀ (l : List (Fin N)) (ht : List (HashEntry N)) (e : HashEntry N), e ∈ ht →
      (∀ i ∈ l, e.hasKey (some file) (key i) = false) →
      e ∈ l.foldl (fun h i => h.eraseP (fun e => e.hasKey (some file) (key i))) ht := by
  intro l
  induction l with
  | nil => intro ht e he _; exact he
  | cons j l ih =>
    intro ht e he hk
    rw [List.foldl_cons]
    apply ih _ e _ (fun i hi => hk i (List.mem_cons_of_mem _ hi))
    apply (List.mem_eraseP_of_neg _).2 he
    rw [hk j (List.mem_cons_self _ _)]
    simp

/-- C4, as the code has it: if `flushFile(file)` returns `PAGEPINNED` (and the
store's `writePage` never returns that status itself), the loop stopped at the
first valid frame `k` of the file with `pinCnt > 0`.  Frames from `k` on, and
all frames that hold no valid page of the file, keep their descriptors; frame
contents and the clock hand are unchanged; index entries of other files are
kept and no entry is added.  Every valid frame of the file before `k` was
unpinned and has been flushed: its descriptor is invalid and clean with no
file; the calls on the store are those made before followed by one `writePage`
for each such frame that was dirty, in frame order, with the page number and
the contents of the frame, and the store is what these writes leave; the
index is the old one with the entry of each such frame taken out.  In a
well-formed pool no entry is left under the key of a flushed frame, none
points to a flushed frame, and the entry of every other frame is kept.  The
state as a whole is unchanged when no valid frame of the file precedes `k`. -/
theorem flushFile_pagePinned (ops : FileOps σ)
    (hstore : ∀ d f p pg, (ops.writePage d f p pg).1 ≠ Status.PAGEPINNED)
    (s : BufMgr σ N) (file : File) (h : (flushFile ops s file).1 = Status.PAGEPINNED) :
    ∃ k, fileFrame s file k ∧ 0 < (s.bufTable k).pinCnt ∧
      (∀ i, i < k → ¬ (fileFrame s file i ∧ 0 < (s.bufTable i).pinCnt)) ∧
      (∀ i, k ≤ i → (flushFile ops s file).2.bufTable i = s.bufTable i) ∧
      (∀ i, ¬ fileFrame s file i → (flushFile ops s file).2.bufTable i = s.bufTable i) ∧
      (∀ i, i < k → fileFrame s file i →
        (s.bufTable i).pinCnt = 0 ∧
        (flushFile ops s file).2.bufTable i = flushed (s.bufTable i)) ∧
      (flushFile ops s file).2.bufPool = s.bufPool ∧
      (flushFile ops s file).2.clockHand = s.clockHand ∧
      (∀ e ∈ (flushFile ops s file).2.hashTable, e ∈ s.hashTable) ∧
      (∀ e ∈ s.hashTable, e.file ≠ file → e ∈ (flushFile ops s file).2.hashTable) ∧
      ((∀ i, i < k → ¬ fileFrame s file i) → (flushFile ops s file).2 = s) ∧
      (flushFile ops s file).2.calls = s.calls ++ flushWrites s file (framesBefore k) ∧
      (flushFile ops s file).2.disk = flushDisk ops s file (framesBefore k) s.disk ∧
      (flushFile ops s file).2.hashTable = flushIndex s file (framesBefore k) s.hashTable ∧
      (WF s →
        (∀ i, i < k → fileFrame s file i →
          BufHashTbl.lookup (flushFile ops s file).2.hashTable (some file)
            (s.bufTable i).pageNo = none ∧
          ∀ e ∈ (flushFile ops s file).2.hashTable, e.frameNo ≠ i) ∧
        ∀ e ∈ s.hashTable, ¬ (e.frameNo < k ∧ fileFrame s file e.frameNo) →
          e ∈ (flushFile ops s file).2.hashTable) := by
  unfold flushFile at h ⊢
  obtain ⟨pre, k, post, hl, hk, hkp, hpre, r1, r2, r3, r4, r5, -, r7, r8, r9⟩ :=
    flushLoop_pinned ops hstore file (List.finRange N) s (List.nodup_finRange N) h
  have hlt := finRange_split_lt hl
  have hfb : framesBefore k = pre := framesBefore_eq hl
  have heff : flushEffect ops file pre s (flushLoop ops file (List.finRange N) s).2 := by
    have hnd := List.nodup_finRange N
    rw [hl] at hnd h ⊢
    exact flushLoop_effect ops hstore file k post pre s hnd hk hkp hpre h
  obtain ⟨x1, x2, x3⟩ := heff
  rw [← hfb] at x1 x2 x3
  refine ⟨k, hk, hkp, ?_, ?_, r2, ?_, r4, r5, r7, r8, ?_, x1, x2, x3, ?_⟩
  · intro i hi
    exact hpre i ((hlt i).2 hi)
  · intro i hi
    exact r1 i (fun hp => absurd ((hlt i).1 hp) (not_lt_of_ge hi))
  · intro i hi hf
    exact r3 i ((hlt i).2 hi) hf
  · intro hall
    exact r9 (fun i hi => hall i ((hlt i).1 hi))
  · intro hw
    have hc := hw.toCore
    have hno : ∀ i, i < k → fileFrame s file i →
        ∀ e ∈ (flushLoop ops file (List.finRange N) s).2.hashTable,
          e.hasKey (some file) (s.bufTable i).pageNo = false := by
      intro i hi hf e he
      rw [x3] at he
      exact foldl_eraseP_removed file (fun i => (s.bufTable i).pageNo) _ s.hashTable hc.1 i
        ((mem_fileFrames s file _ i).2 ⟨(mem_framesBefore k i).2 hi, hf⟩) e he
    refine ⟨fun i hi hf => ⟨?_, ?_⟩, ?_⟩
    · rw [BufHashTbl.lookup_eq_none_iff]
      intro e he hkey
      have h1 := hno i hi hf e he
      rw [(hasKey_iff e (some file) (s.bufTable i).pageNo).2 hkey] at h1
      exact absurd h1 (by simp)
    · intro e he hfi
      have hes := hc.2.1 e (r7 e he)
      rw [hfi] at hes
      have hfile : some e.file = some file := by rw [← hes.2.1, hf.2]
      have h1 := hno i hi hf e he
      rw [(hasKey_iff e (some file) (s.bufTable i).pageNo).2 ⟨hfile, hes.2.2.symm⟩] at h1
      exact absurd h1 (by simp)
    · intro e he hnot
      rw [x3]
      apply foldl_eraseP_kept file (fun i => (s.bufTable i).pageNo) _ s.hashTable e he
      intro i hi
      obtain ⟨hib, hif⟩ := (mem_fileFrames s file _ i).1 hi
      have hik := (mem_framesBefore k i).1 hib
      cases hkey : e.hasKey (some file) (s.bufTable i).pageNo with
      | false => rfl
      | true =>
        exfalso
        obtain ⟨hfile, hpage⟩ := (hasKey_iff e (some file) (s.bufTable i).pageNo).1 hkey
        have hes := hc.2.1 e he
        have hei : e.frameNo = i :=
          hw.2.2.1 e.frameNo i hes.1 hif.1 (by rw [hes.2.1, hif.2, hfile])
            (by rw [hes.2.2, hpage])
        exact hnot ⟨by rw [hei]; exact hik, by rw [hei]; exact hif⟩

/-- C4 as stated fails: on the well-formed pool `pool2b` the call
`flushFile(7)` returns `PAGEPINNED` for the pinned page in frame 1, yet frame 0
has been written back, invalidated and removed from the index. -/
theorem flushFile_pagePinned_changes_state :
    WF pool2b ∧
    (flushFile memOps pool2b 7).1 = Status.PAGEPINNED ∧
    (pool2b.bufTable 0).valid = true ∧
    ((flushFile memOps pool2b 7).2.bufTable 0).valid = false ∧
    pool2b.hashTable = [⟨7, 4, 0⟩, ⟨7, 3, 1⟩] ∧
    (flushFile memOps pool2b 7).2.hashTable = [⟨7, 3, 1⟩] ∧
    pool2b.calls = [] ∧
    (flushFile memOps pool2b 7).2.calls = [StoreCall.write 7 4 Page.zero] := by
  decide


/-- The amended C4 at `pool2b`, where an unpinned dirty page of file 7 (page
4, frame 0) comes before the pinned one (page 3, frame 1): the call returns
`PAGEPINNED`, the loop stopped at frame 1, which keeps its descriptor and its
index entry; frame 0 has been written back (the one call on the store),
invalidated and taken out of the index. -/
theorem flushFile_pagePinned_witness :
    WF pool2b ∧ (flushFile memOps pool2b 7).1 = Status.PAGEPINNED ∧
    (flushFile memOps pool2b 7).2.bufTable 1 = pool2b.bufTable 1 ∧
    (flushFile memOps pool2b 7).2.bufTable 0 = flushed (pool2b.bufTable 0) ∧
    (flushFile memOps pool2b 7).2.calls = [StoreCall.write 7 4 Page.zero] ∧
    (flushFile memOps pool2b 7).2.disk = ⟨[("t", 7)], [((7, 4), Page.zero)]⟩ ∧
    (flushFile memOps pool2b 7).2.hashTable = [⟨7, 3, 1⟩] ∧
    BufHashTbl.lookup (flushFile memOps pool2b 7).2.hashTable (some 7) 4 = none := by
  have hW : WF pool2b := by decide
  have hP : (flushFile memOps pool2b 7).1 = Status.PAGEPINNED := by decide
  obtain ⟨k, -, hk, -, hfrom, -, hbefore, -, -, -, -, -, hcalls, hdisk, hindex, hwf⟩ :=
    flushFile_pagePinned memOps (fun _ _ _ _ h => Status.noConfusion h) pool2b 7 hP
  have hall : ∀ k : Fin 2, 0 < (pool2b.bufTable k).pinCnt → k = 1 := by decide
  have hk1 : k = 1 := hall k hk
  subst hk1
  have h0 : fileFrame pool2b 7 0 := ⟨rfl, rfl⟩
  refine ⟨hW, hP, hfrom 1 (le_refl _), (hbefore 0 (by decide) h0).2, ?_, ?_, ?_, ?_⟩
  · rw [hcalls]
    decide
  · rw [hdisk]
    decide
  · rw [hindex]
    decide
  · exact ((hwf hW).1 0 (by decide) h0).1

end BufMgr

/-! ## `matchRec` -/

theorem wrap32_of_range (z : Int) (h1 : -2147483648 ≤ z) (h2 : z < 2147483648) : wrap32 z = z := by
  unfold wrap32
  omega

theorem floatShift_small (fuel n : Nat) (h : n < 16777216) : floatShift fuel n = 0 := by
  cases fuel with
  | zero => rfl
  | succ k => simp [floatShift, h]

theorem floatOfNat_small (n : Nat) (h : n < 16777216) : floatOfNat n = n := by
  unfold floatOfNat
  simp [floatShift_small 8 n h, Nat.mod_one]

theorem floatOfInt_small (z : Int) (h1 : -16777216 < z) (h2 : z < 16777216) : floatOfInt z = z := by
  unfold floatOfInt
  have hn : z.natAbs < 16777216 := by omega
  rw [floatOfNat_small _ hn]
  split <;> omega

/-- C9 fails on the code at `a = 2147483647`, `v = -1`: the `int` subtraction
`iattr - ifltr` wraps to `-2147483648`, so `matchRec` answers `a > v` with
false and `a < v` with true, although `a > v`. -/
theorem matchRec_integer_overflow :
    (intScan 1 Operator.GT (-1)).matchRec noFloat (intRecord 2147483647) = some false ∧
    (intScan 1 Operator.LT (-1)).matchRec noFloat (intRecord 2147483647) = some true ∧
    readInt32 (intRecord 2147483647).data 0 4 = some 2147483647 ∧
    readInt32 (bytesOfInt32 (-1)) 0 4 = some (-1) ∧
    wrap32 (2147483647 - (-1)) = -2147483648 ∧
    floatOfInt (-2147483648) = -2147483648 ∧
    ((-1 : Int) < 2147483647) := by
  decide

/-- C10 fails on the code for bytes after a zero byte: with the three record
bytes `97, 0, 98` and the filter bytes `97, 0, 99`, `matchRec` answers `EQ`
with true and `LT` with false, although the third bytes differ and the record
bytes are lexicographically smaller. -/
theorem matchRec_string_stops_at_zero :
    (strScan 1 Operator.EQ 3 [97, 0, 99]).matchRec noFloat ⟨[97, 0, 98], 3⟩ = some true ∧
    (strScan 1 Operator.LT 3 [97, 0, 99]).matchRec noFloat ⟨[97, 0, 98], 3⟩ = some false ∧
    ([97, 0, 98] : List Byte) ≠ [97, 0, 99] ∧
    lexCmp [97, 0, 98] [97, 0, 99] = -1 := by
  decide

theorem classify_neg {d : Int} (h : d < 0) : classify d = DiffClass.neg := by
  simp [classify, h]

theorem classify_pos {d : Int} (h : 0 < d) : classify d = DiffClass.pos := by
  unfold classify
  rw [if_neg (by omega), if_neg (by omega)]

theorem cstr_cons (x : Byte) (xs : List Byte) :
    cstr (x :: xs) = if x.val ≠ 0 then x :: cstr xs else [] := by
  unfold cstr
  by_cases h : x.val = 0 <;> simp [List.takeWhile_cons, h]

/-- `strncmp` is the three-way lexicographic comparison of the two strings cut
at their first zero byte, when both buffers hold at least `n` bytes. -/
theorem strncmp_lexCmp :
    ∀ (n : Nat) (a b : List Byte), n ≤ a.length → n ≤ b.length →
      ∃ d, strncmp a b n = some d ∧ -256 < d ∧ d < 256 ∧
        classify d = classify (lexCmp (cstr (a.take n)) (cstr (b.take n))) := by
  intro n
  induction n with
  | zero =>
    intro a b _ _
    refine ⟨0, ?_, by omega, by omega, ?_⟩
    · cases a <;> cases b <;> rfl
    · simp [cstr, lexCmp]
  | succ n ih =>
    intro a b ha hb
    cases a with
    | nil => simp at ha
    | cons x xs =>
      cases b with
      | nil => simp at hb
      | cons y ys =>
        simp only [List.length_cons, Nat.add_le_add_iff_right] at ha hb
        have hx := x.isLt
        have hy := y.isLt
        simp only [List.take_succ_cons, cstr_cons]
        rw [strncmp]
        by_cases hxy : x = y
        · subst hxy
          simp only [ne_eq, not_true_eq_false, if_false]
          by_cases hx0 : x.val = 0
          · refine ⟨0, by simp [hx0], by omega, by omega, ?_⟩
            simp [hx0, lexCmp]
          · obtain ⟨d, hd, h1, h2, hc⟩ := ih xs ys ha hb
            refine ⟨d, by simp [hx0, hd], h1, h2, ?_⟩
            simp only [hx0, not_false_eq_true, if_true, lexCmp, lt_self_iff_false, if_false]
            exact hc
        · have hval : x.val ≠ y.val := fun h => hxy (Fin.ext h)
          refine ⟨(x.val : Int) - (y.val : Int), by simp [hxy], by omega, by omega, ?_⟩
          by_cases hx0 : x.val = 0
          · have hy0 : y.val ≠ 0 := by omega
            simp only [hx0, hy0, ne_eq, not_true_eq_false, if_false, not_false_eq_true, if_true,
              lexCmp]
            rw [classify_neg (by omega), classify_neg (by omega)]
          · by_cases hy0 : y.val = 0
            · simp only [hx0, hy0, ne_eq, not_true_eq_false, if_false, not_false_eq_true,
                if_true, lexCmp]
              rw [classify_pos (by omega), classify_pos (by omega)]
            · simp only [hx0, hy0, ne_eq, not_false_eq_true, if_true, lexCmp]
              by_cases hlt : x.val < y.val
              · rw [if_pos hlt, classify_neg (by omega), classify_neg (by omega)]
              · have hgt : y.val < x.val := by omega
                rw [if_neg hlt, if_pos hgt, classify_pos (by omega), classify_pos (by omega)]

theorem lexCmp_eq_zero_iff : ∀ a b : List Byte, lexCmp a b = 0 ↔ a = b := by
  intro a
  induction a with
  | nil =>
    intro b
    cases b <;> simp [lexCmp]
  | cons x xs ih =>
    intro b
    cases b with
    | nil => simp [lexCmp]
    | cons y ys =>
      simp only [lexCmp, List.cons.injEq]
      by_cases h1 : x.val < y.val
      · simp only [h1, if_true]
        constructor
        · intro h; omega
        · intro h
          have := congrArg Fin.val h.1
          omega
      · by_cases h2 : y.val < x.val
        · simp only [h1, h2, if_false, if_true]
          constructor
          · intro h; omega
          · intro h
            have := congrArg Fin.val h.1
            omega
        · simp only [h1, h2, if_false]
          rw [ih ys]
          have : x = y := Fin.ext (by omega)
          simp [this]

theorem classify_eq_zero_iff (d : Int) : classify d = DiffClass.zero ↔ d = 0 := by
  unfold classify
  split
  · constructor
    · intro h; cases h
    · intro h; omega
  · split
    · simp [*]
    · constructor
      · intro h; cases h
      · intro h; contradiction

namespace HeapFileScan

variable {N : Nat}

/-- C10, as the code has it: for a `STRING` filter of `length` bytes and a
record with `offset + length ≤ rec.length` (record and filter buffers holding
at least that many bytes), `matchRec` applies `op` to the three-way
lexicographic comparison of the record field and the filter, each cut at its
first zero byte; in particular `EQ` holds exactly when the two fields agree up
to their first zero byte. -/
theorem matchRec_string (fsub : List Byte → List Byte → DiffClass) (sc : HeapFileScan N)
    (rec : Record) (flt : List Byte)
    (hty : sc.type = Datatype.STRING) (hf : sc.filter = some flt)
    (hoff : 0 ≤ sc.offset) (hlen : 0 ≤ sc.length)
    (hfit : sc.offset + sc.length ≤ rec.length) (hrange : rec.length < 2147483648)
    (hdata : rec.length ≤ rec.data.length) (hflt : sc.length ≤ flt.length) :
    sc.matchRec fsub rec = some (applyOp sc.op (classify (lexCmp
      (cstr ((rec.data.drop sc.offset.toNat).take sc.length.toNat))
      (cstr (flt.take sc.length.toNat))))) ∧
    (sc.op = Operator.EQ →
      (sc.matchRec fsub rec = some true ↔
        cstr ((rec.data.drop sc.offset.toNat).take sc.length.toNat) =
          cstr (flt.take sc.length.toNat))) := by
  have hguard : ¬ (wrap32 (sc.offset + sc.length - 1) ≥ rec.length) := by
    rw [wrap32_of_range _ (by omega) (by omega)]
    omega
  have hla : sc.length.toNat ≤ (rec.data.drop sc.offset.toNat).length := by
    rw [List.length_drop]
    omega
  have hlb : sc.length.toNat ≤ flt.length := by omega
  obtain ⟨d, hd, h1, h2, hc⟩ := strncmp_lexCmp sc.length.toNat _ _ hla hlb
  have hmain : sc.matchRec fsub rec = some (applyOp sc.op (classify (lexCmp
      (cstr ((rec.data.drop sc.offset.toNat).take sc.length.toNat))
      (cstr (flt.take sc.length.toNat))))) := by
    unfold matchRec
    simp only [hf, hty, if_neg hguard, hoff, hlen, and_self, if_true, hd, Option.map_some']
    rw [floatOfInt_small d (by omega) (by omega), hc]
  refine ⟨hmain, ?_⟩
  intro hop
  rw [hmain, hop, ← lexCmp_eq_zero_iff, ← classify_eq_zero_iff]
  cases classify (lexCmp (cstr ((rec.data.drop sc.offset.toNat).take sc.length.toNat))
      (cstr (flt.take sc.length.toNat))) <;> simp [applyOp]

/-- The amended C10 at the record bytes `97, 0, 98` and the filter bytes
`97, 0, 99`: `EQ` matches, because both fields are `97` up to their first zero
byte. -/
theorem matchRec_string_witness :
    (strScan 1 Operator.EQ 3 [97, 0, 99]).matchRec noFloat ⟨[97, 0, 98], 3⟩ = some true :=
  ((matchRec_string noFloat (strScan 1 Operator.EQ 3 [97, 0, 99]) ⟨[97, 0, 98], 3⟩ [97, 0, 99]
    rfl rfl (by decide) (by decide) (by decide) (by decide) (by decide) (by decide)).2 rfl).2
    (by decide)

end HeapFileScan

/-! ## Scans on concrete heap files -/

/-- C7 fails on the code for a chain of two data pages: the scan of `heap2`
with a filter that matches nothing reaches `FILEEOF` on its first `scanNext`;
after `endScan` and the destruction of the scan object the frame of the first
data page (frame 1) still has `pinCnt = 1`. -/
theorem scan_two_pages_leaks_pin :
    scanLifecycle heap2 Operator.GT 5 1 =
      some ([(Status.FILEEOF, none)], Status.OK, [0, 1, 0]) := by
  decide

/-- On a single data page the same lifecycle ends with every frame unpinned. -/
theorem scan_one_page_balanced :
    scanLifecycle heap1 Operator.GT 9 1 =
      some ([(Status.FILEEOF, none)], Status.OK, [0, 0, 0]) := by
  decide

/-- C8 fails on the code at its own witness: on the page with the keys 7, 4, 9
and the filter `(INTEGER, 0, 4, GT, 5)`, every call of `scanNext` returns the
RID of the first record; the RID of the third record and `FILEEOF` are never
returned. -/
theorem scan_repeats_first_match :
    (openScan heap1 Operator.GT 5).bind (fun s => (scanTimes 4 s.1 s.2).map (fun r => r.1)) =
      some [(Status.OK, some ⟨2, 0⟩), (Status.OK, some ⟨2, 0⟩), (Status.OK, some ⟨2, 0⟩),
        (Status.OK, some ⟨2, 0⟩)] := by
  decide

/-! ## `matchRec` on integers without overflow -/

theorem floatShift_pow_le (fuel : Nat) : ∀ n, 1 ≤ n → 2 ^ floatShift fuel n ≤ n := by
  induction fuel with
  | zero => intro n h; simpa [floatShift] using h
  | succ k ih =>
    intro n h
    rw [floatShift]
    split
    · simpa using h
    · have h2 : 1 ≤ n / 2 := by omega
      have := ih (n / 2) h2
      rw [Nat.pow_add, Nat.pow_one]
      omega

theorem floatOfNat_pos (n : Nat) (h : 1 ≤ n) : 1 ≤ floatOfNat n := by
  unfold floatOfNat
  dsimp only
  have hle := floatShift_pow_le 8 n h
  have hpos : 0 < 2 ^ floatShift 8 n := Nat.pow_pos (by decide)
  have hq : 1 ≤ n / 2 ^ floatShift 8 n := (Nat.one_le_div_iff hpos).2 hle
  have hq1 : 1 ≤ (if 2 * (n % 2 ^ floatShift 8 n) > 2 ^ floatShift 8 n ∨
      (2 * (n % 2 ^ floatShift 8 n) = 2 ^ floatShift 8 n ∧ n / 2 ^ floatShift 8 n % 2 = 1)
      then n / 2 ^ floatShift 8 n + 1 else n / 2 ^ floatShift 8 n) := by
    split <;> omega
  exact Nat.mul_pos hq1 hpos

/-- The conversion of an `int` to `float` keeps its sign: rounding never
reaches or crosses zero. -/
theorem classify_floatOfInt (z : Int) : classify (floatOfInt z) = classify z := by
  unfold floatOfInt
  by_cases hz : z < 0
  · have hn : 1 ≤ z.natAbs := by omega
    have := floatOfNat_pos _ hn
    rw [if_pos hz, classify_neg (by omega), classify_neg hz]
  · rw [if_neg hz]
    by_cases h0 : z = 0
    · subst h0
      rfl
    · have hn : 1 ≤ z.natAbs := by omega
      have := floatOfNat_pos _ hn
      rw [classify_pos (by omega), classify_pos (by omega)]

theorem readInt32_bytesOfInt32 (z : Int) (h1 : -2147483648 ≤ z) (h2 : z < 2147483648) :
    readInt32 (bytesOfInt32 z) 0 4 = some z := by
  unfold readInt32 bytesOfInt32
  simp only [and_self, le_refl, if_true, Int.toNat_zero, List.drop_zero, List.take, int32OfBytes,
    Option.some.injEq]
  unfold wrap32
  omega

theorem applyOp_classify (op : Operator) (a v : Int) :
    applyOp op (classify (a - v)) = intHolds op a v := by
  unfold classify
  by_cases h1 : a - v < 0
  · rw [if_pos h1]
    cases op <;> simp [applyOp, intHolds] <;> omega
  · rw [if_neg h1]
    by_cases h2 : a - v = 0
    · rw [if_pos h2]
      cases op <;> simp [applyOp, intHolds] <;> omega
    · rw [if_neg h2]
      cases op <;> simp [applyOp, intHolds] <;> omega

namespace HeapFileScan

variable {N : Nat}

/-- What `matchRec` does get right for an `INTEGER` filter: for two `int`s `a`
(in the record) and `v` (the filter) whose difference fits in an `int`,
`matchRec` returns `a op v`, whether or not the difference is exactly
representable as a `float`. -/
theorem matchRec_integer_of_no_overflow (fsub : List Byte → List Byte → DiffClass)
    (op : Operator) (a v : Int)
    (ha1 : -2147483648 ≤ a) (ha2 : a < 2147483648)
    (hv1 : -2147483648 ≤ v) (hv2 : v < 2147483648)
    (hd1 : -2147483648 ≤ a - v) (hd2 : a - v < 2147483648) :
    (intScan N op v).matchRec fsub (intRecord a) = some (intHolds op a v) := by
  have hguard : ¬ (wrap32 ((0 : Int) + 4 - 1) ≥ 4) := by decide
  unfold matchRec
  simp only [intScan, intRecord, blank]
  rw [if_neg hguard]
  simp only [readInt32_bytesOfInt32 a ha1 ha2, readInt32_bytesOfInt32 v hv1 hv2,
    wrap32_of_range _ hd1 hd2, classify_floatOfInt, Option.map_some', applyOp_classify]

/-- The no-overflow case at `a = 16777217`, `v = 0`, whose difference is not
exactly representable as a `float`. -/
theorem matchRec_integer_of_no_overflow_witness :
    (intScan 1 Operator.GT 0).matchRec noFloat (intRecord 16777217) = some true :=
  matchRec_integer_of_no_overflow noFloat Operator.GT 16777217 0 (by decide) (by decide)
    (by decide) (by decide) (by decide) (by decide)

end HeapFileScan

/-! ## `scanNext` does not advance past a match -/

namespace HeapFileScan

variable {σ : Type} {N : Nat}

theorem matchRec_params (fsub : List Byte → List Byte → DiffClass) (sc sc1 : HeapFileScan N)
    (h1 : sc.filter = sc1.filter) (h2 : sc.offset = sc1.offset) (h3 : sc.length = sc1.length)
    (h4 : sc.type = sc1.type) (h5 : sc.op = sc1.op) (rec : Record) :
    sc.matchRec fsub rec = sc1.matchRec fsub rec := by
  unfold matchRec
  rw [h1, h2, h3, h4, h5]

/-- The record loop depends on the scan object only through the filter
parameters. -/
theorem recordLoop_params (fsub : List Byte → List Byte → DiffClass) (sc sc1 : HeapFileScan N)
    (page : Page)
    (h1 : sc.filter = sc1.filter) (h2 : sc.offset = sc1.offset) (h3 : sc.length = sc1.length)
    (h4 : sc.type = sc1.type) (h5 : sc.op = sc1.op) :
    ∀ (fuel : Nat) (tmpRid : RID),
      recordLoop fsub sc page fuel tmpRid = recordLoop fsub sc1 page fuel tmpRid := by
  intro fuel
  induction fuel with
  | zero => intro tmpRid; rfl
  | succ n ih =>
    intro tmpRid
    rw [recordLoop, recordLoop]
    cases page.getRecord tmpRid with
    | error e => rfl
    | ok rec =>
      simp only [matchRec_params fsub sc sc1 h1 h2 h3 h4 h5]
      cases sc1.matchRec fsub rec with
      | none => rfl
      | some b =>
        cases b with
        | true => rfl
        | false =>
          simp only
          cases page.nextRecord tmpRid with
          | error e => rfl
          | ok nextRid => exact ih nextRid

/-- A successful `pageLoop` ends in a state from which one more iteration
returns the very same RID and leaves the state as it is. -/
theorem pageLoop_fixed (ops : FileOps σ) (fsub : List Byte → List Byte → DiffClass) :
    ∀ (fuel : Nat) (sc : HeapFileScan N) (bm : BufMgr σ N) (rid : RID) (sc' : HeapFileScan N)
      (bm' : BufMgr σ N),
      pageLoop ops fsub fuel sc bm = some (Status.OK, some rid, sc', bm') →
      sc'.curPage ≠ none ∧
      pageLoop ops fsub 1 sc' bm' = some (Status.OK, some rid, sc', bm') := by
  intro fuel
  induction fuel with
  | zero => intro sc bm rid sc' bm' h; simp [pageLoop] at h
  | succ n ih =>
    intro sc bm rid sc' bm' h
    rw [pageLoop] at h
    cases hcp : sc.curPage with
    | none => simp [hcp] at h
    | some fr =>
      simp only [hcp] at h
      split at h
      · exact absurd h (by simp)
      · rename_i rid0 hinner
        simp only [Option.some.injEq, Prod.mk.injEq, true_and] at h
        obtain ⟨hrid, hsc, hbm⟩ := h
        subst hrid hsc hbm
        refine ⟨by simp [hcp], ?_⟩
        rw [pageLoop]
        simp only [hcp]
        have e : ∀ k t, recordLoop fsub
            ({ sc with curPage := some fr, curRec := rid0 } : HeapFileScan N) (bm.bufPool fr) k t =
            recordLoop fsub sc (bm.bufPool fr) k t :=
          recordLoop_params fsub _ sc _ rfl rfl rfl rfl rfl
        simp only [e]
        rw [hinner]
      · simp only [Option.some.injEq, Prod.mk.injEq] at h
        exact absurd h.2.1 (by simp)
      · split at h
        · simp only [Option.some.injEq, Prod.mk.injEq] at h
          exact absurd h.1 (by simp)
        · split at h
          · simp only [Option.some.injEq, Prod.mk.injEq] at h
            exact absurd h.1 (by simp)
          · split at h
            · exact absurd h (by simp)
            · split at h
              · exact ih _ _ _ _ _ h
              · simp only [Option.some.injEq, Prod.mk.injEq] at h
                exact absurd h.2.1 (by simp)

/-- Once `scanNext` has returned a RID, the next call returns the same RID and
changes nothing (unless the page it stopped on has number 0): the scan never
moves past its first match. -/
theorem scanNext_repeats (ops : FileOps σ) (fsub : List Byte → List Byte → DiffClass)
    (fuel : Nat) (sc : HeapFileScan N) (bm : BufMgr σ N) (rid : RID) (sc' : HeapFileScan N)
    (bm' : BufMgr σ N)
    (h : scanNext ops fsub fuel sc bm = some (Status.OK, some rid, sc', bm'))
    (hp : sc'.curPageNo ≠ 0) :
    scanNext ops fsub 1 sc' bm' = some (Status.OK, some rid, sc', bm') := by
  have key : sc'.curPage ≠ none ∧
      pageLoop ops fsub 1 sc' bm' = some (Status.OK, some rid, sc', bm') := by
    unfold scanNext at h
    split at h
    · split at h
      · exact absurd h (by simp)
      · dsimp only at h
        split at h
        · simp only [Option.some.injEq, Prod.mk.injEq] at h
          exact absurd h.1 (by simp)
        · split at h
          · exact absurd h (by simp)
          · split at h
            · simp only [Option.some.injEq, Prod.mk.injEq] at h
              exact absurd h.2.1 (by simp)
            · exact pageLoop_fixed ops fsub _ _ _ _ _ _ h
    · exact pageLoop_fixed ops fsub _ _ _ _ _ _ h
  unfold scanNext
  rw [if_neg (by
    intro hor
    rcases hor with h1 | h1
    · exact key.1 h1
    · exact hp h1)]
  exact key.2

/-- The repetition of `scanNext_repeats` at the page with the keys 7, 4, 9 and
the filter `GT 5`. -/
theorem scanNext_repeats_witness :
    ∃ sc bm sc' bm', openScan heap1 Operator.GT 5 = some (sc, bm) ∧
      scanNext memOps noFloat 8 sc bm = some (Status.OK, some ⟨2, 0⟩, sc', bm') ∧
      scanNext memOps noFloat 1 sc' bm' = some (Status.OK, some ⟨2, 0⟩, sc', bm') := by
  have h0 : ∃ sc bm sc' bm', openScan heap1 Operator.GT 5 = some (sc, bm) ∧
      scanNext memOps noFloat 8 sc bm = some (Status.OK, some ⟨2, 0⟩, sc', bm') ∧
      sc'.curPageNo ≠ 0 := ⟨_, _, _, _, rfl, rfl, by decide⟩
  obtain ⟨sc, bm, sc', bm', hopen, h1, hne⟩ := h0
  exact ⟨sc, bm, sc', bm', hopen, h1, scanNext_repeats memOps noFloat 8 sc bm _ sc' bm' h1 hne⟩

end HeapFileScan

/-! ## The record loop returns -/

theorem Page.findSlot_bounds (p : Page) (start i : Nat) (h : p.findSlot start = some i) :
    start ≤ i ∧ i < p.slots.length := by
  unfold Page.findSlot at h
  have hm := List.mem_of_find?_eq_some h
  rw [List.mem_range'_1] at hm
  omega

namespace HeapFileScan

variable {N : Nat}

/-- With `fuel` beyond the number of slots after `tmpRid`, the record loop
returns unless `matchRec` itself is undefined on a record of the page. -/
theorem recordLoop_isSome_aux (fsub : List Byte → List Byte → DiffClass) (sc : HeapFileScan N)
    (page : Page) (hm : ∀ rec, sc.matchRec fsub rec ≠ none) :
    ∀ (fuel : Nat) (tmpRid : RID), 0 ≤ tmpRid.slotNo →
      page.slots.length < tmpRid.slotNo.toNat + fuel →
      tmpRid.slotNo.toNat < page.slots.length →
      (recordLoop fsub sc page fuel tmpRid).isSome = true := by
  intro fuel
  induction fuel with
  | zero => intro tmpRid _ h1 h2; omega
  | succ n ih =>
    intro tmpRid h0 h1 h2
    rw [recordLoop]
    cases page.getRecord tmpRid with
    | error e => rfl
    | ok rec =>
      simp only
      cases hmr : sc.matchRec fsub rec with
      | none => exact absurd hmr (hm rec)
      | some b =>
        cases b with
        | true => rfl
        | false =>
          simp only
          cases hn : page.nextRecord tmpRid with
          | error e => rfl
          | ok nextRid =>
            simp only
            unfold Page.nextRecord at hn
            rw [if_neg (by omega)] at hn
            cases hfs : page.findSlot (tmpRid.slotNo.toNat + 1) with
            | none => simp [hfs] at hn
            | some i =>
              simp only [hfs, Except.ok.injEq] at hn
              have hb := Page.findSlot_bounds page _ i hfs
              subst hn
              apply ih
              · simp
              · simp only [Int.toNat_ofNat]
                omega
              · simp only [Int.toNat_ofNat]
                exact hb.2

/-- The fuel `slots.length + 1` given to the record loop in `pageLoop` is
enough. -/
theorem recordLoop_isSome (fsub : List Byte → List Byte → DiffClass) (sc : HeapFileScan N)
    (page : Page) (hm : ∀ rec, sc.matchRec fsub rec ≠ none) (tmpRid : RID)
    (h : page.firstRecord = Except.ok tmpRid) :
    (recordLoop fsub sc page (page.slots.length + 1) tmpRid).isSome = true := by
  unfold Page.firstRecord at h
  cases hfs : page.findSlot 0 with
  | none => simp [hfs] at h
  | some i =>
    simp only [hfs, Except.ok.injEq] at h
    have hb := Page.findSlot_bounds page _ i hfs
    subst h
    apply recordLoop_isSome_aux fsub sc page hm
    · simp
    · simp only [Int.toNat_ofNat]
      omega
    · simp only [Int.toNat_ofNat]
      exact hb.2

end HeapFileScan

/-! ## `startScan` -/

theorem datatype_forall_code_ne (c : Int) :
    (∀ t : Datatype, t.code ≠ c) ↔
      (c ≠ Datatype.STRING.code ∧ c ≠ Datatype.INTEGER.code ∧ c ≠ Datatype.FLOAT.code) := by
  constructor
  · intro h
    exact ⟨fun e => h _ e.symm, fun e => h _ e.symm, fun e => h _ e.symm⟩
  · rintro ⟨h1, h2, h3⟩ t e
    cases t
    · exact h1 e.symm
    · exact h2 e.symm
    · exact h3 e.symm

theorem operator_forall_code_ne (c : Int) :
    (∀ o : Operator, o.code ≠ c) ↔
      (c ≠ Operator.LT.code ∧ c ≠ Operator.LTE.code ∧ c ≠ Operator.EQ.code ∧
        c ≠ Operator.GTE.code ∧ c ≠ Operator.GT.code ∧ c ≠ Operator.NE.code) := by
  constructor
  · intro h
    exact ⟨fun e => h _ e.symm, fun e => h _ e.symm, fun e => h _ e.symm, fun e => h _ e.symm,
      fun e => h _ e.symm, fun e => h _ e.symm⟩
  · rintro ⟨h1, h2, h3, h4, h5, h6⟩ o e
    cases o
    · exact h1 e.symm
    · exact h2 e.symm
    · exact h3 e.symm
    · exact h4 e.symm
    · exact h5 e.symm
    · exact h6 e.symm

theorem datatype_ofCode_code (t : Datatype) : Datatype.ofCode t.code = t := by
  cases t <;> rfl

theorem operator_ofCode_code (o : Operator) : Operator.ofCode o.code = o := by
  cases o <;> rfl

namespace HeapFileScan

variable {σ : Type} {N : Nat}

/-- On values of the two enumerations `startScanRaw` is `startScan`. -/
theorem startScanRaw_code (sc : HeapFileScan N) (offset_ length_ : Int) (t : Datatype)
    (filter_ : Option (List Byte)) (o : Operator) :
    startScanRaw sc offset_ length_ t.code filter_ o.code =
      startScan sc offset_ length_ t filter_ o := by
  cases filter_ with
  | none => rfl
  | some f =>
    have ht : ¬ (t.code ≠ Datatype.STRING.code ∧ t.code ≠ Datatype.INTEGER.code ∧
        t.code ≠ Datatype.FLOAT.code) := fun h =>
      (datatype_forall_code_ne t.code).2 h t rfl
    have ho : ¬ (o.code ≠ Operator.LT.code ∧ o.code ≠ Operator.LTE.code ∧
        o.code ≠ Operator.EQ.code ∧ o.code ≠ Operator.GTE.code ∧ o.code ≠ Operator.GT.code ∧
        o.code ≠ Operator.NE.code) := fun h =>
      (operator_forall_code_ne o.code).2 h o rfl
    have h1 : (t.code = Datatype.INTEGER.code) ↔ t = Datatype.INTEGER := by
      cases t <;> simp [Datatype.code]
    have h2 : (t.code = Datatype.FLOAT.code) ↔ t = Datatype.FLOAT := by
      cases t <;> simp [Datatype.code]
    unfold startScanRaw startScan
    simp only [ht, ho, h1, h2, false_or, or_false, datatype_ofCode_code, operator_ofCode_code]

/-- The condition under which `startScanRaw` rejects its parameters. -/
theorem startScanRaw_bad_iff (sc : HeapFileScan N) (offset_ length_ type_ op_ : Int)
    (f : List Byte) :
    (startScanRaw sc offset_ length_ type_ (some f) op_).1 = Status.BADSCANPARM ↔
      (offset_ < 0 ∨ length_ < 1 ∨ (type_ = Datatype.INTEGER.code ∧ length_ ≠ 4) ∨
        (type_ = Datatype.FLOAT.code ∧ length_ ≠ 4) ∨ (∀ t : Datatype, t.code ≠ type_) ∨
        (∀ o : Operator, o.code ≠ op_)) := by
  rw [datatype_forall_code_ne, operator_forall_code_ne]
  unfold startScanRaw
  dsimp only
  split
  · rename_i h
    simp only [true_iff]
    tauto
  · rename_i h
    simp only [reduceCtorEq, false_iff]
    tauto

/-- C11: `startScan` with a null filter returns `OK` whatever the other
parameters are, and then `matchRec` is true for every record; with a non-null
filter it returns `BADSCANPARM` exactly when `offset_ < 0`, or `length_ < 1`,
or the type is `INTEGER` or `FLOAT` and `length_` is not 4, or `type_` or `op_`
is not a value of its enumeration, and then the object is unchanged; otherwise
it returns `OK` and stores exactly the five parameters. -/
theorem startScanRaw_contract (fsub : List Byte → List Byte → DiffClass) (sc : HeapFileScan N)
    (offset_ length_ type_ op_ : Int) :
    (startScanRaw sc offset_ length_ type_ none op_ = (Status.OK, { sc with filter := none }) ∧
      ∀ rec : Record,
        matchRec fsub (startScanRaw sc offset_ length_ type_ none op_).2 rec = some true) ∧
    ∀ f : List Byte,
      ((startScanRaw sc offset_ length_ type_ (some f) op_).1 = Status.BADSCANPARM ↔
        (offset_ < 0 ∨ length_ < 1 ∨ (type_ = Datatype.INTEGER.code ∧ length_ ≠ 4) ∨
          (type_ = Datatype.FLOAT.code ∧ length_ ≠ 4) ∨ (∀ t : Datatype, t.code ≠ type_) ∨
          (∀ o : Operator, o.code ≠ op_))) ∧
      ((startScanRaw sc offset_ length_ type_ (some f) op_).1 = Status.BADSCANPARM →
        (startScanRaw sc offset_ length_ type_ (some f) op_).2 = sc) ∧
      ((startScanRaw sc offset_ length_ type_ (some f) op_).1 ≠ Status.BADSCANPARM →
        (startScanRaw sc offset_ length_ type_ (some f) op_).1 = Status.OK ∧
        ∃ (t : Datatype) (o : Operator), t.code = type_ ∧ o.code = op_ ∧
          (startScanRaw sc offset_ length_ type_ (some f) op_).2 =
            { sc with offset := offset_, length := length_, type := t, filter := some f
                      op := o }) := by
  refine ⟨⟨rfl, fun rec => rfl⟩, fun f => ⟨startScanRaw_bad_iff sc offset_ length_ type_ op_ f, ?_, ?_⟩⟩
  · unfold startScanRaw
    dsimp only
    split
    · intro _; rfl
    · intro h; exact absurd h (by simp)
  · intro hne
    have hb := (startScanRaw_bad_iff sc offset_ length_ type_ op_ f).not.1 hne
    simp only [not_or] at hb
    obtain ⟨-, -, -, -, ht, ho⟩ := hb
    simp only [not_forall, not_not] at ht ho
    obtain ⟨t, ht⟩ := ht
    obtain ⟨o, ho⟩ := ho
    revert hne
    unfold startScanRaw
    dsimp only
    split
    · intro h; exact absurd rfl h
    · intro _
      refine ⟨rfl, t, o, ht, ho, ?_⟩
      rw [← ht, ← ho, datatype_ofCode_code, operator_ofCode_code]

/-- The contract of `startScan` at a scan of `INTEGER` keys: length 3 is
rejected and leaves the object alone, length 4 is accepted and stored, and a
type value outside the enumeration is rejected. -/
theorem startScanRaw_contract_witness :
    (startScanRaw (blank 3) 0 3 1 (some (bytesOfInt32 5)) 2).1 = Status.BADSCANPARM ∧
    (startScanRaw (blank 3) 0 3 1 (some (bytesOfInt32 5)) 2).2 = blank 3 ∧
    startScanRaw (blank 3) 0 4 1 (some (bytesOfInt32 5)) 2 =
      (Status.OK, intScan 3 Operator.EQ 5) ∧
    (startScanRaw (blank 3) 0 4 7 (some (bytesOfInt32 5)) 2).1 = Status.BADSCANPARM ∧
    ∀ rec : Record, matchRec noFloat (startScanRaw (blank 3) 0 3 1 none 2).2 rec = some true :=
  have h := (startScanRaw_contract noFloat (blank 3) 0 3 1 2).2 (bytesOfInt32 5)
  have hb : (startScanRaw (blank 3) 0 3 1 (some (bytesOfInt32 5)) 2).1 = Status.BADSCANPARM :=
    h.1.2 (Or.inr (Or.inr (Or.inl ⟨rfl, by decide⟩)))
  ⟨hb, h.2.1 hb, by decide, by decide, (startScanRaw_contract noFloat (blank 3) 0 3 1 2).1.2⟩

end HeapFileScan

/-! ## `getRecord` across pages -/

namespace BufMgr

variable {σ : Type} {N : Nat}

/-- A `readPage` that fails assigns no frame. -/
theorem readPage_fail_frame (ops : FileOps σ) (s : BufMgr σ N) (file : File) (PageNo : Int)
    (st : Status) (pg : Option (Fin N)) (s1 : BufMgr σ N)
    (h : readPage ops s file PageNo = some (st, pg, s1)) (hst : st ≠ Status.OK) : pg = none := by
  unfold readPage at h
  split at h
  · split at h
    · exact absurd h (by simp)
    · dsimp only at h
      split at h
      · simp only [Option.some.injEq, Prod.mk.injEq] at h
        exact h.2.1.symm
      · split at h
        · exact absurd h (by simp)
        · split at h
          · simp only [Option.some.injEq, Prod.mk.injEq] at h
            exact h.2.1.symm
          · split at h
            · simp only [Option.some.injEq, Prod.mk.injEq] at h
              exact h.2.1.symm
            · simp only [Option.some.injEq, Prod.mk.injEq] at h
              exact absurd h.1.symm hst
  · simp only [Option.some.injEq, Prod.mk.injEq] at h
    exact absurd h.1.symm hst

end BufMgr

/-- When the record is on another page, the unpin of the current page succeeds
and the pin of the requested page fails, `getRecord` returns the status of
`readPage` and leaves the object as it was: `curPage` and `curPageNo` still
designate the page that has just been unpinned. -/
theorem HeapFile.getRecord_pin_failure {σ : Type} {N : Nat} (ops : FileOps σ)
    (sc : HeapFileScan N) (bm : BufMgr σ N) (rid : RID) (st : Status) (pg : Option (Fin N))
    (bm1 : BufMgr σ N) (hp : rid.pageNo ≠ sc.curPageNo)
    (hu : (bm.unPinPage sc.filePtr sc.curPageNo sc.curDirtyFlag).1 = Status.OK)
    (hr : (bm.unPinPage sc.filePtr sc.curPageNo sc.curDirtyFlag).2.readPage ops sc.filePtr
      rid.pageNo = some (st, pg, bm1))
    (hst : st ≠ Status.OK) :
    HeapFile.getRecord ops sc bm rid = some (st, none, sc, bm1) := by
  have hpg := BufMgr.readPage_fail_frame ops _ _ _ _ _ _ hr hst
  subst hpg
  unfold HeapFile.getRecord
  rw [if_neg hp]
  dsimp only
  rw [if_neg (by simpa using hu), hr]
  dsimp only
  rw [if_pos hst]

/-- C13 fails on the code: on the heap file `heap1` (current page 2, pinned in
frame 1) `getRecord` of a RID on page 9, which the store cannot read, returns
the status `UNIXERR` of `readPage`, but the cursor is not invalidated:
`curPage` still points to frame 1 and `curPageNo` is still 2, while frame 1 is
no longer pinned, so that the following `endScan` fails with `PAGENOTPINNED`. -/
theorem getRecord_failed_pin_keeps_cursor :
    (openScan heap1 Operator.EQ 0).map (fun s =>
        (s.1.curPage, s.1.curPageNo, (s.2.bufTable 1).pinCnt)) = some (some 1, 2, 1) ∧
    (openScan heap1 Operator.EQ 0).bind (fun s =>
      (HeapFile.getRecord memOps s.1 s.2 ⟨9, 0⟩).map (fun r =>
        (r.1, r.2.2.1.curPage, r.2.2.1.curPageNo, (r.2.2.2.bufTable 1).pinCnt,
          (r.2.2.1.endScan r.2.2.2).1))) =
      some (Status.UNIXERR, some 1, 2, 0, Status.PAGENOTPINNED) := by
  decide

/-! ## `createHeapFile` -/

namespace BufMgr

variable {σ : Type} {N : Nat}

/-- `unPinPage` touches neither the frames nor the index. -/
theorem unPinPage_frames (s : BufMgr σ N) (file : File) (PageNo : Int) (dirty : Bool) :
    (s.unPinPage file PageNo dirty).2.bufPool = s.bufPool ∧
    (s.unPinPage file PageNo dirty).2.hashTable = s.hashTable := by
  unfold unPinPage
  cases BufHashTbl.lookup s.hashTable (some file) PageNo with
  | none => exact ⟨rfl, rfl⟩
  | some fr =>
    dsimp only
    by_cases hp : (s.bufTable fr).pinCnt = 0
    · rw [if_pos hp]
      exact ⟨rfl, rfl⟩
    · rw [if_neg hp]
      exact ⟨rfl, rfl⟩

end BufMgr

/-- The header page that `createHeapFile` leaves behind is what the frame held
when it was handed out, with `firstPage` and `lastPage` set to the data page
and `pageCnt` incremented: `recCnt` is whatever the frame held, and `pageCnt`
is one more than what it held. -/
theorem createFinish_header {σ : Type} {N : Nat} (db : DbOps σ) (bm : BufMgr σ N) (file : File)
    (hdrPageNo : Int) (hdr : Fin N) (newPageNo : Int) (newPage : Fin N) (hne : hdr ≠ newPage) :
    (createFinish db bm file hdrPageNo hdr newPageNo newPage).2.bufPool hdr =
      { bm.bufPool hdr with firstPage := newPageNo, lastPage := newPageNo
                            pageCnt := wrap32 ((bm.bufPool hdr).pageCnt + 1) } := by
  have key : (createFinish db bm file hdrPageNo hdr newPageNo newPage).2.bufPool =
      Function.update (Function.update bm.bufPool newPage ((bm.bufPool newPage).init newPageNo))
        hdr { bm.bufPool hdr with firstPage := newPageNo, lastPage := newPageNo
                                  pageCnt := wrap32 ((bm.bufPool hdr).pageCnt + 1) } := by
    unfold createFinish
    dsimp only
    rw [Function.update_noteq hne]
    split
    · rw [(BufMgr.unPinPage_frames _ _ _ _).1]
    · split
      · rw [(BufMgr.unPinPage_frames _ _ _ _).1, (BufMgr.unPinPage_frames _ _ _ _).1]
      · dsimp only
        rw [(BufMgr.unPinPage_frames _ _ _ _).1, (BufMgr.unPinPage_frames _ _ _ _).1]
  rw [key, Function.update_same]

/-- C14 fails on the code: on a pool of two frames that still hold the pages of
the heap file `t` (header with `pageCnt = 1` and `recCnt = 3`), creating the
file `u` returns `OK` and leaves a header with `pageCnt = 2` and `recCnt = 3`,
so that `getRecCnt` of the newly opened file is 3; on a pool that has never
been used the same call gives `pageCnt = 1` and `recCnt = 0`. -/
theorem createHeapFile_keeps_stale_counts :
    usedPool.bind (fun bm => createThenOpen bm "u") =
      some (Status.OK, Status.OK, (4, 4, 2, 3), some 3) ∧
    createThenOpen (BufMgr.new (Nat.succ_pos 1) heap1) "u" =
      some (Status.OK, Status.OK, (4, 4, 1, 0), some 0) :=
  ⟨rfl, rfl⟩

/-! ## `insertRecord` -/

namespace InsertFileScan

variable {σ : Type} {N : Nat}

/-- `insertRecord` never changes the object or the pool and never assigns
`outRid`. -/
theorem insertRecord_unchanged (maxRec : Int) (sc : InsertFileScan N) (bm : BufMgr σ N)
    (rec : Record) :
    (insertRecord maxRec sc bm rec).2 = (none, sc, bm) := by
  unfold insertRecord
  split <;> rfl

/-- The status of `insertRecord` for a length and a bound that fit their
32-bit types. -/
theorem insertRecord_status (maxRec : Int) (sc : InsertFileScan N) (bm : BufMgr σ N)
    (rec : Record) (h0 : 0 ≤ maxRec) (h1 : maxRec < 2147483648)
    (hl : -2147483648 ≤ rec.length) (hu : rec.length < 2147483648) :
    (insertRecord maxRec sc bm rec).1 =
      if rec.length > maxRec ∨ rec.length < 0 then some Status.INVALIDRECLEN else none := by
  unfold insertRecord
  by_cases h : rec.length > maxRec ∨ rec.length < 0
  · rw [if_pos h, if_pos (by omega)]
  · rw [if_neg h, if_neg (by omega)]

/-- C15 fails on the code: for every record whose length is within the bound
(`0 ≤ rec.length ≤ PAGESIZE - DPFIXED`) `insertRecord` reaches the end of its
body without a `return`: there is no status, no RID is assigned, and the
object and the pool, hence `recCnt` and both dirty flags, are what they were. -/
theorem insertRecord_inserts_nothing (maxRec : Int) (sc : InsertFileScan N) (bm : BufMgr σ N)
    (rec : Record) (h1 : maxRec < 2147483648) (hl : 0 ≤ rec.length)
    (hu : rec.length ≤ maxRec) :
    insertRecord maxRec sc bm rec = (none, none, sc, bm) ∧
    HeapFile.getRecCnt (insertRecord maxRec sc bm rec).2.2.1 (insertRecord maxRec sc bm rec).2.2.2 =
      HeapFile.getRecCnt sc bm := by
  have hs := insertRecord_status maxRec sc bm rec (by omega) h1 (by omega) (by omega)
  rw [if_neg (by omega)] at hs
  have hu := insertRecord_unchanged maxRec sc bm rec
  have e : insertRecord maxRec sc bm rec = (none, none, sc, bm) := Prod.ext hs hu
  rw [e]
  exact ⟨rfl, rfl⟩

/-- C16: for every record length of the 32-bit signed field, and a bound
`PAGESIZE - DPFIXED` between 0 and `2^31 - 1`, `insertRecord` returns
`INVALIDRECLEN` exactly when `rec.length` exceeds the bound or is negative
(the length is compared as an `unsigned int`), and then, as always, the object
and the pool are unchanged and no RID is assigned. -/
theorem insertRecord_invalidRecLen (maxRec : Int) (sc : InsertFileScan N) (bm : BufMgr σ N)
    (rec : Record) (h0 : 0 ≤ maxRec) (h1 : maxRec < 2147483648)
    (hl : -2147483648 ≤ rec.length) (hu : rec.length < 2147483648) :
    ((insertRecord maxRec sc bm rec).1 = some Status.INVALIDRECLEN ↔
      (rec.length > maxRec ∨ rec.length < 0)) ∧
    (insertRecord maxRec sc bm rec).2 = (none, sc, bm) := by
  refine ⟨?_, insertRecord_unchanged maxRec sc bm rec⟩
  rw [insertRecord_status maxRec sc bm rec h0 h1 hl hu]
  by_cases h : rec.length > maxRec ∨ rec.length < 0
  · rw [if_pos h]
    exact ⟨fun _ => h, fun _ => rfl⟩
  · rw [if_neg h]
    exact ⟨fun h2 => absurd h2 (by simp), fun h2 => absurd h2 h⟩

end InsertFileScan

/-- A record of 50 bytes is not inserted: on the open heap file `heap1`, with
the bound 1000, `insertRecord` has no status and leaves `getRecCnt` at 3. -/
theorem insertRecord_inserts_nothing_witness :
    (openScan heap1 Operator.EQ 0).map (fun s =>
      ((InsertFileScan.insertRecord 1000 s.1 s.2 (keyRecord 8)).1,
        (InsertFileScan.insertRecord 1000 s.1 s.2 (keyRecord 8)).2.1,
        HeapFile.getRecCnt (InsertFileScan.insertRecord 1000 s.1 s.2 (keyRecord 8)).2.2.1
          (InsertFileScan.insertRecord 1000 s.1 s.2 (keyRecord 8)).2.2.2)) =
      some (none, none, some 3) := by
  have h : ∃ s, openScan heap1 Operator.EQ 0 = some s ∧ HeapFile.getRecCnt s.1 s.2 = some 3 :=
    ⟨_, rfl, rfl⟩
  obtain ⟨s, hs, hc⟩ := h
  have key := InsertFileScan.insertRecord_inserts_nothing 1000 s.1 s.2 (keyRecord 8)
    (by decide) (by decide) (by decide)
  rw [hs, Option.map_some', key.2, key.1, hc]

/-- C16 as stated fails for a negative length: with the bound 1000 a record of
length `-1` is rejected with `INVALIDRECLEN` although `-1 > 1000` is false. -/
theorem insertRecord_rejects_negative_length :
    (InsertFileScan.insertRecord 1000 (HeapFileScan.blank 3)
        (BufMgr.new (Nat.succ_pos 2) heap1) ⟨[], -1⟩).1 = some Status.INVALIDRECLEN ∧
    ¬ ((⟨[], -1⟩ : Record).length > 1000) := by
  decide

/-- The length check at the bound 1000: lengths 1001 and `-1` are rejected,
length 1000 is not, and nothing is changed in either case. -/
theorem insertRecord_invalidRecLen_witness :
    ((InsertFileScan.insertRecord 1000 (HeapFileScan.blank 3)
        (BufMgr.new (Nat.succ_pos 2) heap1) ⟨[], 1001⟩).1 = some Status.INVALIDRECLEN ↔
      ((1001 : Int) > 1000 ∨ (1001 : Int) < 0)) ∧
    (InsertFileScan.insertRecord 1000 (HeapFileScan.blank 3)
        (BufMgr.new (Nat.succ_pos 2) heap1) ⟨[], 1001⟩).2 =
      (none, HeapFileScan.blank 3, BufMgr.new (Nat.succ_pos 2) heap1) :=
  InsertFileScan.insertRecord_invalidRecLen 1000 (HeapFileScan.blank 3)
    (BufMgr.new (Nat.succ_pos 2) heap1) ⟨[], 1001⟩ (by decide) (by decide) (by decide)
    (by decide)

/-! ## `deleteRecord` -/

/-- The page's `deleteRecord` changes nothing but the slot directory. -/
theorem Page.deleteRecord_fields (p : Page) (rid : RID) :
    (p.deleteRecord rid).2 = { p with slots := (p.deleteRecord rid).2.slots } := by
  unfold Page.deleteRecord
  split
  · rfl
  · split <;> rfl

/-- Once a record is deleted from a page, `getRecord` fails on its slot. -/
theorem Page.deleteRecord_getRecord (p : Page) (rid : RID)
    (h : (p.deleteRecord rid).1 = Status.OK) (rid1 : RID) (hs : rid1.slotNo = rid.slotNo) :
    (p.deleteRecord rid).2.getRecord rid1 = Except.error Status.INVALIDSLOTNO := by
  have hneg : ¬ rid.slotNo < 0 := by
    intro hn
    unfold Page.deleteRecord at h
    rw [if_pos hn] at h
    exact absurd h (by simp)
  cases hr : p.slots.getD rid.slotNo.toNat none with
  | none =>
    unfold Page.deleteRecord at h
    rw [if_neg hneg, hr] at h
    exact absurd h (by simp)
  | some r =>
    have e2 : (p.deleteRecord rid).2 = { p with slots := p.slots.set rid.slotNo.toNat none } := by
      unfold Page.deleteRecord
      rw [if_neg hneg, hr]
    have hlt : rid.slotNo.toNat < p.slots.length := by
      by_contra hge
      rw [List.getD_eq_default _ _ (Nat.le_of_not_lt hge)] at hr
      exact absurd hr (by simp)
    have e : (p.slots.set rid.slotNo.toNat none).getD rid.slotNo.toNat none = none := by
      rw [List.getD_eq_getElem?_getD, List.getElem?_set_self hlt]
      rfl
    rw [e2]
    unfold Page.getRecord
    rw [hs, if_neg hneg]
    dsimp only
    rw [e]

namespace HeapFileScan

variable {σ : Type} {N : Nat}

/-- A RID that the record loop returns designates a record of the page. -/
theorem recordLoop_matched (fsub : List Byte → List Byte → DiffClass) (sc : HeapFileScan N)
    (page : Page) :
    ∀ (fuel : Nat) (tmpRid rid : RID),
      recordLoop fsub sc page fuel tmpRid = some (RecordScan.matched rid) →
      ∃ rec, page.getRecord rid = Except.ok rec := by
  intro fuel
  induction fuel with
  | zero => intro tmpRid rid h; simp [recordLoop] at h
  | succ n ih =>
    intro tmpRid rid h
    rw [recordLoop] at h
    split at h
    · simp at h
    · rename_i rec hrec
      split at h
      · simp at h
      · simp only [Option.some.injEq, RecordScan.matched.injEq] at h
        subst h
        exact ⟨rec, hrec⟩
      · split at h
        · exact ih _ _ h
        · simp at h

/-- The contract of `deleteRecord` at the call itself: for a scan with a
current page and a header page (as after a
`scanNext` that returned the RID `curRec`), `deleteRecord` returns the status
of the page's `deleteRecord(curRec)`, sets `curDirtyFlag` and `hdrDirtyFlag`
and changes nothing else in the object, and decrements `recCnt` of the header
by exactly one, so that `getRecCnt` is one less than before; descriptors and
index are untouched; and when the page's status is `OK`, the slot of `curRec`
is empty, so that no scan of the page returns that RID again. -/
theorem deleteRecord_contract (fsub : List Byte → List Byte → DiffClass) (sc : HeapFileScan N)
    (bm : BufMgr σ N) (fr hdr : Fin N) (hc : sc.curPage = some fr)
    (hh : sc.headerPage = some hdr) (hr : -2147483648 < (bm.bufPool hdr).recCnt)
    (hr2 : (bm.bufPool hdr).recCnt < 2147483648) :
    ∃ bm1, deleteRecord sc bm =
        some (((bm.bufPool fr).deleteRecord sc.curRec).1,
          { sc with curDirtyFlag := true, hdrDirtyFlag := true }, bm1) ∧
      HeapFile.getRecCnt sc bm = some (bm.bufPool hdr).recCnt ∧
      HeapFile.getRecCnt { sc with curDirtyFlag := true, hdrDirtyFlag := true } bm1 =
        some ((bm.bufPool hdr).recCnt - 1) ∧
      (bm1.bufPool fr).slots = ((bm.bufPool fr).deleteRecord sc.curRec).2.slots ∧
      bm1.bufTable = bm.bufTable ∧ bm1.hashTable = bm.hashTable ∧
      (∀ i, i ≠ fr → i ≠ hdr → bm1.bufPool i = bm.bufPool i) ∧
      (((bm.bufPool fr).deleteRecord sc.curRec).1 = Status.OK →
        ∀ (fuel : Nat) (tmpRid rid : RID), rid.slotNo = sc.curRec.slotNo →
          recordLoop fsub { sc with curDirtyFlag := true, hdrDirtyFlag := true }
            (bm1.bufPool fr) fuel tmpRid ≠ some (RecordScan.matched rid)) := by
  have hrec : ((Function.update bm.bufPool fr ((bm.bufPool fr).deleteRecord sc.curRec).2) hdr).recCnt =
      (bm.bufPool hdr).recCnt := by
    by_cases e : hdr = fr
    · subst e
      rw [Function.update_same, Page.deleteRecord_fields]
    · rw [Function.update_noteq e]
  have hslots : ∀ q : Page, q.slots =
      ((Function.update bm.bufPool fr ((bm.bufPool fr).deleteRecord sc.curRec).2) hdr).slots →
      ((Function.update (Function.update bm.bufPool fr ((bm.bufPool fr).deleteRecord sc.curRec).2)
        hdr q) fr).slots = ((bm.bufPool fr).deleteRecord sc.curRec).2.slots := by
    intro q hq
    by_cases e : fr = hdr
    · subst e
      rw [Function.update_same, hq, Function.update_same]
    · rw [Function.update_noteq e, Function.update_same]
  refine ⟨{ bm with bufPool := (Function.update
      (Function.update bm.bufPool fr ((bm.bufPool fr).deleteRecord sc.curRec).2) hdr
      { (Function.update bm.bufPool fr ((bm.bufPool fr).deleteRecord sc.curRec).2) hdr with
        recCnt := wrap32 (((Function.update bm.bufPool fr
          ((bm.bufPool fr).deleteRecord sc.curRec).2) hdr).recCnt - 1) }) },
    ?_, ?_, ?_, ?_, rfl, rfl, ?_, ?_⟩
  · unfold deleteRecord
    rw [hc, hh]
  · unfold HeapFile.getRecCnt
    rw [hh]
  · unfold HeapFile.getRecCnt
    dsimp only
    rw [hh]
    dsimp only
    rw [Function.update_same]
    dsimp only
    rw [hrec, wrap32_of_range _ (by omega) (by omega)]
  · dsimp only
    exact hslots _ rfl
  · intro i h1 h2
    dsimp only
    rw [Function.update_noteq h2, Function.update_noteq h1]
  · intro hok fuel tmpRid rid hs hm
    obtain ⟨rec, hget⟩ := recordLoop_matched fsub _ _ fuel tmpRid rid hm
    have hsl := hslots { (Function.update bm.bufPool fr
        ((bm.bufPool fr).deleteRecord sc.curRec).2) hdr with
        recCnt := wrap32 (((Function.update bm.bufPool fr
          ((bm.bufPool fr).deleteRecord sc.curRec).2) hdr).recCnt - 1) } rfl
    have hdel := Page.deleteRecord_getRecord (bm.bufPool fr) sc.curRec hok rid hs
    dsimp only at hget
    unfold Page.getRecord at hget hdel
    rw [hsl] at hget
    rw [hget] at hdel
    exact absurd hdel (by simp)

end HeapFileScan

/-- The run of the design's example: on the keys 1 to 5 the scan for `EQ 3`
stops on RID (2, 2); `deleteRecord` returns `OK`; `getRecCnt` goes from 5 to
4; the next `scanNext` returns `FILEEOF`, and so does a new scan for `EQ 3`
after the file is closed and opened again. -/
theorem deleteRun_eq :
    deleteRun = some (⟨2, 2⟩, Status.OK, some 5, some 4, Status.FILEEOF, some 4,
      Status.FILEEOF) :=
  rfl

/-- The contract of `deleteRecord` at the scan of the keys 1 to 5 that has
stopped on the record matching `EQ 3`. -/
theorem deleteRecord_contract_witness :
    ∃ rid sc bm bm1, scanAtThree = some (rid, sc, bm) ∧
      HeapFileScan.deleteRecord sc bm =
        some (Status.OK, { sc with curDirtyFlag := true, hdrDirtyFlag := true }, bm1) ∧
      HeapFile.getRecCnt sc bm = some 5 ∧
      HeapFile.getRecCnt { sc with curDirtyFlag := true, hdrDirtyFlag := true } bm1 = some 4 ∧
      ∀ (fuel : Nat) (tmpRid : RID),
        HeapFileScan.recordLoop noFloat { sc with curDirtyFlag := true, hdrDirtyFlag := true }
          (bm1.bufPool 1) fuel tmpRid ≠ some (HeapFileScan.RecordScan.matched rid) := by
  have h : ∃ rid sc bm, scanAtThree = some (rid, sc, bm) ∧ sc.curPage = some 1 ∧
      sc.headerPage = some 0 ∧ (bm.bufPool 0).recCnt = 5 ∧ sc.curRec = rid ∧
      ((bm.bufPool 1).deleteRecord sc.curRec).1 = Status.OK :=
    ⟨_, _, _, rfl, rfl, rfl, rfl, rfl, rfl⟩
  obtain ⟨rid, sc, bm, hs, hc, hh, hcnt, hrid, hok⟩ := h
  obtain ⟨bm1, h1, h2, h3, -, -, -, -, h8⟩ :=
    HeapFileScan.deleteRecord_contract noFloat sc bm 1 0 hc hh (by rw [hcnt]; decide)
      (by rw [hcnt]; decide)
  rw [hok] at h1
  rw [hcnt] at h2 h3
  exact ⟨rid, sc, bm, bm1, hs, h1, h2, h3,
    fun fuel tmpRid => h8 hok fuel tmpRid rid (by rw [hrid])⟩

/-! ## Pinned frames survive `allocBuf` -/

namespace BufMgr

variable {σ : Type} {N : Nat}

/-- Erasing entries that do not carry the key `(file, pageNo)` does not change
what `lookup` finds for that key. -/
theorem lookup_eraseP_of_ne (file : Option File) (pageNo : Int) (P : HashEntry N → Bool) :
    ∀ ht : List (HashEntry N), (∀ e ∈ ht, P e = true → e.hasKey file pageNo = false) →
      BufHashTbl.lookup (ht.eraseP P) file pageNo = BufHashTbl.lookup ht file pageNo := by
  intro ht
  induction ht with
  | nil => intro _; rfl
  | cons a l ih =>
    intro hP
    by_cases hPa : P a = true
    · have e1 : (a :: l).eraseP P = l := List.eraseP_cons_of_pos hPa
      have hk := hP a (List.mem_cons_self _ _) hPa
      rw [e1]
      unfold BufHashTbl.lookup
      simp only [List.find?_cons, hk]
    · have e1 : (a :: l).eraseP P = a :: l.eraseP P := List.eraseP_cons_of_neg hPa
      have ih1 := ih (fun e he => hP e (List.mem_cons_of_mem _ he))
      rw [e1]
      unfold BufHashTbl.lookup at ih1 ⊢
      cases hk : a.hasKey file pageNo with
      | true => simp only [List.find?_cons, hk]
      | false =>
        simp only [List.find?_cons, hk]
        exact ih1

/-- In a well-formed pool, the frame that `lookup` finds for a key is the only
valid frame whose descriptor carries that key. -/
theorem WFcore.lookup_frame {s : BufMgr σ N} (hw : WFcore s) (file : Option File) (pageNo : Int)
    (i j : Fin N) (hl : BufHashTbl.lookup s.hashTable file pageNo = some i)
    (hv : (s.bufTable j).valid = true) (hf : (s.bufTable j).file = file)
    (hp : (s.bufTable j).pageNo = pageNo) : i = j := by
  obtain ⟨h1, h2, h3, -⟩ := hw
  obtain ⟨e, he, hk1, hk2, hfr⟩ := BufHashTbl.lookup_eq_some hl
  obtain ⟨ej, hej, hej2⟩ := h3 j hv
  have q := h2 ej hej
  rw [hej2] at q
  have hkey : (fun e : HashEntry N => (e.file, e.pageNo)) e =
      (fun e : HashEntry N => (e.file, e.pageNo)) ej := by
    have : some e.file = some ej.file := by rw [hk1, ← hf, q.2.1]
    simp only [Prod.mk.injEq]
    exact ⟨Option.some.inj this, by rw [hk2, ← hp, q.2.2]⟩
  have := List.inj_on_of_nodup_map h1 he hej hkey
  rw [← hfr, this, hej2]

/-- What the eviction of the valid frame under the clock hand leaves alone in
a well-formed pool: the frame contents, every other descriptor, and the index
entries of every other frame. -/
theorem evict_keeps {s : BufMgr σ N} (hw : WFcore s)
    (hv : (s.bufTable s.clockHand).valid = true) :
    s.evict.2.2.bufPool = s.bufPool ∧
    (∀ i, i ≠ s.clockHand → s.evict.2.2.bufTable i = s.bufTable i) ∧
    (∀ file pageNo i, BufHashTbl.lookup s.hashTable file pageNo = some i → i ≠ s.clockHand →
      BufHashTbl.lookup s.evict.2.2.hashTable file pageNo = some i) ∧
    (∀ e ∈ s.hashTable, e.frameNo ≠ s.clockHand → e ∈ s.evict.2.2.hashTable) ∧
    (∀ e ∈ s.evict.2.2.hashTable, e ∈ s.hashTable) := by
  have hht : s.evict.2.2.hashTable = s.hashTable.eraseP
      (fun e => e.hasKey (s.bufTable s.clockHand).file (s.bufTable s.clockHand).pageNo) := by
    simp only [evict]
    exact BufHashTbl_remove_snd _ _ _
  refine ⟨rfl, ?_, ?_, ?_, ?_⟩
  · intro i hi
    simp only [evict]
    rw [Function.update_noteq hi]
  · intro file pageNo i hl hi
    rw [hht, lookup_eraseP_of_ne, hl]
    intro e he hk
    rw [hasKey_iff] at hk
    by_contra hk2
    have hk3 : e.hasKey file pageNo = true := by simpa using hk2
    rw [hasKey_iff] at hk3
    apply hi
    apply hw.lookup_frame file pageNo i s.clockHand hl hv
    · rw [← hk.1, hk3.1]
    · rw [← hk.2, hk3.2]
  · intro e he hfr
    rw [hht]
    apply (List.mem_eraseP_of_neg _).2 he
    intro hk
    rw [hasKey_iff] at hk
    apply hfr
    have hl : BufHashTbl.lookup s.hashTable (s.bufTable s.clockHand).file
        (s.bufTable s.clockHand).pageNo ≠ none := by
      rw [Ne, BufHashTbl.lookup_eq_none_iff]
      intro hall
      exact hall e he hk
    obtain ⟨i, hi⟩ := Option.ne_none_iff_exists'.1 hl
    have h1 := hw.lookup_frame _ _ i s.clockHand hi hv rfl rfl
    have q := hw.2.1 e he
    have h2 := hw.lookup_frame _ _ i e.frameNo hi q.1 (by rw [q.2.1, hk.1]) (by rw [q.2.2, hk.2])
    rw [← h2, h1]
  · intro e he
    rw [hht] at he
    exact List.mem_of_mem_eraseP he

end BufMgr

namespace BufMgr

variable {σ : Type} {N : Nat}

theorem keepsBut_refl (s : BufMgr σ N) (h : Fin N) : keepsBut s s h :=
  ⟨rfl, fun _ _ => rfl, fun _ _ _ hl _ => hl, fun _ he _ => he, fun _ he => he⟩

theorem keepsBut_congr {s s1 t : BufMgr σ N} {h : Fin N} (hk : keepsBut s1 t h)
    (hp : s1.bufPool = s.bufPool) (ht : s1.bufTable = s.bufTable)
    (hh : s1.hashTable = s.hashTable) : keepsBut s t h := by
  unfold keepsBut at hk ⊢
  rw [hp, ht, hh] at hk
  exact hk

/-- The last iteration of the clock loop, in a well-formed pool: the frame
under the hand is unpinned, a status `OK` comes with that frame, the status is
`OK` or `UNIXERR`, and the state differs at most in that frame. -/
theorem clockFinal_keeps (ops : FileOps σ) {s1 : BufMgr σ N}
    {r : Status × Option (Fin N) × BufMgr σ N} (hf : clockFinal ops s1 r) (hw : WFcore s1) :
    keepsBut s1 r.2.2 s1.clockHand ∧ (s1.bufTable s1.clockHand).pinCnt = 0 ∧
    (r.1 = Status.OK ∨ r.1 = Status.UNIXERR) ∧
    (r.1 = Status.OK → r.2.1 = some s1.clockHand) ∧ (r.1 ≠ Status.OK → r.2.1 = none) ∧
    ((r.2.2.bufTable s1.clockHand).refbit = true →
      (s1.bufTable s1.clockHand).refbit = true) := by
  unfold clockFinal at hf
  dsimp only at hf
  rcases hf with ⟨hv, rfl⟩ | ⟨hv, -, hp, -, rfl⟩ | ⟨hv, -, hp, -, f, -, hw2⟩
  · exact ⟨keepsBut_refl _ _, (hw.2.2.2 _ hv).1, Or.inl rfl, fun _ => rfl,
      fun h => absurd rfl h, fun h => h⟩
  · refine ⟨evict_keeps hw hv, hp, Or.inl rfl, fun _ => rfl, fun h => absurd rfl h, ?_⟩
    intro h
    simp [evict, BufDesc.Clear] at h
  · rcases hw2 with ⟨-, rfl⟩ | ⟨-, rfl⟩
    · refine ⟨?_, hp, Or.inl rfl, fun _ => rfl, fun h => absurd rfl h, ?_⟩
      · exact keepsBut_congr
          (evict_keeps (s := { s1 with
            disk := (ops.writePage s1.disk f (s1.bufTable s1.clockHand).pageNo
              (s1.bufPool s1.clockHand)).2
            calls := s1.calls ++ [StoreCall.write f (s1.bufTable s1.clockHand).pageNo
              (s1.bufPool s1.clockHand)] }) (WFcore_congr rfl rfl hw) hv) rfl rfl rfl
      · intro h
        simp [evict, BufDesc.Clear] at h
    · exact ⟨keepsBut_congr (keepsBut_refl _ _) rfl rfl rfl, hp, Or.inr rfl,
        fun h => absurd h (by simp), fun _ => rfl, fun h => h⟩

/-- The clock loop sets no reference bit. -/
theorem clockLoop_refbit (ops : FileOps σ) :
    ∀ (fuel : Nat) (s : BufMgr σ N) (r : Status × Option (Fin N) × BufMgr σ N),
      clockLoop ops fuel s = some r →
      ∀ i, (r.2.2.bufTable i).refbit = true → (s.bufTable i).refbit = true := by
  intro fuel
  induction fuel with
  | zero => intro s r h; simp [clockLoop] at h
  | succ n ih =>
    intro s r h i hi
    rw [clockLoop] at h
    dsimp only at h
    have hevict : ∀ t : BufMgr σ N, t.bufTable = s.bufTable →
        (t.evict.2.2.bufTable i).refbit = true → (s.bufTable i).refbit = true := by
      intro t ht hr
      simp only [evict] at hr
      by_cases hi2 : i = t.clockHand
      · rw [hi2, Function.update_same] at hr
        simp [BufDesc.Clear] at hr
      · rw [Function.update_noteq hi2, ht] at hr
        exact hr
    split at h
    · simp only [Option.some.injEq] at h
      rw [← h] at hi
      exact hi
    · split at h
      · have := ih _ r h i hi
        by_cases hi2 : i = s.advanceClock.clockHand
        · rw [hi2] at this
          dsimp only at this
          rw [Function.update_same] at this
          exact absurd this (by simp)
        · dsimp only at this
          rw [Function.update_noteq hi2] at this
          exact this
      · split at h
        · exact ih _ r h i hi
        · split at h
          · split at h
            · exact absurd h (by simp)
            · split at h
              · simp only [Option.some.injEq] at h
                rw [← h] at hi
                exact hi
              · simp only [Option.some.injEq] at h
                rw [← h] at hi
                refine hevict _ ?_ hi
                rfl
          · simp only [Option.some.injEq] at h
            rw [← h] at hi
            refine hevict _ ?_ hi
            rfl

/-- More iterations do not change what the clock loop returns. -/
theorem clockLoop_mono (ops : FileOps σ) :
    ∀ (fuel : Nat) (s : BufMgr σ N) (r : Status × Option (Fin N) × BufMgr σ N),
      clockLoop ops fuel s = some r → ∀ k, clockLoop ops (fuel + k) s = some r := by
  intro fuel
  induction fuel with
  | zero => intro s r h; simp [clockLoop] at h
  | succ n ih =>
    intro s r h k
    rw [Nat.succ_add, clockLoop]
    rw [clockLoop] at h
    dsimp only at h ⊢
    split
    · rename_i hv
      rw [if_pos hv] at h
      exact h
    · rename_i hv
      rw [if_neg hv] at h
      split
      · rename_i hr
        rw [if_pos hr] at h
        exact ih _ r h k
      · rename_i hr
        rw [if_neg hr] at h
        split
        · rename_i hp
          rw [if_pos hp] at h
          exact ih _ r h k
        · rename_i hp
          rw [if_neg hp] at h
          exact h

/-- What `allocBuf` leaves alone in a well-formed pool: the frame contents;
the descriptor (but for the reference bit, which it may clear) and the index
entries of every pinned frame; it adds no index entry; and the frame it hands
out was unpinned. -/
theorem allocBuf_pinned (ops : FileOps σ) {s : BufMgr σ N} (hw : WFcore s)
    {r : Status × Option (Fin N) × BufMgr σ N} (h : allocBuf ops s = some r) :
    r.2.2.bufPool = s.bufPool ∧
    (∀ e ∈ r.2.2.hashTable, e ∈ s.hashTable) ∧
    (∀ i, (s.bufTable i).pinCnt ≠ 0 →
      sameButRef (s.bufTable i) (r.2.2.bufTable i) ∧ r.2.1 ≠ some i ∧
      (∀ file pageNo, BufHashTbl.lookup s.hashTable file pageNo = some i →
        BufHashTbl.lookup r.2.2.hashTable file pageNo = some i) ∧
      (∀ e ∈ s.hashTable, e.frameNo = i → e ∈ r.2.2.hashTable)) ∧
    (∀ fr, r.2.1 = some fr → (s.bufTable fr).pinCnt = 0) ∧
    (∀ i, (r.2.2.bufTable i).refbit = true → (s.bufTable i).refbit = true) := by
  rcases allocBuf_post ops s r h with ⟨-, rfl⟩ | ⟨hex, s1, he, hf⟩
  · exact ⟨rfl, fun _ he => he, fun i _ => ⟨sameButRef_refl _, by simp, fun _ _ hl => hl,
      fun _ he _ => he⟩, fun fr hfr => absurd hfr (by simp), fun _ hi => hi⟩
  · have hw1 := WFcore_clockEquiv he hw
    obtain ⟨⟨k1, k2, k3, k4, k5⟩, hp0, hst, hok, hno, -⟩ := clockFinal_keeps ops hf hw1
    obtain ⟨hd, hpool, hht, -, -, -⟩ := he
    have hfld := fun i => sameButRef_fields (hd i)
    have hpin : (s.bufTable s1.clockHand).pinCnt = 0 := by
      rw [← (hfld _).2.2.2.1]
      exact hp0
    have hfr : ∀ fr, r.2.1 = some fr → fr = s1.clockHand := by
      intro fr hfr
      rcases hst with h1 | h1
      · rw [hok h1] at hfr
        exact (Option.some.inj hfr).symm
      · rw [hno (by rw [h1]; simp)] at hfr
        exact absurd hfr (by simp)
    refine ⟨by rw [k1, hpool], fun e he => by rw [← hht]; exact k5 e he, ?_, ?_, ?_⟩
    · intro i hi
      have hne : i ≠ s1.clockHand := fun e => hi (by rw [e]; exact hpin)
      refine ⟨by rw [k2 i hne]; exact hd i, fun hfr2 => hne (hfr i hfr2), ?_, ?_⟩
      · intro file pageNo hl
        rw [← hht] at hl
        exact k3 file pageNo i hl hne
      · intro e hmem hfr2
        rw [← hht] at hmem
        exact k4 e hmem (by rw [hfr2]; exact hne)
    · intro fr hfr2
      rw [hfr fr hfr2]
      exact hpin
    · intro i hi
      unfold allocBuf at h
      rw [if_neg (by simp [hex])] at h
      exact clockLoop_refbit ops _ s r h i hi

/-- When the pre-scan of `allocBuf` passes, the status is `OK` or `UNIXERR`. -/
theorem allocBuf_status (ops : FileOps σ) {s : BufMgr σ N}
    {r : Status × Option (Fin N) × BufMgr σ N} (h : allocBuf ops s = some r)
    (hex : s.exceeded = false) : r.1 = Status.OK ∨ r.1 = Status.UNIXERR := by
  rcases allocBuf_post ops s r h with ⟨hex1, -⟩ | ⟨-, s1, -, hf⟩
  · rw [hex] at hex1
    exact absurd hex1 (by simp)
  · unfold clockFinal at hf
    dsimp only at hf
    rcases hf with ⟨-, rfl⟩ | ⟨-, -, -, -, rfl⟩ | ⟨-, -, -, -, f, -, hw2⟩
    · exact Or.inl rfl
    · exact Or.inl rfl
    · rcases hw2 with ⟨-, rfl⟩ | ⟨-, rfl⟩
      · exact Or.inl rfl
      · exact Or.inr rfl

end BufMgr

/-! ## `allocBuf`: the pre-scan, pinned frames, termination -/

namespace BufMgr

variable {σ : Type} {N : Nat}

/-- The clock hand after a run of the clock loop that took exactly `k`
iterations is `k` positions further, modulo `N`. -/
theorem clockLoop_hand (ops : FileOps σ) :
    ∀ (k : Nat) (s : BufMgr σ N) (r : Status × Option (Fin N) × BufMgr σ N),
      clockLoop ops k s = some r → (∀ k1, k1 < k → clockLoop ops k1 s = none) →
      r.2.2.clockHand.val = (s.clockHand.val + k) % N := by
  intro k
  induction k with
  | zero => intro s r h; simp [clockLoop] at h
  | succ n ih =>
    intro s r h hmin
    have hstop : clockLoop ops 1 s = some r → r.2.2.clockHand = s.advanceClock.clockHand →
        r.2.2.clockHand.val = (s.clockHand.val + (n + 1)) % N := by
      intro h1 hh
      have hn : n = 0 := by
        by_contra hne
        have := hmin 1 (by omega)
        rw [h1] at this
        exact absurd this (by simp)
      rw [hh, hn]
      rfl
    have hrec : ∀ t : BufMgr σ N, t.clockHand = s.advanceClock.clockHand →
        clockLoop ops n t = some r → (∀ k1, clockLoop ops (k1 + 1) s = clockLoop ops k1 t) →
        r.2.2.clockHand.val = (s.clockHand.val + (n + 1)) % N := by
      intro t ht h1 hstep
      have := ih t r h1 (fun k1 hk1 => by rw [← hstep k1]; exact hmin (k1 + 1) (by omega))
      rw [this, ht]
      show ((s.clockHand.val + 1) % N + n) % N = (s.clockHand.val + (n + 1)) % N
      rw [Nat.mod_add_mod]
      congr 1
      omega
    rw [clockLoop] at h
    dsimp only at h
    by_cases hv : (!(s.advanceClock.bufTable s.advanceClock.clockHand).valid) = true
    · rw [if_pos hv] at h
      refine hstop ?_ ?_
      · rw [clockLoop]
        dsimp only
        rw [if_pos hv]
        exact h
      · simp only [Option.some.injEq] at h
        rw [← h]
    · rw [if_neg hv] at h
      by_cases hr : (s.advanceClock.bufTable s.advanceClock.clockHand).refbit = true
      · rw [if_pos hr] at h
        refine hrec _ ?_ h ?_
        · rfl
        · intro k1
          rw [clockLoop]
          dsimp only
          rw [if_neg hv, if_pos hr]
      · rw [if_neg hr] at h
        by_cases hp : ((s.advanceClock.bufTable s.advanceClock.clockHand).pinCnt != 0) = true
        · rw [if_pos hp] at h
          refine hrec _ ?_ h ?_
          · rfl
          · intro k1
            rw [clockLoop]
            dsimp only
            rw [if_neg hv, if_neg hr, if_pos hp]
        · rw [if_neg hp] at h
          refine hstop ?_ ?_
          · rw [clockLoop]
            dsimp only
            rw [if_neg hv, if_neg hr, if_neg hp]
            exact h
          · split at h
            · split at h
              · exact absurd h (by simp)
              · split at h
                · simp only [Option.some.injEq] at h
                  rw [← h]
                · simp only [Option.some.injEq] at h
                  rw [← h]
                  rfl
            · simp only [Option.some.injEq] at h
              rw [← h]
              rfl

/-- C18: `allocBuf` returns `BUFFEREXCEEDED` exactly when every frame has
`pinCnt > 0`, and then the whole state (descriptors, reference bits, index,
clock hand) is unchanged and no frame is handed out; when some frame has
`pinCnt = 0` (and no valid frame has a null `File*`) it returns, with status
`OK` or `UNIXERR`. -/
theorem allocBuf_bufferExceeded (ops : FileOps σ) (s : BufMgr σ N) :
    ((∀ j, 0 < (s.bufTable j).pinCnt) →
      allocBuf ops s = some (Status.BUFFEREXCEEDED, none, s)) ∧
    ((∃ j, (s.bufTable j).pinCnt = 0) →
      (∀ i, (s.bufTable i).valid = true → (s.bufTable i).file ≠ none) →
      ∃ r, allocBuf ops s = some r ∧ (r.1 = Status.OK ∨ r.1 = Status.UNIXERR)) ∧
    (∀ r, allocBuf ops s = some r →
      (r.1 = Status.BUFFEREXCEEDED ↔ ∀ j, 0 < (s.bufTable j).pinCnt) ∧
      (r.1 = Status.BUFFEREXCEEDED → r.2.2 = s ∧ r.2.1 = none)) := by
  have hpos : (∀ j, 0 < (s.bufTable j).pinCnt) ↔ s.exceeded = true := by
    rw [exceeded_eq_true_iff]
    exact forall_congr' (fun j => Nat.pos_iff_ne_zero)
  refine ⟨?_, ?_, ?_⟩
  · intro hall
    unfold allocBuf
    rw [if_pos (hpos.1 hall)]
  · intro hj hfile
    have hex := (exceeded_eq_false_iff s).2 hj
    obtain ⟨r, hr⟩ := Option.isSome_iff_exists.1 (allocBuf_isSome ops s hfile)
    exact ⟨r, hr, allocBuf_status ops hr hex⟩
  · intro r hr
    rw [hpos]
    cases hex : s.exceeded with
    | true =>
      unfold allocBuf at hr
      rw [if_pos hex] at hr
      simp only [Option.some.injEq] at hr
      rw [← hr]
      exact ⟨⟨fun _ => rfl, fun _ => rfl⟩, fun _ => ⟨rfl, rfl⟩⟩
    | false =>
      have hst := allocBuf_status ops hr hex
      have hne : r.1 ≠ Status.BUFFEREXCEEDED := by
        rcases hst with h1 | h1 <;> rw [h1] <;> simp
      exact ⟨⟨fun h => absurd h hne, fun h => absurd h (by simp)⟩, fun h => absurd h hne⟩

/-- The pre-scan on two pools: with both frames pinned `allocBuf` returns
`BUFFEREXCEEDED` and the state is unchanged; with one frame unpinned it
returns, with `OK` or `UNIXERR`. -/
theorem allocBuf_bufferExceeded_witness :
    allocBuf memOps poolFull = some (Status.BUFFEREXCEEDED, none, poolFull) ∧
    ∃ r, allocBuf memOps pool2 = some r ∧ (r.1 = Status.OK ∨ r.1 = Status.UNIXERR) :=
  ⟨(allocBuf_bufferExceeded memOps poolFull).1 (by decide),
    (allocBuf_bufferExceeded memOps pool2).2.1 ⟨1, by decide⟩ (by decide)⟩

/-- C19: in a well-formed pool, when `allocBuf` returns `OK` it hands out a
frame whose `pinCnt` was 0 before the call, and every frame that had
`pinCnt > 0` is another frame and keeps its `file`, `pageNo`, `pinCnt`,
`dirty` and `valid` fields, its contents and its index entries (under the
same keys); its reference bit may only have been cleared. -/
theorem allocBuf_keeps_pinned (ops : FileOps σ) (s : BufMgr σ N) (hs : WF s)
    (fro : Option (Fin N)) (s' : BufMgr σ N)
    (h : allocBuf ops s = some (Status.OK, fro, s')) :
    ∃ fr, fro = some fr ∧ (s.bufTable fr).pinCnt = 0 ∧
      ∀ i, 0 < (s.bufTable i).pinCnt →
        i ≠ fr ∧
        (s'.bufTable i).file = (s.bufTable i).file ∧
        (s'.bufTable i).pageNo = (s.bufTable i).pageNo ∧
        (s'.bufTable i).pinCnt = (s.bufTable i).pinCnt ∧
        (s'.bufTable i).dirty = (s.bufTable i).dirty ∧
        (s'.bufTable i).valid = (s.bufTable i).valid ∧
        ((s'.bufTable i).refbit = true → (s.bufTable i).refbit = true) ∧
        s'.bufPool i = s.bufPool i ∧
        (∀ e, e.frameNo = i → (e ∈ s'.hashTable ↔ e ∈ s.hashTable)) ∧
        (∀ file pageNo, BufHashTbl.lookup s.hashTable file pageNo = some i →
          BufHashTbl.lookup s'.hashTable file pageNo = some i) := by
  have hw := (WF_iff_WFcore s).1 hs
  obtain ⟨fr, hfr, -⟩ := (allocBuf_WFcore ops h hw).2 rfl
  obtain ⟨hpool, hsub, hpin, hsel, href⟩ := allocBuf_pinned ops hw h
  dsimp only at hfr hpool hsub hpin hsel href
  refine ⟨fr, hfr, hsel fr hfr, ?_⟩
  intro i hi
  obtain ⟨hd, hne, hl, hm⟩ := hpin i (Nat.pos_iff_ne_zero.1 hi)
  have hfld := sameButRef_fields hd
  refine ⟨fun e => hne (by rw [hfr, e]), hfld.1, hfld.2.1, hfld.2.2.2.1, hfld.2.2.2.2.1,
    hfld.2.2.2.2.2, href i, by rw [hpool], ?_, hl⟩
  intro e he
  exact ⟨fun hmem => hsub e hmem, fun hmem => hm e hmem he⟩

/-- The pinned frame of `pool2` (frame 0, pinned twice) survives the eviction
of frame 1. -/
theorem allocBuf_keeps_pinned_witness :
    ∃ s', allocBuf memOps pool2 = some (Status.OK, some 1, s') ∧
      (pool2.bufTable 1).pinCnt = 0 ∧
      (s'.bufTable 0).pinCnt = 2 ∧ s'.bufPool 0 = pool2.bufPool 0 ∧
      BufHashTbl.lookup s'.hashTable (some 7) 3 = some 0 := by
  have hex : ∃ s', allocBuf memOps pool2 = some (Status.OK, some 1, s') := ⟨_, rfl⟩
  obtain ⟨s', hs'⟩ := hex
  obtain ⟨fr, hfr, h0, hk⟩ := allocBuf_keeps_pinned memOps pool2 (by decide) _ s' hs'
  have hfr1 : fr = 1 := (Option.some.inj hfr).symm
  rw [hfr1] at h0
  obtain ⟨-, -, -, h3, -, -, -, h7, -, h9⟩ := hk 0 (by decide)
  exact ⟨s', hs', h0, by rw [h3]; rfl, h7, h9 (some 7) 3 (by decide)⟩

/-- C20: in a pool of `N ≥ 1` frames in which some frame has `pinCnt = 0` (and
no valid frame has a null `File*`), the clock loop of `allocBuf` returns after
some number `k` of iterations with `1 ≤ k ≤ 2 * N`, each of which advances the
hand once, with status `OK` or `UNIXERR`; this is the result of `allocBuf`;
and the clock hand is below `N` before the call and after it, where it is `k`
positions further modulo `N`. -/
theorem clockLoop_terminates (ops : FileOps σ) (s : BufMgr σ N) (j : Fin N)
    (hj : (s.bufTable j).pinCnt = 0)
    (hfile : ∀ i, (s.bufTable i).valid = true → (s.bufTable i).file ≠ none) :
    1 ≤ N ∧ s.clockHand.val < N ∧
    ∃ r k, 1 ≤ k ∧ k ≤ 2 * N ∧ clockLoop ops k s = some r ∧
      (∀ k1, k1 < k → clockLoop ops k1 s = none) ∧
      clockLoop ops (2 * N) s = some r ∧ allocBuf ops s = some r ∧
      (r.1 = Status.OK ∨ r.1 = Status.UNIXERR) ∧ r.2.2.clockHand.val < N ∧
      r.2.2.clockHand.val = (s.clockHand.val + k) % N := by
  refine ⟨Fin.pos j, s.clockHand.isLt, ?_⟩
  have hsome := clockLoop_isSome ops j (2 * N) s hj hfile (clockMeasure_le s j)
  obtain ⟨r, hr⟩ := Option.isSome_iff_exists.1 hsome
  have hex : s.exceeded = false := (exceeded_eq_false_iff s).2 ⟨j, hj⟩
  have halloc : allocBuf ops s = some r := by
    unfold allocBuf
    rw [if_neg (by simp [hex])]
    exact hr
  have hP : ∃ k, (clockLoop ops k s).isSome = true := ⟨2 * N, hsome⟩
  have hk1 := Nat.find_spec hP
  have hk2 : Nat.find hP ≤ 2 * N := Nat.find_min' hP hsome
  obtain ⟨r1, hr1⟩ := Option.isSome_iff_exists.1 hk1
  have hr2 := clockLoop_mono ops _ s r1 hr1 (2 * N - Nat.find hP)
  rw [Nat.add_sub_cancel' hk2, hr] at hr2
  have hrr : r1 = r := (Option.some.inj hr2).symm
  rw [hrr] at hr1
  have hmin : ∀ k1, k1 < Nat.find hP → clockLoop ops k1 s = none := by
    intro k1 hk
    have := Nat.find_min hP hk
    simpa using this
  have hpos : 1 ≤ Nat.find hP := by
    by_contra h0
    have h00 : Nat.find hP = 0 := by omega
    rw [h00] at hr1
    simp [clockLoop] at hr1
  exact ⟨r, Nat.find hP, hpos, hk2, hr1, hmin, hr, halloc, allocBuf_status ops halloc hex,
    r.2.2.clockHand.isLt, clockLoop_hand ops _ s r hr1 hmin⟩

/-- The clock loop on `pool2` (hand on frame 1, frame 0 pinned, frame 1
unpinned): it returns within 4 iterations. -/
theorem clockLoop_terminates_witness :
    ∃ r k, k ≤ 2 * 2 ∧ clockLoop memOps k pool2 = some r ∧
      (r.1 = Status.OK ∨ r.1 = Status.UNIXERR) ∧ r.2.2.clockHand.val < 2 := by
  obtain ⟨-, -, r, k, -, h2, h3, -, -, -, h7, h8, -⟩ :=
    clockLoop_terminates memOps pool2 1 (by decide) (by decide)
  exact ⟨r, k, h2, h3, h7, h8⟩

end BufMgr

/-! ## Pinned pages survive `readPage` -/

namespace BufMgr

variable {σ : Type} {N : Nat}

theorem Holds_refl (a : BufMgr σ N) : Holds a a :=
  fun _ _ _ hl hp => ⟨hl, hp, rfl⟩

theorem Holds_trans {a b c : BufMgr σ N} (h1 : Holds a b) (h2 : Holds b c) : Holds a c := by
  intro file pageNo fr hl hp
  obtain ⟨hl1, hp1, hc1⟩ := h1 file pageNo fr hl hp
  obtain ⟨hl2, hp2, hc2⟩ := h2 file pageNo fr hl1 hp1
  exact ⟨hl2, hp2, by rw [hc2, hc1]⟩

/-- Pages pinned in `a` stay resident when, after `b`, only descriptors
change. -/
theorem Holds.resides {a b c : BufMgr σ N} (h : Holds a b) (hh : c.hashTable = b.hashTable)
    (hp : c.bufPool = b.bufPool) : Resides a c := by
  intro file pageNo fr hl hpin
  obtain ⟨hl1, -, hc1⟩ := h file pageNo fr hl hpin
  exact ⟨by rw [hh]; exact hl1, by rw [hp, hc1]⟩

theorem Resides.frames {a b c : BufMgr σ N} (h : Resides a b) (hh : c.hashTable = b.hashTable)
    (hp : c.bufPool = b.bufPool) : Resides a c := by
  intro file pageNo fr hl hpin
  obtain ⟨hl1, hc1⟩ := h file pageNo fr hl hpin
  exact ⟨by rw [hh]; exact hl1, by rw [hp, hc1]⟩

theorem lookup_cons_self (ht : List (HashEntry N)) (file : File) (pageNo : Int) (fr : Fin N) :
    BufHashTbl.lookup (⟨file, pageNo, fr⟩ :: ht) (some file) pageNo = some fr := by
  simp [BufHashTbl.lookup, HashEntry.hasKey]

theorem lookup_cons_ne (ht : List (HashEntry N)) (e : HashEntry N) (file : Option File)
    (pageNo : Int) (h : ¬ (some e.file = file ∧ e.pageNo = pageNo)) :
    BufHashTbl.lookup (e :: ht) file pageNo = BufHashTbl.lookup ht file pageNo := by
  have hk : e.hasKey file pageNo = false := by
    cases hk : e.hasKey file pageNo with
    | false => rfl
    | true => exact absurd ((hasKey_iff _ _ _).1 hk) h
  unfold BufHashTbl.lookup
  simp only [List.find?_cons, hk]

/-- A successful `insert` puts the new entry in front. -/
theorem insert_ok_snd (ht : List (HashEntry N)) (file : File) (pageNo : Int) (fr : Fin N)
    (h : ¬ (BufHashTbl.insert ht file pageNo fr).1 ≠ Status.OK) :
    (BufHashTbl.insert ht file pageNo fr).2 = ⟨file, pageNo, fr⟩ :: ht := by
  unfold BufHashTbl.insert at h ⊢
  split
  · rename_i hany
    rw [if_pos hany] at h
    exact absurd (by simp) h
  · rfl

/-- `readPage` of a resident page: the frame is pinned once more and nothing
else changes. -/
theorem readPage_hit (ops : FileOps σ) (s : BufMgr σ N) (file : File) (PageNo : Int)
    (fr : Fin N) (h : BufHashTbl.lookup s.hashTable (some file) PageNo = some fr) :
    readPage ops s file PageNo = some (Status.OK, some fr,
      { s with bufTable := Function.update s.bufTable fr
                 { s.bufTable fr with refbit := true, pinCnt := (s.bufTable fr).pinCnt + 1 } }) := by
  unfold readPage
  rw [h]

/-- The possible results of `readPage`: a hit; a miss that fails, after which
index and descriptors are those `allocBuf` left and at most the frame handed
out has new contents; a miss that succeeds, after which the frame handed out
has new contents, a new descriptor and a new index entry in front. -/
theorem readPage_shape (ops : FileOps σ) (s : BufMgr σ N) (file : File) (PageNo : Int)
    (st : Status) (pg : Option (Fin N)) (t : BufMgr σ N)
    (h : readPage ops s file PageNo = some (st, pg, t)) :
    (∃ fr, BufHashTbl.lookup s.hashTable (some file) PageNo = some fr ∧ st = Status.OK ∧
      pg = some fr ∧ t.hashTable = s.hashTable ∧ t.bufPool = s.bufPool ∧
      t.bufTable = Function.update s.bufTable fr
        { s.bufTable fr with refbit := true, pinCnt := (s.bufTable fr).pinCnt + 1 }) ∨
    (BufHashTbl.lookup s.hashTable (some file) PageNo = none ∧
      ∃ a fro s1, allocBuf ops s = some (a, fro, s1) ∧
        ((st ≠ Status.OK ∧ pg = none ∧ t.hashTable = s1.hashTable ∧ t.bufTable = s1.bufTable ∧
            (t.bufPool = s1.bufPool ∨
              ∃ fr pgc, fro = some fr ∧ t.bufPool = Function.update s1.bufPool fr pgc)) ∨
          (st = Status.OK ∧ ∃ fr pgc, fro = some fr ∧ pg = some fr ∧
            t.hashTable = ⟨file, PageNo, fr⟩ :: s1.hashTable ∧
            t.bufTable = Function.update s1.bufTable fr ((s1.bufTable fr).Set file PageNo) ∧
            t.bufPool = Function.update s1.bufPool fr pgc))) := by
  unfold readPage at h
  split at h
  · rename_i hl
    refine Or.inr ⟨hl, ?_⟩
    split at h
    · exact absurd h (by simp)
    · rename_i a fro s1 halloc
      refine ⟨a, fro, s1, halloc, ?_⟩
      dsimp only at h
      split at h
      · rename_i hst
        simp only [Option.some.injEq, Prod.mk.injEq] at h
        obtain ⟨h1, h2, h3⟩ := h
        subst h1 h2 h3
        exact Or.inl ⟨hst, rfl, rfl, rfl, Or.inl rfl⟩
      · split at h
        · exact absurd h (by simp)
        · rename_i frameNo
          split at h
          · rename_i hrd
            simp only [Option.some.injEq, Prod.mk.injEq] at h
            obtain ⟨h1, h2, h3⟩ := h
            subst h1 h2 h3
            exact Or.inl ⟨hrd, rfl, rfl, rfl, Or.inr ⟨frameNo, _, rfl, rfl⟩⟩
          · split at h
            · rename_i hins
              simp only [Option.some.injEq, Prod.mk.injEq] at h
              obtain ⟨h1, h2, h3⟩ := h
              subst h1 h2 h3
              exact Or.inl ⟨hins, rfl, insert_fail_snd _ _ _ _ hins, rfl,
                Or.inr ⟨frameNo, _, rfl, rfl⟩⟩
            · rename_i hins
              simp only [Option.some.injEq, Prod.mk.injEq] at h
              obtain ⟨h1, h2, h3⟩ := h
              subst h1 h2 h3
              exact Or.inr ⟨rfl, frameNo, _, rfl, rfl, insert_ok_snd _ _ _ _ hins, rfl, rfl⟩
  · rename_i fr hl
    simp only [Option.some.injEq, Prod.mk.injEq] at h
    obtain ⟨h1, h2, h3⟩ := h
    subst h1 h2 h3
    exact Or.inl ⟨fr, hl, rfl, rfl, rfl, rfl, rfl⟩

/-- After a successful `readPage` the page is in the index under the frame
returned, and that frame is pinned. -/
theorem readPage_ok_pinned (ops : FileOps σ) (s : BufMgr σ N) (file : File) (PageNo : Int)
    (pg : Option (Fin N)) (t : BufMgr σ N)
    (h : readPage ops s file PageNo = some (Status.OK, pg, t)) :
    ∃ fr, pg = some fr ∧ BufHashTbl.lookup t.hashTable (some file) PageNo = some fr ∧
      0 < (t.bufTable fr).pinCnt := by
  rcases readPage_shape ops s file PageNo _ pg t h with
    ⟨fr, hl, -, hpg, hht, -, htab⟩ | ⟨-, a, fro, s1, -, ⟨hst, -⟩ | ⟨-, fr, pgc, -, hpg, hht, htab, -⟩⟩
  · refine ⟨fr, hpg, by rw [hht]; exact hl, ?_⟩
    rw [htab, Function.update_same]
    exact Nat.succ_pos _
  · exact absurd rfl hst
  · refine ⟨fr, hpg, by rw [hht]; exact lookup_cons_self _ _ _ _, ?_⟩
    rw [htab, Function.update_same]
    exact Nat.one_pos

/-- In a well-formed pool, `readPage` leaves every pinned page pinned, in its
frame and with its contents, whatever it returns. -/
theorem readPage_holds (ops : FileOps σ) {s : BufMgr σ N} (hw : WFcore s) (file : File)
    (PageNo : Int) (st : Status) (pg : Option (Fin N)) (t : BufMgr σ N)
    (h : readPage ops s file PageNo = some (st, pg, t)) : Holds s t := by
  intro file1 pageNo1 i hl1 hp1
  rcases readPage_shape ops s file PageNo st pg t h with
    ⟨fr, hl, -, hpg, hht, hpool, htab⟩ | ⟨hl, a, fro, s1, halloc, hcase⟩
  · refine ⟨by rw [hht]; exact hl1, ?_, by rw [hpool]⟩
    rw [htab]
    by_cases e : i = fr
    · rw [e, Function.update_same]
      exact Nat.succ_pos _
    · rw [Function.update_noteq e]
      exact hp1
  · obtain ⟨hpool, -, hpin, -, -⟩ := allocBuf_pinned ops hw halloc
    dsimp only at hpool hpin
    obtain ⟨hd, hne, hlk, -⟩ := hpin i (Nat.pos_iff_ne_zero.1 hp1)
    have hpc : (s1.bufTable i).pinCnt = (s.bufTable i).pinCnt := (sameButRef_fields hd).2.2.2.1
    have hl2 := hlk (some file1) pageNo1 hl1
    rcases hcase with ⟨-, -, hht, htab, hp⟩ | ⟨-, fr, pgc, hfro, -, hht, htab, hp⟩
    · refine ⟨by rw [hht]; exact hl2, by rw [htab, hpc]; exact hp1, ?_⟩
      rcases hp with hp | ⟨fr, pgc, hfro, hp⟩
      · rw [hp, hpool]
      · have e : i ≠ fr := fun e => hne (by rw [hfro, e])
        rw [hp, Function.update_noteq e, hpool]
    · have e : i ≠ fr := fun e => hne (by rw [hfro, e])
      refine ⟨?_, ?_, ?_⟩
      · rw [hht, lookup_cons_ne]
        · exact hl2
        · rintro ⟨h1, h2⟩
          dsimp only at h1 h2
          rw [← h1, ← h2, hl] at hl1
          exact absurd hl1 (by simp)
      · rw [htab, Function.update_noteq e, hpc]
        exact hp1
      · rw [hp, Function.update_noteq e, hpool]

/-- `unPinPage` of a page that is in the index with a pinned frame succeeds. -/
theorem unPinPage_ok (s : BufMgr σ N) (file : File) (PageNo : Int) (dirty : Bool) (fr : Fin N)
    (hl : BufHashTbl.lookup s.hashTable (some file) PageNo = some fr)
    (hp : 0 < (s.bufTable fr).pinCnt) : (s.unPinPage file PageNo dirty).1 = Status.OK := by
  unfold unPinPage
  rw [hl]
  dsimp only
  rw [if_neg (Nat.pos_iff_ne_zero.1 hp)]

end BufMgr

/-! ## One iteration of the scan -/

namespace HeapFileScan

variable {σ : Type} {N : Nat}

/-- The loop `pageLoop` is the iteration of `pageStep`. -/
theorem pageLoop_step (ops : FileOps σ) (fsub : List Byte → List Byte → DiffClass) (f : Nat)
    (sc : HeapFileScan N) (bm : BufMgr σ N) :
    pageLoop ops fsub (f + 1) sc bm =
      match pageStep ops fsub sc bm with
      | PageStep.done r => some r
      | PageStep.more sc2 bm1 => pageLoop ops fsub f sc2 bm1
      | PageStep.stuck => none := by
  rw [pageLoop]
  unfold pageStep scanPage Page.getNextPage
  cases sc.curPage with
  | none => rfl
  | some fr =>
    dsimp only
    split
    · rfl
    · rfl
    · rfl
    · split
      · rfl
      · split
        · rfl
        · split <;> rfl

theorem sameFilter_refl (a : HeapFileScan N) : sameFilter a a :=
  ⟨rfl, rfl, rfl, rfl, rfl, rfl⟩

theorem sameFilter_trans {a b c : HeapFileScan N} (h1 : sameFilter a b) (h2 : sameFilter b c) :
    sameFilter a c :=
  ⟨h2.1.trans h1.1, h2.2.1.trans h1.2.1, h2.2.2.1.trans h1.2.2.1,
    h2.2.2.2.1.trans h1.2.2.2.1, h2.2.2.2.2.1.trans h1.2.2.2.2.1,
    h2.2.2.2.2.2.trans h1.2.2.2.2.2⟩

theorem sameFilter_symm {a b : HeapFileScan N} (h : sameFilter a b) : sameFilter b a :=
  ⟨h.1.symm, h.2.1.symm, h.2.2.1.symm, h.2.2.2.1.symm, h.2.2.2.2.1.symm, h.2.2.2.2.2.symm⟩

theorem keepsScan_refl (a : HeapFileScan N) : keepsScan a a :=
  ⟨sameFilter_refl a, rfl, rfl⟩

theorem keepsScan_trans {a b c : HeapFileScan N} (h1 : keepsScan a b) (h2 : keepsScan b c) :
    keepsScan a c :=
  ⟨sameFilter_trans h1.1 h2.1, h2.2.1.trans h1.2.1, h2.2.2.trans h1.2.2⟩

/-- The scan of a page depends on the scan object only through the filter. -/
theorem scanPage_params (fsub : List Byte → List Byte → DiffClass) {a b : HeapFileScan N}
    (h : sameFilter a b) (page : Page) : scanPage fsub b page = scanPage fsub a page := by
  unfold scanPage
  cases page.firstRecord with
  | error e => rfl
  | ok tmpRid =>
    exact recordLoop_params fsub b a page h.2.1 h.2.2.1 h.2.2.2.1 h.2.2.2.2.1 h.2.2.2.2.2 _ _

/-- An iteration that stops on a match. -/
theorem pageStep_matched (ops : FileOps σ) (fsub : List Byte → List Byte → DiffClass)
    (sc : HeapFileScan N) (bm : BufMgr σ N) (fr : Fin N) (rid : RID)
    (hcp : sc.curPage = some fr)
    (hs : scanPage fsub sc (bm.bufPool fr) = some (RecordScan.matched rid)) :
    pageStep ops fsub sc bm =
      PageStep.done (Status.OK, some rid, { sc with curRec := rid }, bm) := by
  unfold pageStep
  rw [hcp]
  dsimp only
  rw [hs]

/-- An iteration that stops because `getRecord` fails. -/
theorem pageStep_failed (ops : FileOps σ) (fsub : List Byte → List Byte → DiffClass)
    (sc : HeapFileScan N) (bm : BufMgr σ N) (fr : Fin N) (st : Status)
    (hcp : sc.curPage = some fr)
    (hs : scanPage fsub sc (bm.bufPool fr) = some (RecordScan.failed st)) :
    pageStep ops fsub sc bm = PageStep.done (st, none, sc, bm) := by
  unfold pageStep
  rw [hcp]
  dsimp only
  rw [hs]

/-- An iteration that stops at the end of the chain of pages. -/
theorem pageStep_eof (ops : FileOps σ) (fsub : List Byte → List Byte → DiffClass)
    (sc : HeapFileScan N) (bm : BufMgr σ N) (fr : Fin N)
    (hcp : sc.curPage = some fr)
    (hs : scanPage fsub sc (bm.bufPool fr) = some RecordScan.exhausted)
    (hn : (bm.bufPool fr).nextPage = -1) :
    pageStep ops fsub sc bm = PageStep.done (Status.FILEEOF, none, sc, bm) := by
  unfold pageStep
  rw [hcp]
  dsimp only
  rw [hs]
  dsimp only
  rw [if_pos hn]

/-- An iteration that reads the next page and goes on. -/
theorem pageStep_read_ok (ops : FileOps σ) (fsub : List Byte → List Byte → DiffClass)
    (sc : HeapFileScan N) (bm : BufMgr σ N) (fr f1 : Fin N) (bm1 : BufMgr σ N)
    (hcp : sc.curPage = some fr)
    (hs : scanPage fsub sc (bm.bufPool fr) = some RecordScan.exhausted)
    (hn : (bm.bufPool fr).nextPage ≠ -1)
    (hr : bm.readPage ops sc.filePtr (bm.bufPool fr).nextPage =
      some (Status.OK, some f1, bm1)) :
    pageStep ops fsub sc bm =
      PageStep.more { sc with curPageNo := (bm.bufPool fr).nextPage, curPage := some f1 } bm1 := by
  unfold pageStep
  rw [hcp]
  dsimp only
  rw [hs]
  dsimp only
  rw [if_neg hn, hr]
  dsimp only
  rw [if_pos rfl]

/-- An iteration that fails to read the next page. -/
theorem pageStep_read_fail (ops : FileOps σ) (fsub : List Byte → List Byte → DiffClass)
    (sc : HeapFileScan N) (bm : BufMgr σ N) (fr : Fin N) (st : Status) (bm1 : BufMgr σ N)
    (hcp : sc.curPage = some fr)
    (hs : scanPage fsub sc (bm.bufPool fr) = some RecordScan.exhausted)
    (hn : (bm.bufPool fr).nextPage ≠ -1)
    (hr : bm.readPage ops sc.filePtr (bm.bufPool fr).nextPage = some (st, none, bm1))
    (hst : st ≠ Status.OK) :
    pageStep ops fsub sc bm =
      PageStep.done (st, none, { sc with curPageNo := (bm.bufPool fr).nextPage }, bm1) := by
  unfold pageStep
  rw [hcp]
  dsimp only
  rw [hs]
  dsimp only
  rw [if_neg hn, hr]
  dsimp only
  rw [if_neg hst]

/-- An iteration whose `readPage` does not return. -/
theorem pageStep_read_none (ops : FileOps σ) (fsub : List Byte → List Byte → DiffClass)
    (sc : HeapFileScan N) (bm : BufMgr σ N) (fr : Fin N)
    (hcp : sc.curPage = some fr)
    (hs : scanPage fsub sc (bm.bufPool fr) = some RecordScan.exhausted)
    (hn : (bm.bufPool fr).nextPage ≠ -1)
    (hr : bm.readPage ops sc.filePtr (bm.bufPool fr).nextPage = none) :
    pageStep ops fsub sc bm = PageStep.stuck := by
  unfold pageStep
  rw [hcp]
  dsimp only
  rw [hs]
  dsimp only
  rw [if_neg hn, hr]

/-- An iteration on a page whose record loop does not return, or without a
current page. -/
theorem pageStep_stuck (ops : FileOps σ) (fsub : List Byte → List Byte → DiffClass)
    (sc : HeapFileScan N) (bm : BufMgr σ N)
    (h : sc.curPage = none ∨ ∃ fr, sc.curPage = some fr ∧
      scanPage fsub sc (bm.bufPool fr) = none) :
    pageStep ops fsub sc bm = PageStep.stuck := by
  unfold pageStep
  rcases h with h | ⟨fr, hcp, hs⟩
  · rw [h]
  · rw [hcp]
    dsimp only
    rw [hs]

/-- The cases of one iteration. -/
theorem pageStep_cases (ops : FileOps σ) (fsub : List Byte → List Byte → DiffClass)
    (sc : HeapFileScan N) (bm : BufMgr σ N) :
    pageStep ops fsub sc bm = PageStep.stuck ∨
    ∃ fr, sc.curPage = some fr ∧
      ((∃ rid, scanPage fsub sc (bm.bufPool fr) = some (RecordScan.matched rid)) ∨
        (∃ st, scanPage fsub sc (bm.bufPool fr) = some (RecordScan.failed st)) ∨
        (scanPage fsub sc (bm.bufPool fr) = some RecordScan.exhausted ∧
          (bm.bufPool fr).nextPage = -1) ∨
        (scanPage fsub sc (bm.bufPool fr) = some RecordScan.exhausted ∧
          (bm.bufPool fr).nextPage ≠ -1 ∧
          ((∃ st bm1, bm.readPage ops sc.filePtr (bm.bufPool fr).nextPage =
              some (st, none, bm1) ∧ st ≠ Status.OK) ∨
            (∃ f1 bm1, bm.readPage ops sc.filePtr (bm.bufPool fr).nextPage =
              some (Status.OK, some f1, bm1))))) := by
  have hcp : sc.curPage = none ∨ ∃ fr, sc.curPage = some fr := by
    cases sc.curPage with
    | none => exact Or.inl rfl
    | some fr => exact Or.inr ⟨fr, rfl⟩
  rcases hcp with hcp | ⟨fr, hcp⟩
  · exact Or.inl (pageStep_stuck ops fsub sc bm (Or.inl hcp))
  · have hs : scanPage fsub sc (bm.bufPool fr) = none ∨
        (∃ rid, scanPage fsub sc (bm.bufPool fr) = some (RecordScan.matched rid)) ∨
        (∃ st, scanPage fsub sc (bm.bufPool fr) = some (RecordScan.failed st)) ∨
        scanPage fsub sc (bm.bufPool fr) = some RecordScan.exhausted := by
      cases scanPage fsub sc (bm.bufPool fr) with
      | none => exact Or.inl rfl
      | some inner =>
        cases inner with
        | matched rid => exact Or.inr (Or.inl ⟨rid, rfl⟩)
        | failed st => exact Or.inr (Or.inr (Or.inl ⟨st, rfl⟩))
        | exhausted => exact Or.inr (Or.inr (Or.inr rfl))
    rcases hs with hs | hs | hs | hs
    · exact Or.inl (pageStep_stuck ops fsub sc bm (Or.inr ⟨fr, hcp, hs⟩))
    · exact Or.inr ⟨fr, hcp, Or.inl hs⟩
    · exact Or.inr ⟨fr, hcp, Or.inr (Or.inl hs)⟩
    · by_cases hn : (bm.bufPool fr).nextPage = -1
      · exact Or.inr ⟨fr, hcp, Or.inr (Or.inr (Or.inl ⟨hs, hn⟩))⟩
      · have hr : bm.readPage ops sc.filePtr (bm.bufPool fr).nextPage = none ∨
            ∃ st pg bm1, bm.readPage ops sc.filePtr (bm.bufPool fr).nextPage =
              some (st, pg, bm1) := by
          cases bm.readPage ops sc.filePtr (bm.bufPool fr).nextPage with
          | none => exact Or.inl rfl
          | some q => exact Or.inr ⟨q.1, q.2.1, q.2.2, rfl⟩
        rcases hr with hr | ⟨st, pg, bm1, hr⟩
        · exact Or.inl (pageStep_read_none ops fsub sc bm fr hcp hs hn hr)
        · refine Or.inr ⟨fr, hcp, Or.inr (Or.inr (Or.inr ⟨hs, hn, ?_⟩))⟩
          by_cases hst : st = Status.OK
          · subst hst
            obtain ⟨f1, hpg, -, -⟩ := BufMgr.readPage_ok_pinned ops _ _ _ _ _ hr
            subst hpg
            exact Or.inr ⟨f1, bm1, hr⟩
          · have hpg := BufMgr.readPage_fail_frame ops _ _ _ _ _ _ hr hst
            subst hpg
            exact Or.inl ⟨st, bm1, hr, hst⟩

/-- What is known when an iteration ends the call. -/
theorem pageStep_done (ops : FileOps σ) (fsub : List Byte → List Byte → DiffClass)
    (sc : HeapFileScan N) (bm : BufMgr σ N)
    (r : Status × Option RID × HeapFileScan N × BufMgr σ N)
    (h : pageStep ops fsub sc bm = PageStep.done r) :
    ∃ fr, sc.curPage = some fr ∧
      ((∃ rid, scanPage fsub sc (bm.bufPool fr) = some (RecordScan.matched rid) ∧
          r = (Status.OK, some rid, { sc with curRec := rid }, bm)) ∨
        (∃ st, scanPage fsub sc (bm.bufPool fr) = some (RecordScan.failed st) ∧
          r = (st, none, sc, bm)) ∨
        (scanPage fsub sc (bm.bufPool fr) = some RecordScan.exhausted ∧
          (bm.bufPool fr).nextPage = -1 ∧ r = (Status.FILEEOF, none, sc, bm)) ∨
        (scanPage fsub sc (bm.bufPool fr) = some RecordScan.exhausted ∧
          (bm.bufPool fr).nextPage ≠ -1 ∧
          ∃ st bm1, bm.readPage ops sc.filePtr (bm.bufPool fr).nextPage = some (st, none, bm1) ∧
            st ≠ Status.OK ∧
            r = (st, none, { sc with curPageNo := (bm.bufPool fr).nextPage }, bm1))) := by
  rcases pageStep_cases ops fsub sc bm with hst | ⟨fr, hcp, hc⟩
  · rw [hst] at h
    exact absurd h (by simp)
  · refine ⟨fr, hcp, ?_⟩
    rcases hc with ⟨rid, hs⟩ | ⟨st, hs⟩ | ⟨hs, hn⟩ | ⟨hs, hn, ⟨st, bm1, hr, hst⟩ | ⟨f1, bm1, hr⟩⟩
    · rw [pageStep_matched ops fsub sc bm fr rid hcp hs] at h
      exact Or.inl ⟨rid, hs, (PageStep.done.inj h).symm⟩
    · rw [pageStep_failed ops fsub sc bm fr st hcp hs] at h
      exact Or.inr (Or.inl ⟨st, hs, (PageStep.done.inj h).symm⟩)
    · rw [pageStep_eof ops fsub sc bm fr hcp hs hn] at h
      exact Or.inr (Or.inr (Or.inl ⟨hs, hn, (PageStep.done.inj h).symm⟩))
    · rw [pageStep_read_fail ops fsub sc bm fr st bm1 hcp hs hn hr hst] at h
      exact Or.inr (Or.inr (Or.inr ⟨hs, hn, st, bm1, hr, hst, (PageStep.done.inj h).symm⟩))
    · rw [pageStep_read_ok ops fsub sc bm fr f1 bm1 hcp hs hn hr] at h
      exact absurd h (by simp)

/-- What is known when an iteration goes on to the next page. -/
theorem pageStep_more (ops : FileOps σ) (fsub : List Byte → List Byte → DiffClass)
    (sc : HeapFileScan N) (bm : BufMgr σ N) (sc2 : HeapFileScan N) (bm1 : BufMgr σ N)
    (h : pageStep ops fsub sc bm = PageStep.more sc2 bm1) :
    ∃ fr f1, sc.curPage = some fr ∧
      scanPage fsub sc (bm.bufPool fr) = some RecordScan.exhausted ∧
      (bm.bufPool fr).nextPage ≠ -1 ∧
      bm.readPage ops sc.filePtr (bm.bufPool fr).nextPage = some (Status.OK, some f1, bm1) ∧
      sc2 = { sc with curPageNo := (bm.bufPool fr).nextPage, curPage := some f1 } := by
  rcases pageStep_cases ops fsub sc bm with hst | ⟨fr, hcp, hc⟩
  · rw [hst] at h
    exact absurd h (by simp)
  · rcases hc with ⟨rid, hs⟩ | ⟨st, hs⟩ | ⟨hs, hn⟩ | ⟨hs, hn, ⟨st, bm0, hr, hst⟩ | ⟨f1, bm0, hr⟩⟩
    · rw [pageStep_matched ops fsub sc bm fr rid hcp hs] at h
      exact absurd h (by simp)
    · rw [pageStep_failed ops fsub sc bm fr st hcp hs] at h
      exact absurd h (by simp)
    · rw [pageStep_eof ops fsub sc bm fr hcp hs hn] at h
      exact absurd h (by simp)
    · rw [pageStep_read_fail ops fsub sc bm fr st bm0 hcp hs hn hr hst] at h
      exact absurd h (by simp)
    · rw [pageStep_read_ok ops fsub sc bm fr f1 bm0 hcp hs hn hr] at h
      simp only [PageStep.more.injEq] at h
      obtain ⟨h1, h2⟩ := h
      subst h2
      exact ⟨fr, f1, hcp, hs, hn, hr, h1.symm⟩

end HeapFileScan

/-! ## What a scan keeps, and replaying it -/

namespace BufMgr

variable {σ : Type} {N : Nat}

theorem readPage_keeps_WFcore (ops : FileOps σ) {s : BufMgr σ N} (hw : WFcore s) (file : File)
    (PageNo : Int) (st : Status) (pg : Option (Fin N)) (t : BufMgr σ N)
    (h : readPage ops s file PageNo = some (st, pg, t)) : WFcore t := by
  obtain ⟨r, hr, hwr⟩ := readPage_WFcore ops hw file PageNo
  rw [h] at hr
  rw [← Option.some.inj hr] at hwr
  exact hwr

end BufMgr

namespace HeapFileScan

variable {σ : Type} {N : Nat}

theorem CurPinned_congr {a b : HeapFileScan N} {bm : BufMgr σ N} (h : CurPinned a bm)
    (h1 : b.curPage = a.curPage) (h2 : b.curPageNo = a.curPageNo) (h3 : b.filePtr = a.filePtr) :
    CurPinned b bm := by
  obtain ⟨fr, hcp, hl, hp⟩ := h
  exact ⟨fr, by rw [h1, hcp], by rw [h2, h3]; exact hl, hp⟩

/-- An iteration that ends the call keeps the pool well-formed and every pinned
page pinned, keeps file, filter and mark, and with status `OK` it leaves the
cursor on its page and the pool as it was. -/
theorem pageStep_done_inv (ops : FileOps σ) (fsub : List Byte → List Byte → DiffClass)
    {sc : HeapFileScan N} {bm : BufMgr σ N} (hw : BufMgr.WFcore bm) {st : Status}
    {rid : Option RID} {sc' : HeapFileScan N} {bm' : BufMgr σ N}
    (h : pageStep ops fsub sc bm = PageStep.done (st, rid, sc', bm')) :
    BufMgr.WFcore bm' ∧ BufMgr.Holds bm bm' ∧ keepsScan sc sc' ∧
    (st = Status.OK → sc'.curPage = sc.curPage ∧ sc'.curPageNo = sc.curPageNo ∧ bm' = bm) := by
  obtain ⟨fr, hcp, hc⟩ := pageStep_done ops fsub sc bm _ h
  rcases hc with ⟨rid0, -, hr⟩ | ⟨st0, -, hr⟩ | ⟨-, -, hr⟩ | ⟨-, -, st0, bm1, hrd, hst, hr⟩
  · simp only [Prod.mk.injEq] at hr
    obtain ⟨-, -, h3, h4⟩ := hr
    subst h3 h4
    exact ⟨hw, BufMgr.Holds_refl _, ⟨⟨rfl, rfl, rfl, rfl, rfl, rfl⟩, rfl, rfl⟩,
      fun _ => ⟨rfl, rfl, rfl⟩⟩
  · simp only [Prod.mk.injEq] at hr
    obtain ⟨-, -, h3, h4⟩ := hr
    subst h3 h4
    exact ⟨hw, BufMgr.Holds_refl _, keepsScan_refl _, fun _ => ⟨rfl, rfl, rfl⟩⟩
  · simp only [Prod.mk.injEq] at hr
    obtain ⟨-, -, h3, h4⟩ := hr
    subst h3 h4
    exact ⟨hw, BufMgr.Holds_refl _, keepsScan_refl _, fun _ => ⟨rfl, rfl, rfl⟩⟩
  · simp only [Prod.mk.injEq] at hr
    obtain ⟨h1, -, h3, h4⟩ := hr
    subst h1 h3 h4
    exact ⟨BufMgr.readPage_keeps_WFcore ops hw _ _ _ _ _ hrd,
      BufMgr.readPage_holds ops hw _ _ _ _ _ hrd,
      ⟨⟨rfl, rfl, rfl, rfl, rfl, rfl⟩, rfl, rfl⟩, fun e => absurd e hst⟩

/-- An iteration that goes on keeps the pool well-formed and every pinned page
pinned, keeps file, filter and mark, and has the new current page pinned. -/
theorem pageStep_more_inv (ops : FileOps σ) (fsub : List Byte → List Byte → DiffClass)
    {sc : HeapFileScan N} {bm : BufMgr σ N} (hw : BufMgr.WFcore bm) {sc2 : HeapFileScan N}
    {bm1 : BufMgr σ N} (h : pageStep ops fsub sc bm = PageStep.more sc2 bm1) :
    BufMgr.WFcore bm1 ∧ BufMgr.Holds bm bm1 ∧ keepsScan sc sc2 ∧ CurPinned sc2 bm1 := by
  obtain ⟨fr, f1, hcp, -, -, hrd, hsc2⟩ := pageStep_more ops fsub sc bm sc2 bm1 h
  obtain ⟨f2, hf2, hl, hp⟩ := BufMgr.readPage_ok_pinned ops _ _ _ _ _ hrd
  have e : f2 = f1 := (Option.some.inj hf2).symm
  subst e
  subst hsc2
  exact ⟨BufMgr.readPage_keeps_WFcore ops hw _ _ _ _ _ hrd,
    BufMgr.readPage_holds ops hw _ _ _ _ _ hrd,
    ⟨⟨rfl, rfl, rfl, rfl, rfl, rfl⟩, rfl, rfl⟩, ⟨f2, rfl, hl, hp⟩⟩

/-- The loop of `scanNext` keeps the pool well-formed and every pinned page
pinned, keeps file, filter and mark; when it returns `OK`, either the cursor is
on the page it was on and the pool is unchanged, or the current page is one
that the loop has pinned. -/
theorem pageLoop_inv (ops : FileOps σ) (fsub : List Byte → List Byte → DiffClass) :
    ∀ (f : Nat) (sc : HeapFileScan N) (bm : BufMgr σ N) (st : Status) (rid : Option RID)
      (sc' : HeapFileScan N) (bm' : BufMgr σ N), BufMgr.WFcore bm →
      pageLoop ops fsub f sc bm = some (st, rid, sc', bm') →
      BufMgr.WFcore bm' ∧ BufMgr.Holds bm bm' ∧ keepsScan sc sc' ∧
      (st = Status.OK →
        (sc'.curPage = sc.curPage ∧ sc'.curPageNo = sc.curPageNo ∧ bm' = bm) ∨
          CurPinned sc' bm') := by
  intro f
  induction f with
  | zero => intro sc bm st rid sc' bm' _ h; simp [pageLoop] at h
  | succ n ih =>
    intro sc bm st rid sc' bm' hw h
    rw [pageLoop_step] at h
    have hps : (∃ r, pageStep ops fsub sc bm = PageStep.done r) ∨
        (∃ sc2 bm1, pageStep ops fsub sc bm = PageStep.more sc2 bm1) ∨
        pageStep ops fsub sc bm = PageStep.stuck := by
      cases pageStep ops fsub sc bm with
      | done r => exact Or.inl ⟨r, rfl⟩
      | more sc2 bm1 => exact Or.inr (Or.inl ⟨sc2, bm1, rfl⟩)
      | stuck => exact Or.inr (Or.inr rfl)
    rcases hps with ⟨r, hps⟩ | ⟨sc2, bm1, hps⟩ | hps
    · rw [hps] at h
      dsimp only at h
      rw [Option.some.inj h] at hps
      obtain ⟨h1, h2, h3, h4⟩ := pageStep_done_inv ops fsub hw hps
      exact ⟨h1, h2, h3, fun e => Or.inl (h4 e)⟩
    · rw [hps] at h
      dsimp only at h
      obtain ⟨h1, h2, h3, h4⟩ := pageStep_more_inv ops fsub hw hps
      obtain ⟨k1, k2, k3, k4⟩ := ih sc2 bm1 st rid sc' bm' h1 h
      refine ⟨k1, BufMgr.Holds_trans h2 k2, keepsScan_trans h3 k3, fun e => Or.inr ?_⟩
      rcases k4 e with ⟨e1, e2, e3⟩ | hcur
      · rw [e3]
        exact CurPinned_congr h4 e1 e2 k3.1.1
      · exact hcur
    · rw [hps] at h
      exact absurd h (by simp)

/-- More iterations do not change what the loop of `scanNext` returns. -/
theorem pageLoop_mono (ops : FileOps σ) (fsub : List Byte → List Byte → DiffClass) :
    ∀ (f : Nat) (sc : HeapFileScan N) (bm : BufMgr σ N)
      (r : Status × Option RID × HeapFileScan N × BufMgr σ N),
      pageLoop ops fsub f sc bm = some r → ∀ k, pageLoop ops fsub (f + k) sc bm = some r := by
  intro f
  induction f with
  | zero => intro sc bm r h; simp [pageLoop] at h
  | succ n ih =>
    intro sc bm r h k
    rw [Nat.succ_add, pageLoop_step]
    rw [pageLoop_step] at h
    cases hps : pageStep ops fsub sc bm with
    | done r0 =>
      rw [hps] at h
      exact h
    | more sc2 bm1 =>
      rw [hps] at h
      exact ih sc2 bm1 r h k
    | stuck =>
      rw [hps] at h
      exact absurd h (by simp)

/-- The result of the loop of `scanNext` does not depend on the bound on the
number of pages, as long as the bound is large enough for the loop to return. -/
theorem pageLoop_det (ops : FileOps σ) (fsub : List Byte → List Byte → DiffClass)
    (f1 f2 : Nat) (sc : HeapFileScan N) (bm : BufMgr σ N)
    (r1 r2 : Status × Option RID × HeapFileScan N × BufMgr σ N)
    (h1 : pageLoop ops fsub f1 sc bm = some r1) (h2 : pageLoop ops fsub f2 sc bm = some r2) :
    r1 = r2 := by
  have e1 := pageLoop_mono ops fsub f1 sc bm r1 h1 f2
  have e2 := pageLoop_mono ops fsub f2 sc bm r2 h2 f1
  rw [Nat.add_comm, e1] at e2
  exact Option.some.inj e2

/-- The loop of `scanNext` from two scan objects with the same current page,
file and filter, on the same pool: same status, same RID, same pool. -/
theorem pageLoop_congr (ops : FileOps σ) (fsub : List Byte → List Byte → DiffClass) :
    ∀ (f : Nat) (a b : HeapFileScan N) (bm : BufMgr σ N) (st : Status) (rid : Option RID)
      (a' : HeapFileScan N) (bm' : BufMgr σ N), b.curPage = a.curPage → sameFilter a b →
      pageLoop ops fsub f a bm = some (st, rid, a', bm') →
      ∃ b', pageLoop ops fsub f b bm = some (st, rid, b', bm') := by
  intro f
  induction f with
  | zero => intro a b bm st rid a' bm' _ _ h; simp [pageLoop] at h
  | succ n ih =>
    intro a b bm st rid a' bm' hcur hf h
    rw [pageLoop_step] at h
    rw [pageLoop_step]
    have hsp : ∀ page, scanPage fsub b page = scanPage fsub a page :=
      fun page => scanPage_params fsub hf page
    rcases pageStep_cases ops fsub a bm with hst | ⟨fr, hcp, hc⟩
    · rw [hst] at h
      exact absurd h (by simp)
    · have hcpb : b.curPage = some fr := by rw [hcur, hcp]
      rcases hc with ⟨rid0, hs⟩ | ⟨st0, hs⟩ | ⟨hs, hn⟩ |
        ⟨hs, hn, ⟨st0, bm1, hr, hst0⟩ | ⟨f1, bm1, hr⟩⟩
      · rw [pageStep_matched ops fsub a bm fr rid0 hcp hs] at h
        rw [pageStep_matched ops fsub b bm fr rid0 hcpb (by rw [hsp]; exact hs)]
        simp only [Option.some.injEq, Prod.mk.injEq] at h
        obtain ⟨h1, h2, -, h4⟩ := h
        subst h1 h2 h4
        exact ⟨_, rfl⟩
      · rw [pageStep_failed ops fsub a bm fr st0 hcp hs] at h
        rw [pageStep_failed ops fsub b bm fr st0 hcpb (by rw [hsp]; exact hs)]
        simp only [Option.some.injEq, Prod.mk.injEq] at h
        obtain ⟨h1, h2, -, h4⟩ := h
        subst h1 h2 h4
        exact ⟨_, rfl⟩
      · rw [pageStep_eof ops fsub a bm fr hcp hs hn] at h
        rw [pageStep_eof ops fsub b bm fr hcpb (by rw [hsp]; exact hs) hn]
        simp only [Option.some.injEq, Prod.mk.injEq] at h
        obtain ⟨h1, h2, -, h4⟩ := h
        subst h1 h2 h4
        exact ⟨_, rfl⟩
      · rw [pageStep_read_fail ops fsub a bm fr st0 bm1 hcp hs hn hr hst0] at h
        rw [pageStep_read_fail ops fsub b bm fr st0 bm1 hcpb (by rw [hsp]; exact hs) hn
          (by rw [hf.1]; exact hr) hst0]
        simp only [Option.some.injEq, Prod.mk.injEq] at h
        obtain ⟨h1, h2, -, h4⟩ := h
        subst h1 h2 h4
        exact ⟨_, rfl⟩
      · rw [pageStep_read_ok ops fsub a bm fr f1 bm1 hcp hs hn hr] at h
        rw [pageStep_read_ok ops fsub b bm fr f1 bm1 hcpb (by rw [hsp]; exact hs) hn
          (by rw [hf.1]; exact hr)]
        dsimp only at h ⊢
        refine ih _ _ bm1 st rid a' bm' ?_ ?_ h
        · rfl
        · exact ⟨hf.1, hf.2.1, hf.2.2.1, hf.2.2.2.1, hf.2.2.2.2.1, hf.2.2.2.2.2⟩

/-- Replaying a successful run of the loop of `scanNext`: from a scan object
with the same current frame, file and filter, on a pool in which that frame
has the same contents and in which every page that is pinned at the end of the
run is resident in its frame with its contents, the loop returns `OK` with the
same RID. -/
theorem pageLoop_replay (ops : FileOps σ) (fsub : List Byte → List Byte → DiffClass) :
    ∀ (f : Nat) (a : HeapFileScan N) (bm : BufMgr σ N) (rid : RID) (a' : HeapFileScan N)
      (bm' : BufMgr σ N), BufMgr.WFcore bm →
      pageLoop ops fsub f a bm = some (Status.OK, some rid, a', bm') →
      ∀ (b : HeapFileScan N) (bmR : BufMgr σ N) (fr : Fin N), a.curPage = some fr →
        b.curPage = some fr → bmR.bufPool fr = bm.bufPool fr → sameFilter a b →
        BufMgr.Resides bm' bmR →
        ∃ b' bmR', pageLoop ops fsub f b bmR = some (Status.OK, some rid, b', bmR') := by
  intro f
  induction f with
  | zero => intro a bm rid a' bm' _ h; simp [pageLoop] at h
  | succ n ih =>
    intro a bm rid a' bm' hw h b bmR fr hcpa hcpb hpool hf hres
    rw [pageLoop_step] at h
    rw [pageLoop_step]
    have hsp : ∀ page, scanPage fsub b page = scanPage fsub a page :=
      fun page => scanPage_params fsub hf page
    rcases pageStep_cases ops fsub a bm with hst | ⟨fr0, hcp, hc⟩
    · rw [hst] at h
      exact absurd h (by simp)
    · have e : fr0 = fr := by
        rw [hcp] at hcpa
        exact Option.some.inj hcpa
      subst e
      rcases hc with ⟨rid0, hs⟩ | ⟨st0, hs⟩ | ⟨hs, hn⟩ |
        ⟨hs, hn, ⟨st0, bm1, hr, hst0⟩ | ⟨f1, bm1, hr⟩⟩
      · rw [pageStep_matched ops fsub a bm fr0 rid0 hcp hs] at h
        rw [pageStep_matched ops fsub b bmR fr0 rid0 hcpb (by rw [hsp, hpool]; exact hs)]
        simp only [Option.some.injEq, Prod.mk.injEq, true_and] at h
        obtain ⟨h2, -, -⟩ := h
        subst h2
        exact ⟨_, _, rfl⟩
      · rw [pageStep_failed ops fsub a bm fr0 st0 hcp hs] at h
        simp only [Option.some.injEq, Prod.mk.injEq] at h
        exact absurd h.2.1 (by simp)
      · rw [pageStep_eof ops fsub a bm fr0 hcp hs hn] at h
        simp only [Option.some.injEq, Prod.mk.injEq] at h
        exact absurd h.1 (by simp)
      · rw [pageStep_read_fail ops fsub a bm fr0 st0 bm1 hcp hs hn hr hst0] at h
        simp only [Option.some.injEq, Prod.mk.injEq] at h
        exact absurd h.2.1 (by simp)
      · have hps := pageStep_read_ok ops fsub a bm fr0 f1 bm1 hcp hs hn hr
        rw [hps] at h
        dsimp only at h
        obtain ⟨hw1, -, -, -⟩ := pageStep_more_inv ops fsub hw hps
        obtain ⟨f2, hf2, hl, hp⟩ := BufMgr.readPage_ok_pinned ops _ _ _ _ _ hr
        have e2 : f2 = f1 := (Option.some.inj hf2).symm
        subst e2
        obtain ⟨-, hholds, -, -⟩ := pageLoop_inv ops fsub n _ bm1 _ _ a' bm' hw1 h
        obtain ⟨hl1, hp1, hc1⟩ := hholds _ _ _ hl hp
        obtain ⟨hl2, hc2⟩ := hres _ _ _ hl1 hp1
        have hrR : bmR.readPage ops b.filePtr (bmR.bufPool fr0).nextPage =
            some (Status.OK, some f2,
              { bmR with bufTable := (Function.update bmR.bufTable f2
                  { bmR.bufTable f2 with refbit := true
                                         pinCnt := (bmR.bufTable f2).pinCnt + 1 }) }) := by
          apply BufMgr.readPage_hit
          rw [hf.1, hpool]
          exact hl2
        rw [pageStep_read_ok ops fsub b bmR fr0 f2 _ hcpb (by rw [hsp, hpool]; exact hs)
          (by rw [hpool]; exact hn) hrR]
        dsimp only
        refine ih _ bm1 rid a' bm' hw1 h _ _ f2 ?_ ?_ ?_ ?_ ?_
        · rfl
        · rfl
        · show bmR.bufPool f2 = bm1.bufPool f2
          rw [hc2, hc1]
        · exact ⟨hf.1, hf.2.1, hf.2.2.1, hf.2.2.2.1, hf.2.2.2.2.1, hf.2.2.2.2.2⟩
        · exact hres.frames rfl rfl

end HeapFileScan

/-! ## Mark and reset -/

namespace HeapFileScan

variable {σ : Type} {N : Nat}

/-- With a current page whose number is not 0, `scanNext` is the loop. -/
theorem scanNext_of_cursor (ops : FileOps σ) (fsub : List Byte → List Byte → DiffClass)
    (f : Nat) (sc : HeapFileScan N) (bm : BufMgr σ N) (fr : Fin N) (hcp : sc.curPage = some fr)
    (hp : sc.curPageNo ≠ 0) : scanNext ops fsub f sc bm = pageLoop ops fsub f sc bm := by
  unfold scanNext
  rw [if_neg]
  intro h
  rcases h with h | h
  · rw [hcp] at h
    exact absurd h (by simp)
  · exact hp h

/-- A successful `scanNext` keeps the pool well-formed and every pinned page
pinned, keeps file, filter and mark; and either the cursor is on the page it
was on and the pool is unchanged, or the current page is pinned. -/
theorem scanNext_inv (ops : FileOps σ) (fsub : List Byte → List Byte → DiffClass) (f : Nat)
    (sc : HeapFileScan N) (bm : BufMgr σ N) (rid : Option RID) (sc' : HeapFileScan N)
    (bm' : BufMgr σ N) (hw : BufMgr.WFcore bm)
    (h : scanNext ops fsub f sc bm = some (Status.OK, rid, sc', bm')) :
    BufMgr.WFcore bm' ∧ BufMgr.Holds bm bm' ∧ keepsScan sc sc' ∧
    ((sc'.curPage = sc.curPage ∧ sc'.curPageNo = sc.curPageNo ∧ bm' = bm) ∨
      CurPinned sc' bm') := by
  unfold scanNext at h
  split at h
  · split at h
    · exact absurd h (by simp)
    · dsimp only at h
      split at h
      · simp only [Option.some.injEq, Prod.mk.injEq] at h
        exact absurd h.1 (by simp)
      · split at h
        · exact absurd h (by simp)
        · rename_i status pg bm1 hrd
          split at h
          · rename_i hst
            simp only [Option.some.injEq, Prod.mk.injEq] at h
            exact absurd h.1 hst
          · rename_i hst
            have hst1 : status = Status.OK := not_not.1 hst
            subst hst1
            obtain ⟨f1, hpg, hl, hp⟩ := BufMgr.readPage_ok_pinned ops _ _ _ _ _ hrd
            subst hpg
            have hw1 := BufMgr.readPage_keeps_WFcore ops hw _ _ _ _ _ hrd
            obtain ⟨k1, k2, k3, k4⟩ := pageLoop_inv ops fsub f _ bm1 _ _ sc' bm' hw1 h
            refine ⟨k1, BufMgr.Holds_trans (BufMgr.readPage_holds ops hw _ _ _ _ _ hrd) k2,
              keepsScan_trans ⟨⟨rfl, rfl, rfl, rfl, rfl, rfl⟩, rfl, rfl⟩ k3, Or.inr ?_⟩
            rcases k4 rfl with ⟨e1, e2, e3⟩ | hcur
            · rw [e3]
              exact ⟨f1, e1, by rw [e2, k3.1.1]; exact hl, hp⟩
            · exact hcur
  · obtain ⟨k1, k2, k3, k4⟩ := pageLoop_inv ops fsub f sc bm _ _ sc' bm' hw h
    exact ⟨k1, k2, k3, k4 rfl⟩

/-- The invariant of a sequence of successful `scanNext` calls. -/
theorem scanChain_inv (ops : FileOps σ) (fsub : List Byte → List Byte → DiffClass)
    {a b : HeapFileScan N × BufMgr σ N}
    (h : Relation.ReflTransGen (scanStep ops fsub) a b) (hw : BufMgr.WFcore a.2) :
    BufMgr.WFcore b.2 ∧ BufMgr.Holds a.2 b.2 ∧ keepsScan a.1 b.1 ∧
    ((b.1.curPage = a.1.curPage ∧ b.1.curPageNo = a.1.curPageNo ∧ b.2 = a.2) ∨
      CurPinned b.1 b.2) := by
  induction h with
  | refl => exact ⟨hw, BufMgr.Holds_refl _, keepsScan_refl _, Or.inl ⟨rfl, rfl, rfl⟩⟩
  | tail _ hbc ih =>
    obtain ⟨fuel, rid, hstep⟩ := hbc
    obtain ⟨i1, i2, i3, i4⟩ := ih
    obtain ⟨k1, k2, k3, k4⟩ := scanNext_inv ops fsub fuel _ _ _ _ _ i1 hstep
    refine ⟨k1, BufMgr.Holds_trans i2 k2, keepsScan_trans i3 k3, ?_⟩
    rcases k4 with ⟨e1, e2, e3⟩ | hc
    · rcases i4 with ⟨g1, g2, g3⟩ | hc0
      · exact Or.inl ⟨e1.trans g1, e2.trans g2, e3.trans g3⟩
      · refine Or.inr ?_
        rw [e3]
        exact CurPinned_congr hc0 e1 e2 k3.1.1
    · exact Or.inr hc

/-- When the marked page is the current page, `resetScan` only rewinds
`curRec`: the pool, and with it the log of calls on the store, is untouched. -/
theorem resetScan_same (ops : FileOps σ) (sc : HeapFileScan N) (bm : BufMgr σ N)
    (h : sc.markedPageNo = sc.curPageNo) :
    resetScan ops sc bm = some (Status.OK, { sc with curRec := sc.markedRec }, bm) := by
  unfold resetScan
  rw [if_neg (not_not.2 h)]

/-- The second half of `resetScan` on a well-formed pool: it returns, with the
cursor on the marked page number and record; and when the marked page is
resident it is a hit, which changes neither the index nor the frames. -/
theorem resetTail_spec (ops : FileOps σ) (sc : HeapFileScan N) (bm : BufMgr σ N)
    (hw : BufMgr.WFcore bm) :
    ∃ st sc2 bm2, resetTail ops sc bm = some (st, sc2, bm2) ∧
      (sc2.curPageNo = sc.markedPageNo ∧ sc2.curRec = sc.markedRec ∧ sameFilter sc sc2) ∧
      ∀ fr0, BufHashTbl.lookup bm.hashTable (some sc.filePtr) sc.markedPageNo = some fr0 →
        st = Status.OK ∧ sc2.curPage = some fr0 ∧ bm2.hashTable = bm.hashTable ∧
        bm2.bufPool = bm.bufPool := by
  obtain ⟨r, hr, -⟩ := BufMgr.readPage_WFcore ops hw sc.filePtr sc.markedPageNo
  obtain ⟨st, pg, bm1⟩ := r
  unfold resetTail
  dsimp only
  rw [hr]
  dsimp only
  by_cases hst : st = Status.OK
  · rw [if_neg (not_not.2 hst)]
    refine ⟨Status.OK, _, _, rfl, ⟨rfl, rfl, ⟨rfl, rfl, rfl, rfl, rfl, rfl⟩⟩, ?_⟩
    intro fr0 hl
    have hhit := BufMgr.readPage_hit ops bm sc.filePtr sc.markedPageNo fr0 hl
    rw [hr] at hhit
    simp only [Option.some.injEq, Prod.mk.injEq] at hhit
    obtain ⟨-, h2, h3⟩ := hhit
    subst h2 h3
    exact ⟨rfl, rfl, rfl, rfl⟩
  · rw [if_pos hst]
    refine ⟨st, _, _, rfl, ⟨rfl, rfl, ⟨rfl, rfl, rfl, rfl, rfl, rfl⟩⟩, ?_⟩
    intro fr0 hl
    have hhit := BufMgr.readPage_hit ops bm sc.filePtr sc.markedPageNo fr0 hl
    rw [hr] at hhit
    simp only [Option.some.injEq, Prod.mk.injEq] at hhit
    exact absurd hhit.1 hst

/-- On a well-formed pool, when the marked page is the current page or the
current page is pinned, `resetScan` returns, with the cursor on the marked
page number and record; and when the marked page is resident (in the frame of
the current page, if it is the current page) the status is `OK`, the current
page is that frame, and neither the index nor the frames have changed. -/
theorem resetScan_spec (ops : FileOps σ) (sc : HeapFileScan N) (bm : BufMgr σ N)
    (hw : BufMgr.WFcore bm) (hc : sc.markedPageNo = sc.curPageNo ∨ CurPinned sc bm) :
    ∃ st sc2 bm2, resetScan ops sc bm = some (st, sc2, bm2) ∧
      (sc2.curPageNo = sc.markedPageNo ∧ sc2.curRec = sc.markedRec ∧ sameFilter sc sc2) ∧
      ∀ fr0, BufHashTbl.lookup bm.hashTable (some sc.filePtr) sc.markedPageNo = some fr0 →
        (sc.markedPageNo = sc.curPageNo → sc.curPage = some fr0) →
        st = Status.OK ∧ sc2.curPage = some fr0 ∧ bm2.hashTable = bm.hashTable ∧
        bm2.bufPool = bm.bufPool := by
  by_cases hm : sc.markedPageNo = sc.curPageNo
  · refine ⟨_, _, _, resetScan_same ops sc bm hm, ⟨hm.symm, rfl, ⟨rfl, rfl, rfl, rfl, rfl, rfl⟩⟩, ?_⟩
    intro fr0 _ hx
    exact ⟨rfl, hx hm, rfl, rfl⟩
  · rcases hc with hc | ⟨f, hcp, hl, hp⟩
    · exact absurd hc hm
    · have hu := BufMgr.unPinPage_ok bm sc.filePtr sc.curPageNo sc.curDirtyFlag f hl hp
      have hfr := BufMgr.unPinPage_frames bm sc.filePtr sc.curPageNo sc.curDirtyFlag
      have hwu := BufMgr.unPinPage_WFcore hw sc.filePtr sc.curPageNo sc.curDirtyFlag
      obtain ⟨st, sc2, bm2, h1, h2, h3⟩ := resetTail_spec ops sc _ hwu
      refine ⟨st, sc2, bm2, ?_, h2, ?_⟩
      · unfold resetScan
        rw [if_pos hm, hcp]
        dsimp only
        rw [if_neg (not_not.2 hu)]
        exact h1
      · intro fr0 hl0 _
        obtain ⟨k1, k2, k3, k4⟩ := h3 fr0 (by rw [hfr.2]; exact hl0)
        exact ⟨k1, k2, by rw [k3, hfr.2], by rw [k4, hfr.1]⟩

/-- Mark and reset where the code meets the design: from a scan state with a
well-formed pool, `markScan`, any number of
successful `scanNext` calls and then `resetScan`: `resetScan` returns, and
`curPageNo` and `curRec` are what they were at the mark.  If at the mark the
scan has a current page, pinned in the pool under a `curPageNo` other than 0,
then `resetScan` returns `OK` and whatever `scanNext` returns when called at
the mark (status and RID), the `scanNext` after `resetScan` returns too.  And
whenever the marked page is the current page, `resetScan` returns `OK`,
changes only `curRec` and leaves the pool, with its log of calls, untouched. -/
theorem markScan_resetScan (ops : FileOps σ) (fsub : List Byte → List Byte → DiffClass)
    (sc : HeapFileScan N) (bm : BufMgr σ N) (hw : BufMgr.WF bm) (sc1 : HeapFileScan N)
    (bm1 : BufMgr σ N)
    (hsteps : Relation.ReflTransGen (scanStep ops fsub) (sc.markScan.2, bm) (sc1, bm1)) :
    (∃ st sc2 bm2, resetScan ops sc1 bm1 = some (st, sc2, bm2) ∧
      sc2.curPageNo = sc.curPageNo ∧ sc2.curRec = sc.curRec ∧
      (CurPinned sc bm → sc.curPageNo ≠ 0 →
        st = Status.OK ∧
        ∀ fuel st0 rid0 sc0 bm0, scanNext ops fsub fuel sc bm = some (st0, rid0, sc0, bm0) →
          ∃ sc3 bm3, scanNext ops fsub fuel sc2 bm2 = some (st0, rid0, sc3, bm3))) ∧
    (∀ (sc' : HeapFileScan N) (bm' : BufMgr σ N), sc'.markedPageNo = sc'.curPageNo →
      resetScan ops sc' bm' = some (Status.OK, { sc' with curRec := sc'.markedRec }, bm')) := by
  have hwc := (BufMgr.WF_iff_WFcore bm).1 hw
  obtain ⟨i1, i2, i3, i4⟩ := scanChain_inv ops fsub hsteps hwc
  dsimp only at i1 i2 i3 i4
  have hm1 : sc1.markedPageNo = sc.curPageNo := i3.2.1
  have hm2 : sc1.markedRec = sc.curRec := i3.2.2
  have hfp : sc1.filePtr = sc.filePtr := i3.1.1
  have hsf : sameFilter sc sc1 := i3.1
  have hc : sc1.markedPageNo = sc1.curPageNo ∨ CurPinned sc1 bm1 := by
    rcases i4 with ⟨-, g2, -⟩ | hcp1
    · exact Or.inl (by rw [hm1, g2]; rfl)
    · exact Or.inr hcp1
  obtain ⟨st, sc2, bm2, hreset, ⟨r1, r2, r3⟩, r4⟩ := resetScan_spec ops sc1 bm1 i1 hc
  refine ⟨⟨st, sc2, bm2, hreset, r1.trans hm1, r2.trans hm2, ?_⟩,
    fun sc' bm' h => resetScan_same ops sc' bm' h⟩
  intro hcur hp0
  obtain ⟨fr0, hcp0, hl0, hpin0⟩ := hcur
  obtain ⟨hl1, -, hpool1⟩ := i2 sc.filePtr sc.curPageNo fr0 hl0 hpin0
  have hx : sc1.markedPageNo = sc1.curPageNo → sc1.curPage = some fr0 := by
    intro e
    rcases i4 with ⟨g1, -, -⟩ | ⟨f, hf1, hf2, -⟩
    · rw [g1]
      exact hcp0
    · rw [← e, hm1, hfp, hl1] at hf2
      rw [hf1, ← Option.some.inj hf2]
  obtain ⟨hst, hcp2, hht2, hpool2⟩ := r4 fr0 (by rw [hm1, hfp]; exact hl1) hx
  refine ⟨hst, ?_⟩
  intro fuel st0 rid0 sc0 bm0 h0
  rw [scanNext_of_cursor ops fsub fuel sc bm fr0 hcp0 hp0] at h0
  rw [scanNext_of_cursor ops fsub fuel sc2 bm2 fr0 hcp2 (by rw [r1, hm1]; exact hp0)]
  have hsf2 : sameFilter sc sc2 := sameFilter_trans hsf r3
  rcases Relation.ReflTransGen.cases_head hsteps with heq | ⟨c, hstep, hrest⟩
  · have e1 : sc1 = sc.markScan.2 := (Prod.mk.inj heq).1.symm
    have e2 : bm1 = bm := (Prod.mk.inj heq).2.symm
    have hsame : sc1.markedPageNo = sc1.curPageNo := by
      rw [e1]
      rfl
    rw [resetScan_same ops sc1 bm1 hsame] at hreset
    simp only [Option.some.injEq, Prod.mk.injEq] at hreset
    obtain ⟨-, -, h3⟩ := hreset
    obtain ⟨b', hb'⟩ := pageLoop_congr ops fsub fuel sc sc2 bm st0 rid0 sc0 bm0
      (by rw [hcp2, hcp0]) hsf2 h0
    rw [← h3, e2]
    exact ⟨b', bm0, hb'⟩
  · obtain ⟨f1, rid1, hs1⟩ := hstep
    rw [scanNext_of_cursor ops fsub f1 sc.markScan.2 bm fr0 hcp0 hp0] at hs1
    obtain ⟨a1, ha1⟩ := pageLoop_congr ops fsub f1 sc.markScan.2 sc bm _ _ _ _ rfl
      ⟨rfl, rfl, rfl, rfl, rfl, rfl⟩ hs1
    have hdet := pageLoop_det ops fsub f1 fuel sc bm _ _ ha1 h0
    simp only [Prod.mk.injEq] at hdet
    obtain ⟨d1, d2, d3, d4⟩ := hdet
    subst d1 d2 d3 d4
    obtain ⟨hwc1, -, -, -⟩ := pageLoop_inv ops fsub f1 _ bm _ _ _ _ hwc hs1
    obtain ⟨-, j2, -, -⟩ := scanChain_inv ops fsub hrest hwc1
    dsimp only at j2
    have hres : BufMgr.Resides c.2 bm2 := j2.resides hht2 hpool2
    exact pageLoop_replay ops fsub fuel sc bm rid1 a1 c.2 hwc h0 sc2 bm2 fr0 hcp0 hcp2
      (by rw [hpool2, hpool1]) hsf2 hres

end HeapFileScan

/-- C12 fails for a scan that has been ended (no current page,
`curPageNo = 0`), on a pool of three frames and a store that can read page 0
of the file: `scanNext` called at the mark returns `OK` with RID (3, 0); after
`markScan`, one `scanNext` (which returns that RID and leaves page 2 pinned
behind it) and `resetScan` (which returns `OK` and restores `curPageNo = 0`
and `curRec` by pinning page 0), the next `scanNext` returns
`BUFFEREXCEEDED`. -/
theorem markScan_resetScan_ended_scan :
    (endedScan heap3 Operator.GT 5).bind (fun s =>
        (s.1.scanNext memOps noFloat 8 s.2).map (fun r => (r.1, r.2.1))) =
      some (Status.OK, some ⟨3, 0⟩) ∧
    (endedScan heap3 Operator.GT 5).bind (fun s => markResetRun 1 s.1 s.2) =
      some ([(Status.OK, some ⟨3, 0⟩)], Status.OK, (0, ⟨-1, -1⟩), Status.BUFFEREXCEEDED, none) :=
  ⟨rfl, rfl⟩

/-- Mark and reset on the open scan of `heap3` for `GT 5` (current page 2,
pinned): after `markScan`, one `scanNext` (which moves to page 3) and
`resetScan`, the cursor is back on page 2 with the `curRec` of the mark, and
the next `scanNext` returns `OK` with RID (3, 0), as `scanNext` at the mark
does. -/
theorem markScan_resetScan_witness :
    ∃ sc bm sc2 bm2 sc3 bm3, openScan heap3 Operator.GT 5 = some (sc, bm) ∧
      (scanTimes 1 sc.markScan.2 bm).bind (fun r => r.2.1.resetScan memOps r.2.2) =
        some (Status.OK, sc2, bm2) ∧
      sc2.curPageNo = 2 ∧ sc2.curRec = sc.curRec ∧
      HeapFileScan.scanNext memOps noFloat 8 sc2 bm2 =
        some (Status.OK, some ⟨3, 0⟩, sc3, bm3) := by
  have h : ∃ sc bm sc1 bm1 sc0 bm0, openScan heap3 Operator.GT 5 = some (sc, bm) ∧
      BufMgr.WF bm ∧ HeapFileScan.CurPinned sc bm ∧ sc.curPageNo = 2 ∧
      HeapFileScan.scanNext memOps noFloat 8 sc.markScan.2 bm =
        some (Status.OK, some ⟨3, 0⟩, sc1, bm1) ∧
      HeapFileScan.scanNext memOps noFloat 8 sc bm = some (Status.OK, some ⟨3, 0⟩, sc0, bm0) :=
    ⟨_, _, _, _, _, _, rfl, by decide, ⟨1, rfl, rfl, by decide⟩, rfl, rfl, rfl⟩
  obtain ⟨sc, bm, sc1, bm1, sc0, bm0, hopen, hwf, hcur, hpn, hstep, hdirect⟩ := h
  obtain ⟨⟨st, sc2, bm2, hreset, hp, hr, hb⟩, -⟩ :=
    HeapFileScan.markScan_resetScan memOps noFloat sc bm hwf sc1 bm1
      (Relation.ReflTransGen.single ⟨8, ⟨3, 0⟩, hstep⟩)
  obtain ⟨hst, hnext⟩ := hb hcur (by rw [hpn]; decide)
  obtain ⟨sc3, bm3, h3⟩ := hnext 8 _ _ _ _ hdirect
  subst hst
  refine ⟨sc, bm, sc2, bm2, sc3, bm3, hopen, ?_, by rw [hp, hpn], hr, h3⟩
  unfold scanTimes
  rw [hstep]
  simp only [scanTimes, Option.bind_some]
  exact hreset

/-! ## The frame that `allocBuf` hands out -/

namespace BufMgr

variable {σ : Type} {N : Nat}

/-- Every reachable pool state is well-formed. -/
theorem Reachable.wfcore {ops : FileOps σ} {s : BufMgr σ N} (h : Reachable ops s) :
    WFcore s := by
  induction h with
  | new hN disk => exact WFcore_new hN disk
  | readPage s file PageNo r _ hr ih =>
    obtain ⟨st, pg, t⟩ := r
    exact readPage_keeps_WFcore ops ih file PageNo st pg t hr
  | unPinPage s file PageNo dirty _ ih => exact unPinPage_WFcore ih file PageNo dirty
  | allocPage s file r _ hr ih =>
    obtain ⟨r1, hr1, hw1⟩ := allocPage_WFcore ops ih file
    rw [hr] at hr1
    rw [← Option.some.inj hr1] at hw1
    exact hw1
  | disposePage s file pageNo _ ih => exact disposePage_WFcore ops ih file pageNo
  | flushFile s file _ ih => exact flushLoop_WFcore ops file _ s ih

/-- The descriptor of the frame the clock loop hands out: cleared if the
frame held a valid page, and untouched if the frame was invalid. -/
theorem clockLoop_selected (ops : FileOps σ) :
    ∀ (fuel : Nat) (s : BufMgr σ N) (r : Status × Option (Fin N) × BufMgr σ N),
      clockLoop ops fuel s = some r → ∀ fr, r.2.1 = some fr →
      ((s.bufTable fr).valid = true → r.2.2.bufTable fr = (s.bufTable fr).Clear) ∧
      ((s.bufTable fr).valid = false → r.2.2.bufTable fr = s.bufTable fr) := by
  intro fuel
  induction fuel with
  | zero => intro s r h; simp [clockLoop] at h
  | succ n ih =>
    intro s r h fr hfr
    rw [clockLoop] at h
    dsimp only at h
    have hevict : ∀ t : BufMgr σ N, t.bufTable = s.bufTable →
        t.clockHand = s.advanceClock.clockHand →
        (s.bufTable s.advanceClock.clockHand).valid = true → t.evict.2.1 = some fr →
        ((s.bufTable fr).valid = true → t.evict.2.2.bufTable fr = (s.bufTable fr).Clear) ∧
        ((s.bufTable fr).valid = false → t.evict.2.2.bufTable fr = s.bufTable fr) := by
      intro t ht hh hv hsel
      simp only [evict, Option.some.injEq] at hsel
      rw [hh] at hsel
      subst hsel
      refine ⟨fun _ => ?_, fun hf => ?_⟩
      · simp only [evict]
        rw [hh, Function.update_same, ht]
      · rw [hv] at hf
        exact absurd hf (by simp)
    split at h
    · rename_i hv
      simp only [Option.some.injEq] at h
      rw [← h] at hfr ⊢
      simp only [Option.some.injEq] at hfr
      subst hfr
      refine ⟨fun hf => ?_, fun _ => rfl⟩
      have hv1 : (s.bufTable s.advanceClock.clockHand).valid = false := by simpa using hv
      rw [hv1] at hf
      exact absurd hf (by simp)
    · rename_i hv
      have hv1 : (s.bufTable s.advanceClock.clockHand).valid = true := by simpa using hv
      split at h
      · obtain ⟨k1, k2⟩ := ih _ r h fr hfr
        dsimp only at k1 k2
        by_cases e : fr = s.advanceClock.clockHand
        · rw [e] at k1 k2 ⊢
          rw [Function.update_same] at k1 k2
          refine ⟨fun _ => ?_, fun hf => ?_⟩
          · rw [k1 hv1]
            rfl
          · rw [hv1] at hf
            exact absurd hf (by simp)
        · rw [Function.update_noteq e] at k1 k2
          exact ⟨k1, k2⟩
      · split at h
        · exact ih _ r h fr hfr
        · split at h
          · split at h
            · exact absurd h (by simp)
            · split at h
              · simp only [Option.some.injEq] at h
                rw [← h] at hfr
                exact absurd hfr (by simp)
              · simp only [Option.some.injEq] at h
                rw [← h] at hfr ⊢
                refine hevict _ ?_ ?_ hv1 hfr
                · rfl
                · rfl
          · simp only [Option.some.injEq] at h
            rw [← h] at hfr ⊢
            refine hevict _ ?_ ?_ hv1 hfr
            · rfl
            · rfl

/-- C21: in every pool state reachable from a freshly constructed pool by
`readPage`, `unPinPage`, `allocPage`, `disposePage` and `flushFile` calls,
when `allocBuf` returns `OK` it hands out a frame whose descriptor has
`valid = false`, `dirty = false` and `pinCnt = 0` and to which no index entry
maps.  If the frame held a valid page before the call, its descriptor is
cleared, so that `refbit = false` as well; if the frame was invalid before
the call, its descriptor is returned untouched, with the reference bit it
had. -/
theorem allocBuf_selected_frame (ops : FileOps σ) (s : BufMgr σ N) (hr : Reachable ops s)
    (fro : Option (Fin N)) (s' : BufMgr σ N)
    (h : allocBuf ops s = some (Status.OK, fro, s')) :
    ∃ fr, fro = some fr ∧ (s'.bufTable fr).valid = false ∧ (s'.bufTable fr).dirty = false ∧
      (s'.bufTable fr).pinCnt = 0 ∧ (∀ e ∈ s'.hashTable, e.frameNo ≠ fr) ∧
      ((s.bufTable fr).valid = true →
        s'.bufTable fr = (s.bufTable fr).Clear ∧ (s'.bufTable fr).refbit = false) ∧
      ((s.bufTable fr).valid = false → s'.bufTable fr = s.bufTable fr) := by
  have hw := hr.wfcore
  obtain ⟨hw1, hsel⟩ := allocBuf_WFcore ops h hw
  obtain ⟨fr, hfr, hv⟩ := hsel rfl
  dsimp only at hfr hv hw1
  have hloop : clockLoop ops (2 * N) s = some (Status.OK, fro, s') := by
    unfold allocBuf at h
    split at h
    · simp only [Option.some.injEq, Prod.mk.injEq] at h
      exact absurd h.1 (by simp)
    · exact h
  obtain ⟨k1, k2⟩ := clockLoop_selected ops _ s _ hloop fr hfr
  dsimp only at k1 k2
  refine ⟨fr, hfr, hv, (hw1.2.2.2 fr hv).2, (hw1.2.2.2 fr hv).1, ?_, ?_, k2⟩
  · intro e he hef
    have q := (hw1.2.1 e he).1
    rw [hef, hv] at q
    exact absurd q (by simp)
  · intro hvs
    refine ⟨k1 hvs, ?_⟩
    rw [k1 hvs]
    rfl

theorem readPool_reachable : Reachable memOps readPool := by
  unfold readPool
  cases h : readPage memOps (BufMgr.new Nat.one_pos pool2.disk) 7 3 with
  | none => exact Reachable.new _ _
  | some r => exact Reachable.readPage _ 7 3 r (Reachable.new _ _) h

theorem flushedPool_reachable : Reachable memOps flushedPool :=
  Reachable.flushFile _ 7 (Reachable.unPinPage _ 7 3 false readPool_reachable)

/-- C21 as stated fails for the reference bit: on a pool of one frame, after
page 3 of file 7 has been read, unpinned and flushed, the frame is invalid
with `refbit = true` (`flushFile` resets `file`, `pageNo` and `valid` only),
and `allocBuf` returns `OK` with that frame as it is: `valid = false`,
`dirty = false`, `pinCnt = 0`, but `refbit = true`. -/
theorem allocBuf_keeps_refbit_of_flushed :
    Reachable memOps flushedPool ∧
    (allocBuf memOps flushedPool).map (fun r =>
      (r.1, r.2.1, (r.2.2.bufTable 0).valid, (r.2.2.bufTable 0).dirty,
        (r.2.2.bufTable 0).pinCnt, (r.2.2.bufTable 0).refbit)) =
      some (Status.OK, some 0, false, false, 0, true) :=
  ⟨flushedPool_reachable, rfl⟩

/-- The frame handed out of the pool of one frame whose page has been read and
unpinned: the page is evicted and the descriptor cleared; and of the same pool
after `flushFile`: the invalid frame is handed out untouched. -/
theorem allocBuf_selected_frame_witness :
    (∃ s', allocBuf memOps unpinnedPool = some (Status.OK, some 0, s') ∧
      (s'.bufTable 0).valid = false ∧ (s'.bufTable 0).refbit = false ∧
      ∀ e ∈ s'.hashTable, e.frameNo ≠ 0) ∧
    ∃ s', allocBuf memOps flushedPool = some (Status.OK, some 0, s') ∧
      s'.bufTable 0 = flushedPool.bufTable 0 := by
  have hex : ∃ s', allocBuf memOps unpinnedPool = some (Status.OK, some 0, s') := ⟨_, rfl⟩
  have hex2 : ∃ s', allocBuf memOps flushedPool = some (Status.OK, some 0, s') := ⟨_, rfl⟩
  obtain ⟨s1, h1⟩ := hex
  obtain ⟨s2, h2⟩ := hex2
  obtain ⟨fr, hfr, hv, -, -, hno, hclear, -⟩ :=
    allocBuf_selected_frame memOps unpinnedPool
      (Reachable.unPinPage _ 7 3 false readPool_reachable) _ s1 h1
  obtain ⟨fr2, hfr2, -, -, -, -, -, hkeep⟩ :=
    allocBuf_selected_frame memOps flushedPool flushedPool_reachable _ s2 h2
  have e1 : fr = 0 := (Option.some.inj hfr).symm
  have e2 : fr2 = 0 := (Option.some.inj hfr2).symm
  subst e1 e2
  exact ⟨⟨s1, h1, hv, (hclear (by decide)).2, hno⟩, s2, h2, hkeep (by decide)⟩

end BufMgr

/-! ## The scan of one page is the scan of its records -/

theorem Page.findSlot_nil (p : Page) (start : Nat) (h : p.slots.drop start = []) :
    p.findSlot start = none := by
  unfold Page.findSlot
  have hle : p.slots.length ≤ start := List.drop_eq_nil_iff.1 h
  rw [Nat.sub_eq_zero_of_le hle]
  rfl

theorem Page.drop_cons (p : Page) (start : Nat) (x : Option Record) (rest : List (Option Record))
    (h : p.slots.drop start = x :: rest) :
    start < p.slots.length ∧ p.slots.getD start none = x ∧ p.slots.drop (start + 1) = rest := by
  have hlt : start < p.slots.length := by
    by_contra hge
    rw [List.drop_eq_nil_iff.2 (Nat.le_of_not_lt hge)] at h
    exact absurd h (by simp)
  refine ⟨hlt, ?_, ?_⟩
  · have h1 : (p.slots.drop start).head? = some x := by rw [h]; rfl
    rw [List.head?_drop] at h1
    rw [List.getD_eq_getElem?_getD, h1]
    rfl
  · have h2 : (p.slots.drop start).drop 1 = rest := by rw [h]; rfl
    rw [List.drop_drop] at h2
    exact h2

theorem Page.findSlot_cons (p : Page) (start : Nat) (x : Option Record)
    (rest : List (Option Record)) (h : p.slots.drop start = x :: rest) :
    p.findSlot start = if x.isSome then some start else p.findSlot (start + 1) := by
  obtain ⟨hlt, hx, -⟩ := p.drop_cons start x rest h
  unfold Page.findSlot
  have e : p.slots.length - start = (p.slots.length - (start + 1)) + 1 := by omega
  rw [e, List.range'_succ, List.find?_cons, hx]
  cases x.isSome <;> rfl

theorem Page.getRecord_of_getD (p : Page) (pageNo : Int) (i : Nat) (rec : Record)
    (h : p.slots.getD i none = some rec) : p.getRecord ⟨pageNo, i⟩ = Except.ok rec := by
  unfold Page.getRecord
  dsimp only
  rw [if_neg (by omega), Int.toNat_ofNat, h]

theorem Page.nextRecord_eq (p : Page) (pageNo : Int) (i : Nat) :
    p.nextRecord ⟨pageNo, i⟩ =
      match p.findSlot (i + 1) with
      | some j => Except.ok ⟨p.curPage, j⟩
      | none => Except.error Status.NOMORERECS := by
  unfold Page.nextRecord
  dsimp only
  rw [if_neg (by omega), Int.toNat_ofNat]

/-- A record listed for a page is the record `getRecord` returns at its RID. -/
theorem mem_recordsFrom (pageNo : Int) :
    ∀ (l : List (Option Record)) (k : Nat) (rid : RID) (rec : Record),
      (rid, rec) ∈ recordsFrom pageNo k l →
      ∃ i, rid = ⟨pageNo, ((k + i : Nat) : Int)⟩ ∧ l.getD i none = some rec := by
  intro l
  induction l with
  | nil => intro k rid rec h; simp [recordsFrom] at h
  | cons x rest ih =>
    intro k rid rec h
    cases x with
    | none =>
      rw [recordsFrom] at h
      obtain ⟨i, h1, h2⟩ := ih (k + 1) rid rec h
      refine ⟨i + 1, ?_, ?_⟩
      · rw [h1]
        congr 2
        omega
      · simpa using h2
    | some r0 =>
      rw [recordsFrom, List.mem_cons] at h
      rcases h with h | h
      · simp only [Prod.mk.injEq] at h
        exact ⟨0, by rw [h.1]; rfl, by rw [h.2]; rfl⟩
      · obtain ⟨i, h1, h2⟩ := ih (k + 1) rid rec h
        refine ⟨i + 1, ?_, ?_⟩
        · rw [h1]
          congr 2
          omega
        · simpa using h2

theorem Page.getRecord_of_mem_records (p : Page) (rid : RID) (rec : Record)
    (h : (rid, rec) ∈ p.records) : p.getRecord rid = Except.ok rec := by
  obtain ⟨i, h1, h2⟩ := mem_recordsFrom p.curPage p.slots 0 rid rec h
  rw [h1, Nat.zero_add]
  exact p.getRecord_of_getD _ i rec h2

namespace HeapFileScan

variable {σ : Type} {N : Nat}

/-- The record loop entered at the first occupied slot from `start` on is the
scan of the records from `start` on. -/
theorem recordLoop_eq_scanRecords (fsub : List Byte → List Byte → DiffClass)
    (sc : HeapFileScan N) (p : Page) :
    ∀ (l : List (Option Record)) (start fuel : Nat), p.slots.drop start = l →
      l.length + 1 ≤ fuel →
      (match p.findSlot start with
        | some i => recordLoop fsub sc p fuel ⟨p.curPage, i⟩
        | none => some RecordScan.exhausted) =
        scanRecords fsub sc (recordsFrom p.curPage start l) := by
  intro l
  induction l with
  | nil =>
    intro start fuel h _
    rw [p.findSlot_nil start h]
    rfl
  | cons x rest ih =>
    intro start fuel h hf
    obtain ⟨-, hx, hrest⟩ := p.drop_cons start x rest h
    rw [p.findSlot_cons start x rest h]
    cases x with
    | none =>
      rw [recordsFrom]
      exact ih (start + 1) fuel hrest (by simp only [List.length_cons] at hf; omega)
    | some rec =>
      simp only [Option.isSome_some, if_true]
      obtain ⟨fuel1, rfl⟩ : ∃ fuel1, fuel = fuel1 + 1 :=
        ⟨fuel - 1, by simp only [List.length_cons] at hf; omega⟩
      have ih1 := ih (start + 1) fuel1 hrest (by simp only [List.length_cons] at hf; omega)
      rw [recordLoop, p.getRecord_of_getD p.curPage start rec hx, recordsFrom, scanRecords]
      dsimp only
      cases sc.matchRec fsub rec with
      | none => rfl
      | some b =>
        cases b with
        | true => rfl
        | false =>
          dsimp only
          rw [← ih1, p.nextRecord_eq]
          cases p.findSlot (start + 1) <;> rfl

/-- The scan of a page in `scanNext` is the scan of the records of the page in
slot order. -/
theorem scanPage_eq_scanRecords (fsub : List Byte → List Byte → DiffClass)
    (sc : HeapFileScan N) (p : Page) : scanPage fsub sc p = scanRecords fsub sc p.records := by
  have h := recordLoop_eq_scanRecords fsub sc p p.slots 0 (p.slots.length + 1) rfl (le_refl _)
  unfold Page.records
  rw [← h]
  unfold scanPage Page.firstRecord
  cases p.findSlot 0 <;> rfl

/-- A scan of records that stops on a match: the record matches, it is in the
list, and it is the first that matches. -/
theorem scanRecords_matched (fsub : List Byte → List Byte → DiffClass) (sc : HeapFileScan N) :
    ∀ (l : List (RID × Record)) (rid : RID),
      scanRecords fsub sc l = some (RecordScan.matched rid) →
      ∃ rec, (rid, rec) ∈ l ∧ sc.matchRec fsub rec = some true ∧
        l.find? (fun e => decide (sc.matchRec fsub e.2 = some true)) = some (rid, rec) := by
  intro l
  induction l with
  | nil => intro rid h; simp [scanRecords] at h
  | cons a rest ih =>
    intro rid h
    obtain ⟨r0, rec0⟩ := a
    rw [scanRecords] at h
    cases hm : sc.matchRec fsub rec0 with
    | none => rw [hm] at h; exact absurd h (by simp)
    | some b =>
      rw [hm] at h
      cases b with
      | true =>
        simp only [Option.some.injEq, RecordScan.matched.injEq] at h
        subst h
        exact ⟨rec0, List.mem_cons_self _ _, hm, by simp [hm]⟩
      | false =>
        obtain ⟨rec, h1, h2, h3⟩ := ih rid h
        exact ⟨rec, List.mem_cons_of_mem _ h1, h2, by simp [hm, h3]⟩

/-- A scan of records that finds nothing: no record of the list matches. -/
theorem scanRecords_exhausted (fsub : List Byte → List Byte → DiffClass)
    (sc : HeapFileScan N) :
    ∀ (l : List (RID × Record)), scanRecords fsub sc l = some RecordScan.exhausted →
      (∀ e ∈ l, sc.matchRec fsub e.2 = some false) ∧
      l.find? (fun e => decide (sc.matchRec fsub e.2 = some true)) = none := by
  intro l
  induction l with
  | nil => intro _; exact ⟨fun e he => absurd he (by simp), rfl⟩
  | cons a rest ih =>
    intro h
    obtain ⟨r0, rec0⟩ := a
    rw [scanRecords] at h
    cases hm : sc.matchRec fsub rec0 with
    | none => rw [hm] at h; exact absurd h (by simp)
    | some b =>
      rw [hm] at h
      cases b with
      | true => exact absurd h (by simp)
      | false =>
        obtain ⟨h1, h2⟩ := ih h
        refine ⟨?_, by simp [hm, h2]⟩
        intro e he
        rcases List.mem_cons.1 he with he | he
        · rw [he]
          exact hm
        · exact h1 e he

/-- A scan of records never ends on a failed `getRecord`. -/
theorem scanRecords_ne_failed (fsub : List Byte → List Byte → DiffClass)
    (sc : HeapFileScan N) :
    ∀ (l : List (RID × Record)) (st : Status),
      scanRecords fsub sc l ≠ some (RecordScan.failed st) := by
  intro l
  induction l with
  | nil => intro st h; simp [scanRecords] at h
  | cons a rest ih =>
    intro st h
    obtain ⟨r0, rec0⟩ := a
    rw [scanRecords] at h
    cases hm : sc.matchRec fsub rec0 with
    | none => rw [hm] at h; exact absurd h (by simp)
    | some b =>
      rw [hm] at h
      cases b with
      | true => exact absurd h (by simp)
      | false => exact ih st h

/-- When `matchRec` has a value on every record, the scan of the records has a
result: a match or nothing. -/
theorem scanRecords_total (fsub : List Byte → List Byte → DiffClass) (sc : HeapFileScan N) :
    ∀ (l : List (RID × Record)), (∀ e ∈ l, (sc.matchRec fsub e.2).isSome = true) →
      (∃ rid, scanRecords fsub sc l = some (RecordScan.matched rid)) ∨
      scanRecords fsub sc l = some RecordScan.exhausted := by
  intro l
  induction l with
  | nil => intro _; exact Or.inr rfl
  | cons a rest ih =>
    intro h
    obtain ⟨r0, rec0⟩ := a
    rw [scanRecords]
    have h0 := h (r0, rec0) (List.mem_cons_self _ _)
    cases hm : sc.matchRec fsub rec0 with
    | none =>
      dsimp only at h0
      rw [hm] at h0
      exact absurd h0 (by simp)
    | some b =>
      cases b with
      | true => exact Or.inl ⟨r0, rfl⟩
      | false => exact ih (fun e he => h e (List.mem_cons_of_mem _ he))

end HeapFileScan

/-! ## `scanNext` returns the first match of the page chain -/

namespace HeapFileScan

variable {σ : Type} {N : Nat}

theorem firstMatch_params (fsub : List Byte → List Byte → DiffClass) {a b : HeapFileScan N}
    (h : sameFilter a b) : ∀ pages : List Page, firstMatch fsub b pages = firstMatch fsub a pages := by
  have e : (fun e : RID × Record => decide (b.matchRec fsub e.2 = some true)) =
      (fun e : RID × Record => decide (a.matchRec fsub e.2 = some true)) := by
    funext e
    rw [matchRec_params fsub b a h.2.1 h.2.2.1 h.2.2.2.1 h.2.2.2.2.1 h.2.2.2.2.2]
  intro pages
  induction pages with
  | nil => rfl
  | cons p ps ih =>
    rw [firstMatch, firstMatch, e, ih]

/-- A page on which the scan stops on a match gives the first match of any
list of pages that starts with it. -/
theorem firstMatch_of_matched (fsub : List Byte → List Byte → DiffClass) (sc : HeapFileScan N)
    (p : Page) (ps : List Page) (rid : RID)
    (h : scanPage fsub sc p = some (RecordScan.matched rid)) :
    firstMatch fsub sc (p :: ps) = some rid ∧
    ∃ rec, p.getRecord rid = Except.ok rec ∧ sc.matchRec fsub rec = some true := by
  rw [scanPage_eq_scanRecords] at h
  obtain ⟨rec, hmem, hm, hfind⟩ := scanRecords_matched fsub sc _ rid h
  refine ⟨?_, rec, p.getRecord_of_mem_records rid rec hmem, hm⟩
  rw [firstMatch, hfind]

/-- A page on which the scan finds nothing has no matching record and is
passed over by the first match. -/
theorem firstMatch_of_exhausted (fsub : List Byte → List Byte → DiffClass)
    (sc : HeapFileScan N) (p : Page) (ps : List Page)
    (h : scanPage fsub sc p = some RecordScan.exhausted) :
    firstMatch fsub sc (p :: ps) = firstMatch fsub sc ps := by
  rw [scanPage_eq_scanRecords] at h
  obtain ⟨-, hfind⟩ := scanRecords_exhausted fsub sc _ h
  rw [firstMatch, hfind]

/-- No first match means that no record of the pages matches. -/
theorem firstMatch_eq_none_iff (fsub : List Byte → List Byte → DiffClass) (sc : HeapFileScan N) :
    ∀ pages : List Page, firstMatch fsub sc pages = none ↔
      ∀ p ∈ pages, ∀ e ∈ p.records, sc.matchRec fsub e.2 ≠ some true := by
  intro pages
  induction pages with
  | nil => simp [firstMatch]
  | cons p ps ih =>
    rw [firstMatch]
    cases hf : p.records.find? (fun e => decide (sc.matchRec fsub e.2 = some true)) with
    | some e =>
      have hm := List.find?_some hf
      have hmem := List.mem_of_find?_eq_some hf
      simp only [decide_eq_true_eq] at hm
      constructor
      · intro h
        exact absurd h (by simp)
      · intro h
        exact absurd hm (h p (List.mem_cons_self _ _) e hmem)
    | none =>
      dsimp only
      rw [ih]
      rw [List.find?_eq_none] at hf
      constructor
      · intro h q hq e he
        rcases List.mem_cons.1 hq with hq | hq
        · rw [hq] at he
          have := hf e he
          simpa using this
        · exact h q hq e he
      · intro h q hq
        exact h q (List.mem_cons_of_mem _ hq)

theorem pagesFrom_single (ops : FileOps σ) (k : Nat) (sc : HeapFileScan N) (bm : BufMgr σ N)
    (fr : Fin N) (hcp : sc.curPage = some fr) (h : k = 0 ∨ (bm.bufPool fr).nextPage = -1) :
    pagesFrom ops k sc bm = some [bm.bufPool fr] := by
  cases k with
  | zero =>
    rw [pagesFrom, hcp]
  | succ k =>
    rcases h with h | h
    · exact absurd h (by simp)
    · rw [pagesFrom, hcp]
      dsimp only
      rw [if_pos h]

theorem pagesFrom_read (ops : FileOps σ) (k : Nat) (sc : HeapFileScan N) (bm : BufMgr σ N)
    (fr f1 : Fin N) (bm1 : BufMgr σ N) (hcp : sc.curPage = some fr)
    (hn : (bm.bufPool fr).nextPage ≠ -1)
    (hr : bm.readPage ops sc.filePtr (bm.bufPool fr).nextPage =
      some (Status.OK, some f1, bm1)) :
    pagesFrom ops (k + 1) sc bm =
      (pagesFrom ops k { sc with curPageNo := (bm.bufPool fr).nextPage, curPage := some f1 }
        bm1).map (fun ps => bm.bufPool fr :: ps) := by
  rw [pagesFrom, hcp]
  dsimp only
  rw [if_neg hn, hr]

/-- The two ways in which `pagesFrom` yields a list. -/
theorem pagesFrom_cases (ops : FileOps σ) (k : Nat) (sc : HeapFileScan N) (bm : BufMgr σ N)
    (pages : List Page) (h : pagesFrom ops k sc bm = some pages) :
    ∃ fr, sc.curPage = some fr ∧
      ((pages = [bm.bufPool fr] ∧ (k = 0 ∨ (bm.bufPool fr).nextPage = -1)) ∨
        (∃ k1 f1 bm1 rest, k = k1 + 1 ∧ (bm.bufPool fr).nextPage ≠ -1 ∧
          bm.readPage ops sc.filePtr (bm.bufPool fr).nextPage =
            some (Status.OK, some f1, bm1) ∧
          pagesFrom ops k1
            { sc with curPageNo := (bm.bufPool fr).nextPage, curPage := some f1 } bm1 =
            some rest ∧
          pages = bm.bufPool fr :: rest)) := by
  have hcp : sc.curPage = none ∨ ∃ fr, sc.curPage = some fr := by
    cases sc.curPage with
    | none => exact Or.inl rfl
    | some fr => exact Or.inr ⟨fr, rfl⟩
  rcases hcp with hcp | ⟨fr, hcp⟩
  · cases k with
    | zero =>
      rw [pagesFrom, hcp] at h
      exact absurd h (by simp)
    | succ k =>
      rw [pagesFrom, hcp] at h
      exact absurd h (by simp)
  · refine ⟨fr, hcp, ?_⟩
    by_cases hk : k = 0 ∨ (bm.bufPool fr).nextPage = -1
    · rw [pagesFrom_single ops k sc bm fr hcp hk] at h
      exact Or.inl ⟨(Option.some.inj h).symm, hk⟩
    · rw [not_or] at hk
      obtain ⟨k1, rfl⟩ : ∃ k1, k = k1 + 1 := ⟨k - 1, by omega⟩
      have hr : bm.readPage ops sc.filePtr (bm.bufPool fr).nextPage = none ∨
          ∃ st pg bm1, bm.readPage ops sc.filePtr (bm.bufPool fr).nextPage =
            some (st, pg, bm1) := by
        cases bm.readPage ops sc.filePtr (bm.bufPool fr).nextPage with
        | none => exact Or.inl rfl
        | some q => exact Or.inr ⟨q.1, q.2.1, q.2.2, rfl⟩
      rcases hr with hr | ⟨st, pg, bm1, hr⟩
      · rw [pagesFrom, hcp] at h
        dsimp only at h
        rw [if_neg hk.2, hr] at h
        exact absurd h (by simp)
      · by_cases hst : st = Status.OK
        · subst hst
          obtain ⟨f1, hpg, -, -⟩ := BufMgr.readPage_ok_pinned ops _ _ _ _ _ hr
          subst hpg
          rw [pagesFrom_read ops k1 sc bm fr f1 bm1 hcp hk.2 hr] at h
          rw [Option.map_eq_some'] at h
          obtain ⟨rest, h1, h2⟩ := h
          exact Or.inr ⟨k1, f1, bm1, rest, rfl, hk.2, hr, h1, h2.symm⟩
        · have hpg := BufMgr.readPage_fail_frame ops _ _ _ _ _ _ hr hst
          subst hpg
          rw [pagesFrom, hcp] at h
          dsimp only at h
          rw [if_neg hk.2, hr] at h
          cases st <;> first | exact absurd rfl hst | exact absurd h (by simp)

theorem pagesFrom_ne_nil (ops : FileOps σ) (k : Nat) (sc : HeapFileScan N) (bm : BufMgr σ N)
    (pages : List Page) (h : pagesFrom ops k sc bm = some pages) : pages ≠ [] := by
  obtain ⟨fr, -, ⟨hp, -⟩ | ⟨_, _, _, _, -, -, -, -, hp⟩⟩ := pagesFrom_cases ops k sc bm pages h
  · rw [hp]
    simp
  · rw [hp]
    simp

/-- Soundness of the loop of `scanNext`: when it returns `OK`, it returns a
RID; `curRec` is that RID; the record at that RID on the current page
satisfies `matchRec`; and the RID is the first match of the pages gone
through, which are the current page at entry and the pages of the chain after
it up to the page of the match. -/
theorem pageLoop_sound (ops : FileOps σ) (fsub : List Byte → List Byte → DiffClass) :
    ∀ (f : Nat) (sc : HeapFileScan N) (bm : BufMgr σ N) (rid : Option RID)
      (sc' : HeapFileScan N) (bm' : BufMgr σ N),
      pageLoop ops fsub f sc bm = some (Status.OK, rid, sc', bm') →
      ∃ r rec k pages fr, rid = some r ∧ sc'.curRec = r ∧ sc'.curPage = some fr ∧
        (bm'.bufPool fr).getRecord r = Except.ok rec ∧ sc.matchRec fsub rec = some true ∧
        pagesFrom ops k sc bm = some pages ∧ firstMatch fsub sc pages = some r := by
  intro f
  induction f with
  | zero => intro sc bm rid sc' bm' h; simp [pageLoop] at h
  | succ n ih =>
    intro sc bm rid sc' bm' h
    rw [pageLoop_step] at h
    rcases pageStep_cases ops fsub sc bm with hst | ⟨fr, hcp, hc⟩
    · rw [hst] at h
      exact absurd h (by simp)
    · rcases hc with ⟨rid0, hs⟩ | ⟨st0, hs⟩ | ⟨hs, hn⟩ |
        ⟨hs, hn, ⟨st0, bm1, hr, hst0⟩ | ⟨f1, bm1, hr⟩⟩
      · rw [pageStep_matched ops fsub sc bm fr rid0 hcp hs] at h
        simp only [Option.some.injEq, Prod.mk.injEq, true_and] at h
        obtain ⟨h1, h2, h3⟩ := h
        subst h1 h2 h3
        obtain ⟨hfm, rec, hget, hm⟩ := firstMatch_of_matched fsub sc (bm.bufPool fr) [] rid0 hs
        exact ⟨rid0, rec, 0, [bm.bufPool fr], fr, rfl, rfl, hcp, hget, hm,
          pagesFrom_single ops 0 sc bm fr hcp (Or.inl rfl), hfm⟩
      · rw [scanPage_eq_scanRecords] at hs
        exact absurd hs (scanRecords_ne_failed fsub sc _ st0)
      · rw [pageStep_eof ops fsub sc bm fr hcp hs hn] at h
        simp only [Option.some.injEq, Prod.mk.injEq] at h
        exact absurd h.1 (by simp)
      · rw [pageStep_read_fail ops fsub sc bm fr st0 bm1 hcp hs hn hr hst0] at h
        simp only [Option.some.injEq, Prod.mk.injEq] at h
        exact absurd h.1 hst0
      · rw [pageStep_read_ok ops fsub sc bm fr f1 bm1 hcp hs hn hr] at h
        dsimp only at h
        obtain ⟨r, rec, k, pages, fr', h1, h2, h3, h4, h5, h6, h7⟩ := ih _ bm1 rid sc' bm' h
        have hsf : sameFilter sc
            { sc with curPageNo := (bm.bufPool fr).nextPage, curPage := some f1 } :=
          ⟨rfl, rfl, rfl, rfl, rfl, rfl⟩
        refine ⟨r, rec, k + 1, bm.bufPool fr :: pages, fr', h1, h2, h3, h4, ?_, ?_, ?_⟩
        · rw [← h5]
          exact matchRec_params fsub _ _ rfl rfl rfl rfl rfl rec
        · rw [pagesFrom_read ops k sc bm fr f1 bm1 hcp hn hr, h6]
          rfl
        · rw [firstMatch_of_exhausted fsub sc _ _ hs, ← firstMatch_params fsub hsf]
          exact h7

/-- Completeness of the loop of `scanNext`: when the chain from the current
page can be read to its end, in at most `k` reads, `matchRec` has a value on
every record of these pages, and the loop may visit more than `k` pages, it
returns: the RID of the first match with `OK`, or no RID with `FILEEOF` when
there is no match. -/
theorem pageLoop_complete (ops : FileOps σ) (fsub : List Byte → List Byte → DiffClass) :
    ∀ (k : Nat) (sc : HeapFileScan N) (bm : BufMgr σ N) (pages : List Page),
      pagesFrom ops k sc bm = some pages →
      (pages.getLast?.map Page.nextPage).getD (-1) = -1 →
      (∀ p ∈ pages, ∀ e ∈ p.records, (sc.matchRec fsub e.2).isSome = true) →
      ∀ f, k < f →
      ∃ st rid sc' bm', pageLoop ops fsub f sc bm = some (st, rid, sc', bm') ∧
        rid = firstMatch fsub sc pages ∧
        st = if (firstMatch fsub sc pages).isSome then Status.OK else Status.FILEEOF := by
  intro k
  induction k with
  | zero =>
    intro sc bm pages hp hend htot f hf
    obtain ⟨f1, rfl⟩ : ∃ f1, f = f1 + 1 := ⟨f - 1, by omega⟩
    obtain ⟨fr, hcp, ⟨hpg, -⟩ | ⟨k1, _, _, _, hk, -⟩⟩ := pagesFrom_cases ops 0 sc bm pages hp
    · subst hpg
      have hn : (bm.bufPool fr).nextPage = -1 := by simpa using hend
      rw [pageLoop_step]
      have ht := scanRecords_total fsub sc _ (htot _ (List.mem_singleton_self _))
      rw [← scanPage_eq_scanRecords] at ht
      rcases ht with ⟨rid0, hs⟩ | hs
      · rw [pageStep_matched ops fsub sc bm fr rid0 hcp hs]
        have hfm := (firstMatch_of_matched fsub sc (bm.bufPool fr) [] rid0 hs).1
        exact ⟨_, _, _, _, rfl, hfm.symm, by rw [hfm]; rfl⟩
      · rw [pageStep_eof ops fsub sc bm fr hcp hs hn]
        have hfm := firstMatch_of_exhausted fsub sc (bm.bufPool fr) [] hs
        exact ⟨_, _, _, _, rfl, by rw [hfm]; rfl, by rw [hfm]; rfl⟩
    · exact absurd hk (by simp)
  | succ k ih =>
    intro sc bm pages hp hend htot f hf
    obtain ⟨f1, rfl⟩ : ∃ f1, f = f1 + 1 := ⟨f - 1, by omega⟩
    rw [pageLoop_step]
    obtain ⟨fr, hcp, ⟨hpg, hk⟩ | ⟨k1, f2, bm1, rest, hk, hn, hr, hrest, hpg⟩⟩ :=
      pagesFrom_cases ops (k + 1) sc bm pages hp
    · subst hpg
      have hn : (bm.bufPool fr).nextPage = -1 := by simpa using hend
      have ht := scanRecords_total fsub sc _ (htot _ (List.mem_singleton_self _))
      rw [← scanPage_eq_scanRecords] at ht
      rcases ht with ⟨rid0, hs⟩ | hs
      · rw [pageStep_matched ops fsub sc bm fr rid0 hcp hs]
        have hfm := (firstMatch_of_matched fsub sc (bm.bufPool fr) [] rid0 hs).1
        exact ⟨_, _, _, _, rfl, hfm.symm, by rw [hfm]; rfl⟩
      · rw [pageStep_eof ops fsub sc bm fr hcp hs hn]
        have hfm := firstMatch_of_exhausted fsub sc (bm.bufPool fr) [] hs
        exact ⟨_, _, _, _, rfl, by rw [hfm]; rfl, by rw [hfm]; rfl⟩
    · subst hpg
      have hk1 : k1 = k := by omega
      subst hk1
      have ht := scanRecords_total fsub sc _ (htot _ (List.mem_cons_self _ _))
      rw [← scanPage_eq_scanRecords] at ht
      rcases ht with ⟨rid0, hs⟩ | hs
      · rw [pageStep_matched ops fsub sc bm fr rid0 hcp hs]
        have hfm := (firstMatch_of_matched fsub sc (bm.bufPool fr) rest rid0 hs).1
        exact ⟨_, _, _, _, rfl, hfm.symm, by rw [hfm]; rfl⟩
      · rw [pageStep_read_ok ops fsub sc bm fr f2 bm1 hcp hs hn hr]
        dsimp only
        have hsf : sameFilter sc
            { sc with curPageNo := (bm.bufPool fr).nextPage, curPage := some f2 } :=
          ⟨rfl, rfl, rfl, rfl, rfl, rfl⟩
        have hne := pagesFrom_ne_nil ops k1 _ bm1 rest hrest
        have hend1 : (rest.getLast?.map Page.nextPage).getD (-1) = -1 := by
          obtain ⟨a, l, hal⟩ := List.exists_cons_of_ne_nil hne
          rw [hal, List.getLast?_cons_cons] at hend
          rw [hal]
          exact hend
        obtain ⟨st, rid, sc', bm', h1, h2, h3⟩ := ih _ bm1 rest hrest hend1
          (fun p hp e he => by
            rw [matchRec_params fsub _ sc hsf.2.1 hsf.2.2.1 hsf.2.2.2.1 hsf.2.2.2.2.1
              hsf.2.2.2.2.2 e.2]
            exact htot p (List.mem_cons_of_mem _ hp) e he) f1 (by omega)
        rw [firstMatch_params fsub hsf] at h2 h3
        rw [← firstMatch_of_exhausted fsub sc (bm.bufPool fr) rest hs] at h2 h3
        exact ⟨st, rid, sc', bm', h1, h2, h3⟩

end HeapFileScan

namespace HeapFileScan

variable {σ : Type} {N : Nat}

/-- The entry of `scanNext`: the file has no page, and the call returns
`FILEEOF` at once; or the loop is entered on some state with the same file and
filter (the state of the call itself when the scan has a current page, the
state after the first page of the file has been read when it has none); or
the first page cannot be read, and the call does not return `OK`. -/
theorem scanNext_entry (ops : FileOps σ) (fsub : List Byte → List Byte → DiffClass)
    (sc : HeapFileScan N) (bm : BufMgr σ N) :
    ((∀ f, ∃ sc' , scanNext ops fsub f sc bm = some (Status.FILEEOF, none, sc', bm)) ∧
      ∀ k, scanPages ops k sc bm = some []) ∨
    (∃ sc3 bm1, sameFilter sc sc3 ∧
      (∀ f, scanNext ops fsub f sc bm = pageLoop ops fsub f sc3 bm1) ∧
      ∀ k, scanPages ops k sc bm = pagesFrom ops k sc3 bm1) ∨
    ((∀ k, scanPages ops k sc bm = none) ∧
      ∀ f r, scanNext ops fsub f sc bm = some r → r.1 ≠ Status.OK) := by
  by_cases hre : sc.curPage = none ∨ sc.curPageNo = 0
  · have hh : sc.headerPage = none ∨ ∃ hdr, sc.headerPage = some hdr := by
      cases sc.headerPage with
      | none => exact Or.inl rfl
      | some hdr => exact Or.inr ⟨hdr, rfl⟩
    rcases hh with hh | ⟨hdr, hh⟩
    · refine Or.inr (Or.inr ⟨fun k => ?_, fun f r h => ?_⟩)
      · unfold scanPages
        rw [if_pos hre, hh]
      · unfold scanNext at h
        rw [if_pos hre, hh] at h
        exact absurd h (by simp)
    · by_cases hfp : (bm.bufPool hdr).firstPage = -1
      · refine Or.inl ⟨fun f => ?_, fun k => ?_⟩
        · unfold scanNext
          rw [if_pos hre, hh]
          dsimp only
          rw [if_pos hfp]
          exact ⟨_, rfl⟩
        · unfold scanPages
          rw [if_pos hre, hh]
          dsimp only
          rw [if_pos hfp]
      · have hr : bm.readPage ops sc.filePtr (bm.bufPool hdr).firstPage = none ∨
            ∃ st pg bm1, bm.readPage ops sc.filePtr (bm.bufPool hdr).firstPage =
              some (st, pg, bm1) := by
          cases bm.readPage ops sc.filePtr (bm.bufPool hdr).firstPage with
          | none => exact Or.inl rfl
          | some q => exact Or.inr ⟨q.1, q.2.1, q.2.2, rfl⟩
        rcases hr with hr | ⟨st, pg, bm1, hr⟩
        · refine Or.inr (Or.inr ⟨fun k => ?_, fun f r h => ?_⟩)
          · unfold scanPages
            rw [if_pos hre, hh]
            dsimp only
            rw [if_neg hfp, hr]
          · unfold scanNext at h
            rw [if_pos hre, hh] at h
            dsimp only at h
            rw [if_neg hfp, hr] at h
            exact absurd h (by simp)
        · by_cases hst : st = Status.OK
          · subst hst
            obtain ⟨f1, hpg, -, -⟩ := BufMgr.readPage_ok_pinned ops _ _ _ _ _ hr
            subst hpg
            refine Or.inr (Or.inl ⟨{ sc with curPageNo := (bm.bufPool hdr).firstPage
                                             curPage := some f1, curDirtyFlag := false
                                             curRec := NULLRID }, bm1,
              ⟨rfl, rfl, rfl, rfl, rfl, rfl⟩, fun f => ?_, fun k => ?_⟩)
            · unfold scanNext
              rw [if_pos hre, hh]
              dsimp only
              rw [if_neg hfp, hr]
              dsimp only
              rw [if_neg (by simp)]
            · unfold scanPages
              rw [if_pos hre, hh]
              dsimp only
              rw [if_neg hfp, hr]
          · have hpg := BufMgr.readPage_fail_frame ops _ _ _ _ _ _ hr hst
            subst hpg
            refine Or.inr (Or.inr ⟨fun k => ?_, fun f r h => ?_⟩)
            · unfold scanPages
              rw [if_pos hre, hh]
              dsimp only
              rw [if_neg hfp, hr]
              cases st <;> first | exact absurd rfl hst | rfl
            · unfold scanNext at h
              rw [if_pos hre, hh] at h
              dsimp only at h
              rw [if_neg hfp, hr] at h
              dsimp only at h
              rw [if_pos hst] at h
              rw [← Option.some.inj h]
              exact hst
  · refine Or.inr (Or.inl ⟨sc, bm, sameFilter_refl sc, fun f => ?_, fun k => ?_⟩)
    · unfold scanNext
      rw [if_neg hre]
    · unfold scanPages
      rw [if_neg hre]

/-- C22: scan soundness.  Whenever `scanNext` returns `OK` it returns a RID
`r`; afterwards `curRec = r`, the record that `getRecord` finds at `curRec` on
the current page satisfies `matchRec`, and `r` is the first matching record,
in page-chain then slot order, of the pages gone through from the first record
of the current page (of the first page of the file when the scan has no
current page).  And when the chain of pages can be read to its end (every read
of the buffer manager succeeds), `matchRec` has a value on each of its
records and the bound on the pages visited is large enough, `scanNext`
returns: the first matching record of the chain with `OK`, or `FILEEOF`
without a RID; it returns `FILEEOF` exactly when no record of these pages
satisfies `matchRec`. -/
theorem scanNext_first_match (ops : FileOps σ) (fsub : List Byte → List Byte → DiffClass)
    (sc : HeapFileScan N) (bm : BufMgr σ N) :
    (∀ f rid sc' bm', scanNext ops fsub f sc bm = some (Status.OK, rid, sc', bm') →
      ∃ r rec k pages, rid = some r ∧ sc'.curRec = r ∧
        getRecord sc' bm' = some (Except.ok rec) ∧ sc.matchRec fsub rec = some true ∧
        scanPages ops k sc bm = some pages ∧ firstMatch fsub sc pages = some r) ∧
    (∀ k pages f, scanPages ops k sc bm = some pages →
      (pages.getLast?.map Page.nextPage).getD (-1) = -1 →
      (∀ p ∈ pages, ∀ e ∈ p.records, (sc.matchRec fsub e.2).isSome = true) → k < f →
      ∃ st rid sc' bm', scanNext ops fsub f sc bm = some (st, rid, sc', bm') ∧
        rid = firstMatch fsub sc pages ∧
        (st = if (firstMatch fsub sc pages).isSome then Status.OK else Status.FILEEOF) ∧
        (st = Status.FILEEOF ↔
          ∀ p ∈ pages, ∀ e ∈ p.records, sc.matchRec fsub e.2 ≠ some true)) := by
  have hiff : ∀ (pages : List Page) (st : Status),
      (st = if (firstMatch fsub sc pages).isSome then Status.OK else Status.FILEEOF) →
      (st = Status.FILEEOF ↔
        ∀ p ∈ pages, ∀ e ∈ p.records, sc.matchRec fsub e.2 ≠ some true) := by
    intro pages st hst
    rw [← firstMatch_eq_none_iff]
    cases hfm : firstMatch fsub sc pages with
    | none =>
      rw [hfm] at hst
      exact ⟨fun _ => rfl, fun _ => hst⟩
    | some r =>
      rw [hfm] at hst
      constructor
      · intro h
        rw [h] at hst
        exact absurd hst (by simp)
      · intro h
        exact absurd h (by simp)
  rcases scanNext_entry ops fsub sc bm with ⟨h1, h2⟩ | ⟨sc3, bm1, hsf, h1, h2⟩ | ⟨h1, h2⟩
  · refine ⟨?_, ?_⟩
    · intro f rid sc' bm' h
      obtain ⟨sc0, h0⟩ := h1 f
      rw [h0] at h
      simp only [Option.some.injEq, Prod.mk.injEq] at h
      exact absurd h.1 (by simp)
    · intro k pages f hp _ _ _
      rw [h2 k] at hp
      have e : pages = [] := (Option.some.inj hp).symm
      subst e
      obtain ⟨sc0, h0⟩ := h1 f
      exact ⟨_, _, _, _, h0, rfl, rfl, hiff [] _ rfl⟩
  · refine ⟨?_, ?_⟩
    · intro f rid sc' bm' h
      rw [h1 f] at h
      obtain ⟨r, rec, k, pages, fr, k1, k2, k3, k4, k5, k6, k7⟩ :=
        pageLoop_sound ops fsub f sc3 bm1 rid sc' bm' h
      refine ⟨r, rec, k, pages, k1, k2, ?_, ?_, by rw [h2 k]; exact k6, ?_⟩
      · unfold getRecord
        rw [k3, k2]
        dsimp only
        rw [k4]
      · rw [← k5]
        exact (matchRec_params fsub sc3 sc hsf.2.1 hsf.2.2.1 hsf.2.2.2.1 hsf.2.2.2.2.1
          hsf.2.2.2.2.2 rec).symm
      · rw [← firstMatch_params fsub hsf]
        exact k7
    · intro k pages f hp hend htot hf
      rw [h2 k] at hp
      obtain ⟨st, rid, sc', bm', k1, k2, k3⟩ := pageLoop_complete ops fsub k sc3 bm1 pages hp
        hend (fun p hp e he => by
          rw [matchRec_params fsub sc3 sc hsf.2.1 hsf.2.2.1 hsf.2.2.2.1 hsf.2.2.2.2.1
            hsf.2.2.2.2.2 e.2]
          exact htot p hp e he) f hf
      rw [firstMatch_params fsub hsf] at k2 k3
      exact ⟨st, rid, sc', bm', by rw [h1 f]; exact k1, k2, k3, hiff pages st k3⟩
  · refine ⟨?_, ?_⟩
    · intro f rid sc' bm' h
      exact absurd rfl (h2 f _ h)
    · intro k pages f hp _ _ _
      rw [h1 k] at hp
      exact absurd hp (by simp)

end HeapFileScan

/-- Scan soundness on two files: on `heap2` with the filter `LT 4` the first
`scanNext` returns RID (3, 0), the first match of the chain of pages 2 and 3;
on a file whose only page is empty it returns `FILEEOF`. -/
theorem scanNext_first_match_witness :
    (∃ sc bm sc' bm' k pages, openScan heap2 Operator.LT 4 = some (sc, bm) ∧
      HeapFileScan.scanNext memOps noFloat 8 sc bm = some (Status.OK, some ⟨3, 0⟩, sc', bm') ∧
      sc'.curRec = ⟨3, 0⟩ ∧ HeapFileScan.scanPages memOps k sc bm = some pages ∧
      HeapFileScan.firstMatch noFloat sc pages = some ⟨3, 0⟩) ∧
    ∃ sc bm sc' bm', openScan heapEmpty Operator.LT 4 = some (sc, bm) ∧
      HeapFileScan.scanNext memOps noFloat 8 sc bm = some (Status.FILEEOF, none, sc', bm') := by
  have h1 : ∃ sc bm sc' bm', openScan heap2 Operator.LT 4 = some (sc, bm) ∧
      HeapFileScan.scanNext memOps noFloat 8 sc bm =
        some (Status.OK, some ⟨3, 0⟩, sc', bm') := ⟨_, _, _, _, rfl, rfl⟩
  have h2 : ∃ sc bm pages, openScan heapEmpty Operator.LT 4 = some (sc, bm) ∧
      HeapFileScan.scanPages memOps 3 sc bm = some pages ∧
      (pages.getLast?.map Page.nextPage).getD (-1) = -1 ∧
      (∀ p ∈ pages, ∀ e ∈ p.records, (sc.matchRec noFloat e.2).isSome = true) ∧
      HeapFileScan.firstMatch noFloat sc pages = none :=
    ⟨_, _, _, rfl, rfl, by decide, by decide, rfl⟩
  obtain ⟨sc, bm, sc', bm', hopen, hnext⟩ := h1
  obtain ⟨sce, bme, pages, hopene, hpages, hend, htot, hfm⟩ := h2
  obtain ⟨r, rec, k, pgs, hr, hcur, -, -, hsp, hf⟩ :=
    (HeapFileScan.scanNext_first_match memOps noFloat sc bm).1 8 _ sc' bm' hnext
  have e : r = ⟨3, 0⟩ := (Option.some.inj hr).symm
  subst e
  obtain ⟨st, rid, sce', bme', hres, hrid, hst, -⟩ :=
    (HeapFileScan.scanNext_first_match memOps noFloat sce bme).2 3 pages 8 hpages hend htot
      (by decide)
  rw [hfm] at hrid hst
  subst hrid
  have hst1 : st = Status.FILEEOF := hst
  subst hst1
  exact ⟨⟨sc, bm, sc', bm', k, pgs, hopen, hnext, hcur, hsp, hf⟩,
    sce, bme, sce', bme', hopene, hres⟩

/-! ## A delete that does not reach the file -/

/-- C17 fails on a file of two data pages (keys 3 and 1 on page 2, key 3 on
page 3) scanned for `EQ 3`: `scanNext` stops on RID (2, 0), `deleteRecord`
returns `OK` and `getRecCnt` drops from 3 to 2; the next `scanNext` goes on to
page 3 without unpinning page 2, so that when scan and pool are destroyed the
frame of page 2 is still pinned and clean (the dirty flag of the scan went to
page 3 instead) and only the header and page 3 are written.  Page 2 of the
store still holds both records, and a new scan for `EQ 3` of the file, opened
on a new pool, returns RID (2, 0) again, with `getRecCnt = 2`. -/
theorem deleteRecord_lost_on_page_change :
    deleteThenClose.map (fun r => (r.1, r.2.1, r.2.2.1, r.2.2.2.1, r.2.2.2.2.1)) =
      some (some ⟨2, 0⟩, Status.OK, some 2, (Status.OK, some ⟨3, 0⟩),
        [(1, 0, true), (2, 1, false), (3, 0, true)]) ∧
    (openScan heapDel Operator.EQ 3).map (fun s => HeapFile.getRecCnt s.1 s.2) =
      some (some 3) ∧
    deleteThenClose.map (fun r => r.2.2.2.2.2.pages.lookup (7, 2)) =
      some (some (dataPage 2 3 [3, 1])) ∧
    scanAfterDelete = some (Status.OK, some ⟨2, 0⟩, some 2) :=
  ⟨rfl, rfl, rfl, rfl⟩
